import Mathlib

/-!
Verification of the template field-substitution engine of
`generate_muzekkere.py`.

The program operates on decoded XML text (Python `str`), modelled here as
`List Char`.  Python's string primitives used by the program
(`str.count`, `str.replace`, `str.find`, slicing) and the handful of
concrete regular expressions it uses (all of which parse
deterministically, see the per-matcher comments) are embedded as
executable Lean functions.  Scanning functions that skip over matched
regions take an explicit fuel argument (always instantiated with the
length of the scanned text) so that every definition is structurally
recursive and computes by `decide`.

Character classes: the program's inputs are XML produced by `textutil`;
the `\s` and `\d` regex classes are modelled by their ASCII portions,
which is exact on every character the embedded patterns can actually
touch in such text.
-/

set_option maxRecDepth 8192

namespace Muz

abbrev L := List Char

/-- ASCII whitespace, the relevant portion of Python's regex `\s`. -/
def isWS (c : Char) : Bool :=
  c = ' ' || c = '\t' || c = '\n' || c = '\r' || c = '\x0b' || c = '\x0c'

/-- ASCII digits, the relevant portion of Python's regex `\d`. -/
def isDigit (c : Char) : Bool :=
  '0' ≤ c && c ≤ '9'

/-- The character class `[A-ZÇĞİÖŞÜ]` of the case-number patterns. -/
def isUpperTR (c : Char) : Bool :=
  ('A' ≤ c && c ≤ 'Z') || c = 'Ç' || c = 'Ğ' || c = 'İ' || c = 'Ö' || c = 'Ş' || c = 'Ü'

/-- Index of the first occurrence of `pat` in `s` (Python `str.find`,
restricted to found/not-found as `Option`). -/
def findSubIdx (pat : L) : L → Option Nat
  | [] => if pat.isPrefixOf [] then some 0 else none
  | c :: t =>
      if pat.isPrefixOf (c :: t) then some 0
      else (findSubIdx pat t).map (· + 1)

/-- Python `text.count(old)`: number of non-overlapping occurrences,
scanning left to right.  The auxiliary `skip` counter lets the scan jump
over a just-matched occurrence while keeping the recursion structural. -/
def countAux (old : L) : Nat → L → Nat
  | _, [] => 0
  | Nat.succ k, _ :: t => countAux old k t
  | 0, c :: t =>
      if old.isPrefixOf (c :: t) then countAux old (old.length - 1) t + 1
      else countAux old 0 t

/-- Python `text.count(old)` (for empty `old`, Python returns `len+1`). -/
def pyCount (text old : L) : Nat :=
  if old.isEmpty then text.length + 1 else countAux old 0 text

/-- Python `text.replace(old, new, 1)` for nonempty `old`: replace the
first occurrence, leave the text unchanged if there is none. -/
def replaceFirstAux (old new : L) : L → L
  | [] => []
  | c :: t =>
      if old.isPrefixOf (c :: t) then new ++ t.drop (old.length - 1)
      else c :: replaceFirstAux old new t

/-- Python `text.replace(old, new, 1)` (empty `old` prepends `new`). -/
def pyReplaceFirst (text old new : L) : L :=
  if old.isEmpty then new ++ text else replaceFirstAux old new text

/-- Python `text.replace(old, new)` for nonempty `old`: replace every
non-overlapping occurrence, left to right (`skip` as in `countAux`). -/
def replaceAllAux (old new : L) : Nat → L → L
  | _, [] => []
  | Nat.succ k, _ :: t => replaceAllAux old new k t
  | 0, c :: t =>
      if old.isPrefixOf (c :: t) then new ++ replaceAllAux old new (old.length - 1) t
      else c :: replaceAllAux old new 0 t

/-- Python `text.replace(old, new)` with nonempty `old`. -/
def pyReplaceAll (text old new : L) : L :=
  replaceAllAux old new 0 text

/-- `replace_exact_once` from the source: require exactly one occurrence
of `old`, then replace it. -/
def replace_exact_once (text old new : L) (label : String) : Except String L :=
  let count := pyCount text old
  if count ≠ 1 then
    Except.error ("Şablonda '" ++ label ++
      "' için beklenen metin 1 kez bulunmalıydı, bulunan adet: " ++ toString count)
  else
    Except.ok (pyReplaceFirst text old new)

/-! ### Basic lemmas about the string primitives -/

theorem isPrefixOf_iff (l₁ l₂ : L) : l₁.isPrefixOf l₂ = true ↔ l₁ <+: l₂ := by
  exact List.isPrefixOf_iff_prefix

theorem countAux_skip (old : L) (k : Nat) (t : L) :
    countAux old k t = countAux old 0 (t.drop k) := by
  induction t generalizing k with
  | nil => cases k <;> simp [countAux]
  | cons c t ih =>
      cases k with
      | zero => simp
      | succ k => simpa [countAux] using ih k

theorem replaceAllAux_skip (old new : L) (k : Nat) (t : L) :
    replaceAllAux old new k t = replaceAllAux old new 0 (t.drop k) := by
  induction t generalizing k with
  | nil => cases k <;> simp [replaceAllAux]
  | cons c t ih =>
      cases k with
      | zero => simp
      | succ k => simpa [replaceAllAux] using ih k

theorem countAux_cons (old : L) (hold : old ≠ []) (c : Char) (t : L) :
    countAux old 0 (c :: t) =
      if old.isPrefixOf (c :: t) then countAux old 0 ((c :: t).drop old.length) + 1
      else countAux old 0 t := by
  by_cases h : old.isPrefixOf (c :: t) = true
  · rw [countAux, if_pos h, if_pos h, countAux_skip]
    obtain ⟨o, os, rfl⟩ := List.exists_cons_of_ne_nil hold
    simp [List.drop]
  · rw [countAux, if_neg h, if_neg h]

theorem replaceAllAux_cons (old new : L) (hold : old ≠ []) (c : Char) (t : L) :
    replaceAllAux old new 0 (c :: t) =
      if old.isPrefixOf (c :: t) then
        new ++ replaceAllAux old new 0 ((c :: t).drop old.length)
      else c :: replaceAllAux old new 0 t := by
  by_cases h : old.isPrefixOf (c :: t) = true
  · rw [replaceAllAux, if_pos h, if_pos h, replaceAllAux_skip]
    obtain ⟨o, os, rfl⟩ := List.exists_cons_of_ne_nil hold
    simp [List.drop]
  · rw [replaceAllAux, if_neg h, if_neg h]

theorem prefix_eq_append_drop {l₁ l₂ : L} (h : l₁ <+: l₂) :
    l₂ = l₁ ++ l₂.drop l₁.length := by
  obtain ⟨rest, rfl⟩ := h
  simp

theorem replaceFirstAux_of_count_pos (old new : L) (hold : old ≠ []) :
    ∀ t : L, 0 < countAux old 0 t →
      ∃ pre post, t = pre ++ old ++ post ∧
        replaceFirstAux old new t = pre ++ new ++ post := by
  intro t
  induction t with
  | nil => intro h; simp [countAux] at h
  | cons c t ih =>
      intro h
      by_cases hp : old.isPrefixOf (c :: t) = true
      · refine ⟨[], (c :: t).drop old.length, ?_, ?_⟩
        · simpa using prefix_eq_append_drop ((isPrefixOf_iff _ _).1 hp)
        · rw [replaceFirstAux, if_pos hp]
          obtain ⟨o, os, rfl⟩ := List.exists_cons_of_ne_nil hold
          simp [List.drop]
      · rw [countAux_cons old hold, if_neg hp] at h
        obtain ⟨pre, post, hdec, hrep⟩ := ih h
        refine ⟨c :: pre, post, by simp [hdec], ?_⟩
        rw [replaceFirstAux, if_neg hp, hrep]
        simp

/-- **C2.** `replace_exact_once(T, old, new, label)`: if `old` occurs
exactly once in `T` the result is `T` with that occurrence replaced by
`new` (so the lengths satisfy `len(result) + len(old) = len(T) + len(new)`,
i.e. the result's length is `len(T) + len(new) - len(old)`); if `old`
occurs zero times or two or more times, it fails with a
template-integrity error. -/
theorem replace_exact_once_spec (text old new : L) (label : String) :
    (pyCount text old = 1 →
      ∃ pre post, text = pre ++ old ++ post ∧
        replace_exact_once text old new label = Except.ok (pre ++ new ++ post) ∧
        (pre ++ new ++ post).length + old.length = text.length + new.length) ∧
    (pyCount text old ≠ 1 →
      ∃ msg, replace_exact_once text old new label = Except.error msg) := by
  constructor
  · intro h1
    by_cases hold : old.isEmpty = true
    · have holdnil : old = [] := by simpa [List.isEmpty_iff] using hold
      have htext : text = [] := by
        subst holdnil
        simp [pyCount] at h1
        simpa using h1
      subst holdnil; subst htext
      refine ⟨[], [], by simp, ?_, by simp⟩
      simp [replace_exact_once, pyCount, pyReplaceFirst]
    · have holdnil : old ≠ [] := by simpa [List.isEmpty_iff] using hold
      have hc : countAux old 0 text = 1 := by
        simpa [pyCount, hold] using h1
      obtain ⟨pre, post, hdec, hrep⟩ :=
        replaceFirstAux_of_count_pos old new holdnil text (by omega)
      refine ⟨pre, post, hdec, ?_, ?_⟩
      · simp only [replace_exact_once, h1]
        simp [pyReplaceFirst, hold, hrep]
      · subst hdec; simp; omega
  · intro h1
    refine ⟨"Şablonda '" ++ label ++
      "' için beklenen metin 1 kez bulunmalıydı, bulunan adet: " ++
      toString (pyCount text old), ?_⟩
    simp [replace_exact_once, h1]

/-- Helper to state concrete inputs. -/
def str (s : String) : L := s.data

/-- Concrete instance of C2: `"bc"` occurs exactly once in `"abcd"` and
gets replaced, and a two-occurrence text fails. -/
theorem replace_exact_once_spec_witness :
    (∃ pre post, str "abcd" = pre ++ str "bc" ++ post ∧
        replace_exact_once (str "abcd") (str "bc") (str "XY") "Ad Soyad" =
          Except.ok (pre ++ str "XY" ++ post) ∧
        (pre ++ str "XY" ++ post).length + (str "bc").length =
          (str "abcd").length + (str "XY").length) ∧
    (∃ msg, replace_exact_once (str "abcbc") (str "bc") (str "XY") "Ad Soyad" =
        Except.error msg) :=
  ⟨(replace_exact_once_spec (str "abcd") (str "bc") (str "XY") "Ad Soyad").1 (by decide),
   (replace_exact_once_spec (str "abcbc") (str "bc") (str "XY") "Ad Soyad").2 (by decide)⟩

/-! ### Global replacement: after replacing all occurrences, none remain

The hypotheses `H1`–`H3` below state that `new` contains no occurrence
of `old` and that no replacement boundary can recombine into a new
occurrence; they are decided by `decide` for the concrete alignment
markers used by `normalize_justified_paragraphs`. -/

theorem replaceAllAux_of_no_occurrence (old new : L) (hold : old ≠ []) :
    ∀ t : L, ¬ old <:+: t → replaceAllAux old new 0 t = t := by
  intro t
  induction t with
  | nil => intro _; rfl
  | cons c t ih =>
      intro h
      rw [replaceAllAux_cons old new hold]
      have hp : old.isPrefixOf (c :: t) ≠ true := by
        intro hp
        exact h (((isPrefixOf_iff _ _).1 hp).isInfix)
      rw [if_neg hp, ih (fun hi => h (List.infix_cons hi))]

theorem exists_first_occurrence (old : L) (hold : old ≠ []) :
    ∀ t : L, old <:+: t → ∃ u v, t = u ++ old ++ v ∧
      ∀ u₁ u₂, u₁ ++ u₂ = u → u₂ ≠ [] → ¬ old <+: (u₂ ++ old ++ v) := by
  intro t
  induction t with
  | nil =>
      intro h
      exact absurd (List.infix_nil.1 h) hold
  | cons c t ih =>
      intro h
      by_cases hp : old <+: (c :: t)
      · refine ⟨[], (c :: t).drop old.length, by simpa using prefix_eq_append_drop hp, ?_⟩
        intro u₁ u₂ hu hne
        exact absurd (List.append_eq_nil.1 hu).2 hne
      · have ht : old <:+: t := (List.infix_cons_iff.1 h).resolve_left hp
        obtain ⟨u', v', hdec, cond⟩ := ih ht
        refine ⟨c :: u', v', by simp [hdec], ?_⟩
        intro u₁ u₂ hu hne
        cases u₁ with
        | nil =>
            simp only [List.nil_append] at hu
            subst hu
            simpa [hdec] using hp
        | cons c₀ u₁' =>
            simp only [List.cons_append, List.cons.injEq] at hu
            exact cond u₁' u₂ hu.2 hne

theorem replaceAllAux_first_occ (old new : L) (hold : old ≠ []) :
    ∀ u v : L,
      (∀ u₁ u₂, u₁ ++ u₂ = u → u₂ ≠ [] → ¬ old <+: (u₂ ++ old ++ v)) →
      replaceAllAux old new 0 (u ++ old ++ v) =
        u ++ new ++ replaceAllAux old new 0 v := by
  intro u
  induction u with
  | nil =>
      intro v _
      obtain ⟨o, os, holdeq⟩ := List.exists_cons_of_ne_nil hold
      have hshape : ([] : L) ++ old ++ v = o :: (os ++ v) := by simp [holdeq]
      rw [hshape, replaceAllAux_cons old new hold]
      have hp : old.isPrefixOf (o :: (os ++ v)) = true := by
        rw [isPrefixOf_iff]
        exact ⟨v, by simp [holdeq]⟩
      rw [if_pos hp]
      have hdrop : (o :: (os ++ v)).drop old.length = v := by
        have : (o :: (os ++ v)) = old ++ v := by simp [holdeq]
        rw [this, List.drop_left]
      rw [hdrop]
      simp
  | cons c u' ih =>
      intro v cond
      have hnp : ¬ old <+: ((c :: u') ++ old ++ v) :=
        cond [] (c :: u') rfl (by simp)
      have hshape : (c :: u') ++ old ++ v = c :: (u' ++ old ++ v) := by simp
      rw [hshape, replaceAllAux_cons old new hold]
      have hp : old.isPrefixOf (c :: (u' ++ old ++ v)) ≠ true := by
        intro hp
        exact hnp (by simpa [hshape] using (isPrefixOf_iff _ _).1 hp)
      rw [if_neg hp]
      have cond' : ∀ u₁ u₂, u₁ ++ u₂ = u' → u₂ ≠ [] → ¬ old <+: (u₂ ++ old ++ v) := by
        intro u₁ u₂ hu hne
        exact cond (c :: u₁) u₂ (by simp [hu]) hne
      rw [ih v cond']
      simp

theorem no_infix_of_boundaries (old new : L) (hold : old ≠ [])
    (hlen : old.length ≤ new.length)
    (H1 : ¬ old <:+: new)
    (H2 : ∀ q, q < new.length → 0 < q → ¬ new.drop q <+: old)
    (H3 : ∀ m, m < old.length → 0 < m → ¬ old.drop m <+: new)
    (u v W : L)
    (cond : ∀ u₁ u₂, u₁ ++ u₂ = u → u₂ ≠ [] → ¬ old <+: (u₂ ++ old ++ v))
    (hW : ¬ old <:+: W) :
    ¬ old <:+: (u ++ new ++ W) := by
  rintro ⟨pre, post, heq⟩
  have heq' : u ++ (new ++ W) = pre ++ (old ++ post) := by
    simpa [List.append_assoc] using heq.symm
  rcases List.append_eq_append_iff.1 heq' with ⟨a', hpre, hrest⟩ | ⟨c', hu, hrest⟩
  · -- hrest : new ++ W = a' ++ (old ++ post); occurrence at or after `new`
    rcases List.append_eq_append_iff.1 hrest.symm with ⟨d, hnew, hrest2⟩ | ⟨b, ha', hWdec⟩
    · -- hnew : new = a' ++ d, hrest2 : old ++ post = d ++ W
      rcases List.append_eq_append_iff.1 hrest2 with ⟨e, hd, hpost⟩ | ⟨e, holddec, hWdec⟩
      · -- hd : d = old ++ e: old wholly inside new
        exact H1 ⟨a', e, by rw [hnew, hd, List.append_assoc]⟩
      · -- holddec : old = d ++ e, hWdec : W = e ++ post
        cases hde : d with
        | nil =>
            subst hde
            simp only [List.nil_append] at holddec
            exact hW ⟨[], post, by rw [holddec, hWdec]; simp⟩
        | cons d₀ ds =>
            cases ha'e : a' with
            | nil =>
                subst ha'e
                simp only [List.nil_append] at hnew
                have he : e = [] := by
                  have h1 : old.length = d.length + e.length := by rw [holddec]; simp
                  have h2 : new.length = d.length := by rw [hnew]
                  have h3 := hlen
                  have h4 : e.length = 0 := by omega
                  exact List.length_eq_zero.1 h4
                subst he
                simp only [List.append_nil] at holddec
                exact H1 (by rw [holddec, hnew])
            | cons a₀ as =>
                have hdq : d = new.drop a'.length := by
                  rw [hnew, List.drop_left]
                have hq1 : a'.length < new.length := by
                  have h1 : new.length = a'.length + d.length := by rw [hnew]; simp
                  have h2 : 0 < d.length := by rw [hde]; simp
                  omega
                have hq2 : 0 < a'.length := by rw [ha'e]; simp
                exact H2 a'.length hq1 hq2 (hdq ▸ ⟨e, holddec.symm⟩)
    · -- ha' : a' = new ++ b, hWdec : W = b ++ (old ++ post): inside W
      exact hW ⟨b, post, by rw [hWdec, List.append_assoc]⟩
  · -- hu : u = pre ++ c', hrest : old ++ post = c' ++ (new ++ W)
    cases hc' : c' with
    | nil =>
        subst hc'
        simp only [List.nil_append] at hrest
        rcases List.append_eq_append_iff.1 hrest with ⟨e, hnew, hpost⟩ | ⟨e, holddec, hWdec⟩
        · -- hnew : new = old ++ e
          exact H1 ⟨[], e, by rw [hnew]; simp⟩
        · -- holddec : old = new ++ e
          have he : e = [] := by
            have h1 : old.length = new.length + e.length := by rw [holddec]; simp
            have : e.length = 0 := by omega
            exact List.length_eq_zero.1 this
          subst he
          simp only [List.append_nil] at holddec
          exact H1 (holddec ▸ List.infix_rfl)
    | cons c₀ cs =>
        rcases List.append_eq_append_iff.1 hrest with ⟨e, hc'dec, hpost⟩ | ⟨e, holddec, hrest2⟩
        · -- hc'dec : c' = old ++ e: old occurs inside u, contradicting firstness
          refine cond pre c' hu.symm (by rw [hc']; simp) ?_
          rw [hc'dec]
          exact ⟨e ++ old ++ v, by simp⟩
        · -- holddec : old = c' ++ e, hrest2 : new ++ W = e ++ post
          cases hee : e with
          | nil =>
              subst hee
              simp only [List.append_nil] at holddec
              refine cond pre c' hu.symm (by rw [hc']; simp) ?_
              rw [← holddec]
              exact ⟨old ++ v, by simp⟩
          | cons e₀ es =>
              rcases List.append_eq_append_iff.1 hrest2 with ⟨f, he2, hWdec⟩ | ⟨f, hnew, hpost⟩
              · -- he2 : e = new ++ f: impossible by lengths
                have h1 : old.length = c'.length + e.length := by rw [holddec]; simp
                have h2 : e.length = new.length + f.length := by rw [he2]; simp
                have h3 : 0 < c'.length := by rw [hc']; simp
                omega
              · -- hnew : new = e ++ f: nonempty proper suffix of old is a prefix of new
                have hm : e = old.drop c'.length := by
                  rw [holddec, List.drop_left]
                have hm1 : c'.length < old.length := by
                  have h1 : old.length = c'.length + e.length := by rw [holddec]; simp
                  have h2 : 0 < e.length := by rw [hee]; simp
                  omega
                have hm2 : 0 < c'.length := by rw [hc']; simp
                exact H3 c'.length hm1 hm2 (hm ▸ ⟨f, hnew.symm⟩)

theorem no_infix_replaceAllAux (old new : L) (hold : old ≠ [])
    (hlen : old.length ≤ new.length)
    (H1 : ¬ old <:+: new)
    (H2 : ∀ q, q < new.length → 0 < q → ¬ new.drop q <+: old)
    (H3 : ∀ m, m < old.length → 0 < m → ¬ old.drop m <+: new) :
    ∀ n, ∀ t : L, t.length ≤ n → ¬ old <:+: replaceAllAux old new 0 t := by
  intro n
  induction n with
  | zero =>
      intro t ht
      have : t = [] := List.length_eq_zero.1 (by omega)
      subst this
      intro h
      exact hold (List.infix_nil.1 (by simpa [replaceAllAux] using h))
  | succ n ih =>
      intro t ht
      by_cases hocc : old <:+: t
      · obtain ⟨u, v, hdec, cond⟩ := exists_first_occurrence old hold t hocc
        subst hdec
        rw [replaceAllAux_first_occ old new hold u v cond]
        refine no_infix_of_boundaries old new hold hlen H1 H2 H3 u v _ cond (ih v ?_)
        have : old.length ≠ 0 := by simpa using hold
        simp at ht
        omega
      · rw [replaceAllAux_of_no_occurrence old new hold t hocc]
        exact hocc

/-! ### `normalize_justified_paragraphs` -/

/-- The justified-alignment marker. -/
def jcBoth : L := str "<w:jc w:val=\"both\"/>"

/-- The left-alignment marker. -/
def jcLeft : L := str "<w:jc w:val=\"left\"/>"

/-- `normalize_justified_paragraphs` from the source:
`xml.replace('<w:jc w:val="both"/>', '<w:jc w:val="left"/>')`. -/
def normalize_justified_paragraphs (xml : L) : L :=
  pyReplaceAll xml jcBoth jcLeft

/-- **C7.** `normalize_justified_paragraphs` rewrites every justified
alignment marker (it never fails, and no justified marker survives in
its output, whether the input had zero, one or many), a zero-occurrence
input passes through unchanged, and the operation is idempotent. -/
theorem normalize_justified_paragraphs_spec (xml : L) :
    ¬ jcBoth <:+: normalize_justified_paragraphs xml ∧
    (¬ jcBoth <:+: xml → normalize_justified_paragraphs xml = xml) ∧
    normalize_justified_paragraphs (normalize_justified_paragraphs xml) =
      normalize_justified_paragraphs xml := by
  have hold : jcBoth ≠ [] := by decide
  have hno : ¬ jcBoth <:+: normalize_justified_paragraphs xml := by
    refine no_infix_replaceAllAux jcBoth jcLeft hold (by decide) (by decide)
      (by decide) (by decide) xml.length xml le_rfl
  refine ⟨hno, ?_, ?_⟩
  · intro h
    exact replaceAllAux_of_no_occurrence jcBoth jcLeft hold xml h
  · exact replaceAllAux_of_no_occurrence jcBoth jcLeft hold _ hno

/-- Concrete instance of C7: a text whose justified marker is rewritten,
including the pass-through conjunct at a marker-free input. -/
theorem normalize_justified_paragraphs_spec_witness :
    normalize_justified_paragraphs (str "<w:p><w:jc w:val=\"both\"/>x</w:p>") =
      str "<w:p><w:jc w:val=\"left\"/>x</w:p>" ∧
    normalize_justified_paragraphs (str "<w:p>abc</w:p>") = str "<w:p>abc</w:p>" :=
  ⟨by decide,
   (normalize_justified_paragraphs_spec (str "<w:p>abc</w:p>")).2.1 (by decide)⟩

/-! ### Lemmas about `findSubIdx` and occurrence counting -/

theorem findSubIdx_some_le (pat : L) :
    ∀ s k, findSubIdx pat s = some k → k + pat.length ≤ s.length := by
  intro s
  induction s with
  | nil =>
      intro k h
      rw [findSubIdx] at h
      by_cases hp : pat.isPrefixOf ([] : L) = true
      · rw [if_pos hp] at h
        have hpat : pat = [] := by simpa using (isPrefixOf_iff _ _).1 hp
        have hk : k = 0 := (Option.some.inj h).symm
        simp [hpat, hk]
      · rw [if_neg hp] at h; cases h
  | cons c t ih =>
      intro k h
      rw [findSubIdx] at h
      by_cases hp : pat.isPrefixOf (c :: t) = true
      · rw [if_pos hp] at h
        have hk : k = 0 := (Option.some.inj h).symm
        subst hk
        simpa using ((isPrefixOf_iff _ _).1 hp).length_le
      · rw [if_neg hp] at h
        cases hfi : findSubIdx pat t with
        | none => rw [hfi] at h; cases h
        | some k' =>
            rw [hfi] at h
            have hk : k = k' + 1 := (Option.some.inj h).symm
            subst hk
            have := ih k' hfi
            simp
            omega

theorem findSubIdx_some_decomp (pat : L) :
    ∀ s k, findSubIdx pat s = some k →
      s = s.take k ++ pat ++ s.drop (k + pat.length) := by
  intro s
  induction s with
  | nil =>
      intro k h
      rw [findSubIdx] at h
      by_cases hp : pat.isPrefixOf ([] : L) = true
      · rw [if_pos hp] at h
        have h0 : pat = [] := by simpa using (isPrefixOf_iff _ _).1 hp
        simp [h0]
      · rw [if_neg hp] at h; cases h
  | cons c t ih =>
      intro k h
      rw [findSubIdx] at h
      by_cases hp : pat.isPrefixOf (c :: t) = true
      · rw [if_pos hp] at h
        have hk : k = 0 := (Option.some.inj h).symm
        subst hk
        simpa using prefix_eq_append_drop ((isPrefixOf_iff _ _).1 hp)
      · rw [if_neg hp] at h
        cases hfi : findSubIdx pat t with
        | none => rw [hfi] at h; cases h
        | some k' =>
            rw [hfi] at h
            have hk : k = k' + 1 := (Option.some.inj h).symm
            subst hk
            have := ih k' hfi
            simpa [List.take_succ_cons, List.drop_succ_cons, Nat.succ_add] using this

theorem findSubIdx_none_no_occurrence (pat : L) (hpat : pat ≠ []) :
    ∀ s, findSubIdx pat s = none → ¬ pat <:+: s := by
  intro s
  induction s with
  | nil =>
      intro _ h
      exact hpat (List.infix_nil.1 h)
  | cons c t ih =>
      intro h hi
      rw [findSubIdx] at h
      by_cases hp : pat.isPrefixOf (c :: t) = true
      · rw [if_pos hp] at h; cases h
      · rw [if_neg hp] at h
        rcases List.infix_cons_iff.1 hi with hpre | hinf
        · exact hp ((isPrefixOf_iff _ _).2 hpre)
        · cases hfi : findSubIdx pat t with
          | none => exact ih hfi hinf
          | some k' => rw [hfi] at h; cases h

theorem findSubIdx_isSome_of_infix (pat : L) (hpat : pat ≠ []) (s : L)
    (h : pat <:+: s) : ∃ k, findSubIdx pat s = some k := by
  cases hfi : findSubIdx pat s with
  | none => exact absurd h (findSubIdx_none_no_occurrence pat hpat s hfi)
  | some k => exact ⟨k, rfl⟩

theorem findSubIdx_some_first (pat : L) :
    ∀ s k, findSubIdx pat s = some k → ∀ j, j < k → ¬ pat <+: s.drop j := by
  intro s
  induction s with
  | nil =>
      intro k h j hj
      rw [findSubIdx] at h
      by_cases hp : pat.isPrefixOf ([] : L) = true
      · rw [if_pos hp] at h
        have hk : k = 0 := (Option.some.inj h).symm
        omega
      · rw [if_neg hp] at h; cases h
  | cons c t ih =>
      intro k h j hj
      rw [findSubIdx] at h
      by_cases hp : pat.isPrefixOf (c :: t) = true
      · rw [if_pos hp] at h
        have hk : k = 0 := (Option.some.inj h).symm
        omega
      · rw [if_neg hp] at h
        cases hfi : findSubIdx pat t with
        | none => rw [hfi] at h; cases h
        | some k' =>
            rw [hfi] at h
            have hk : k = k' + 1 := (Option.some.inj h).symm
            subst hk
            cases j with
            | zero =>
                intro hpre
                exact hp ((isPrefixOf_iff _ _).2 hpre)
            | succ j' =>
                intro hpre
                exact ih k' hfi j' (by omega) (by simpa using hpre)

theorem countAux_pos_of_occurrence (old : L) (hold : old ≠ []) :
    ∀ s, old <:+: s → 0 < countAux old 0 s := by
  intro s
  induction s with
  | nil => intro h; exact absurd (List.infix_nil.1 h) hold
  | cons c t ih =>
      intro h
      rw [countAux_cons old hold]
      by_cases hp : old.isPrefixOf (c :: t) = true
      · rw [if_pos hp]; omega
      · rw [if_neg hp]
        rcases List.infix_cons_iff.1 h with hpre | hinf
        · exact absurd ((isPrefixOf_iff _ _).2 hpre) hp
        · exact ih hinf

/-! ### `tighten_header_date_position` -/

/-- Match of the opening-tag pattern `<w:X(?:\s[^>]*)?>` at the head of
`s` (`X` = `tagChar`), returning the matched length.  The regex parses
deterministically: after `<w:X`, either `>` follows immediately, or a
whitespace character follows and the tag extends to the first `>`
(backtracking cannot produce any other parse, since `[^>]*` excludes `>`
and the empty branch of the optional group demands `>` where a
whitespace character stands). -/
def tagOpenLen (tagChar : Char) (s : L) : Option Nat :=
  match s with
  | '<' :: 'w' :: ':' :: c₀ :: c :: rest =>
      if c₀ = tagChar then
        if c = '>' then some 5
        else if isWS c then
          match findSubIdx ['>'] rest with
          | some k => some (6 + k)
          | none => none
        else none
      else none
  | _ => none

theorem tagOpenLen_pos_le (tagChar : Char) (s : L) (n : Nat)
    (h : tagOpenLen tagChar s = some n) : 0 < n ∧ n ≤ s.length := by
  unfold tagOpenLen at h
  split at h
  case _ c₀ c rest =>
      by_cases h₀ : c₀ = tagChar
      · rw [if_pos h₀] at h
        by_cases h₁ : c = '>'
        · rw [if_pos h₁] at h
          have hn : n = 5 := (Option.some.inj h).symm
          simp [hn]
        · rw [if_neg h₁] at h
          by_cases h₂ : isWS c = true
          · rw [if_pos h₂] at h
            cases hfi : findSubIdx ['>'] rest with
            | none => rw [hfi] at h; cases h
            | some k =>
                rw [hfi] at h
                have hn : n = 6 + k := (Option.some.inj h).symm
                have := findSubIdx_some_le ['>'] rest k hfi
                simp at this
                simp [hn]
                omega
          · rw [if_neg h₂] at h; cases h
      · rw [if_neg h₀] at h; cases h
  case _ => cases h

/-- Start positions of the non-overlapping matches of the run-opening
pattern `<w:r(?:\s[^>]*)?>` produced by `re.finditer`, scanning left to
right (`fuel` is instantiated with the text's length). -/
def runStartsF : Nat → Nat → L → List Nat
  | 0, _, _ => []
  | _ + 1, _, [] => []
  | fuel + 1, pos, c :: t =>
      match tagOpenLen 'r' (c :: t) with
      | some n => pos :: runStartsF fuel (pos + n) ((c :: t).drop n)
      | none => runStartsF fuel (pos + 1) t

theorem runStartsF_mem_bounds :
    ∀ fuel pos (s : L), ∀ x ∈ runStartsF fuel pos s, pos ≤ x ∧ x < pos + s.length := by
  intro fuel
  induction fuel with
  | zero => intro pos s x hx; simp [runStartsF] at hx
  | succ fuel ih =>
      intro pos s x hx
      match s with
      | [] => simp [runStartsF] at hx
      | c :: t =>
          rw [runStartsF] at hx
          cases htag : tagOpenLen 'r' (c :: t) with
          | some n =>
              rw [htag] at hx
              obtain ⟨hn0, hnle⟩ := tagOpenLen_pos_le 'r' (c :: t) n htag
              rcases List.mem_cons.1 hx with rfl | hx'
              · simp
              · have := ih (pos + n) ((c :: t).drop n) x hx'
                simp [List.length_drop] at this
                simp
                omega
          | none =>
              rw [htag] at hx
              have := ih (pos + 1) t x hx
              simp at this ⊢
              omega

theorem runStartsF_chain :
    ∀ fuel pos (s : L), List.Chain' (· < ·) (runStartsF fuel pos s) := by
  intro fuel
  induction fuel with
  | zero => intro pos s; simp [runStartsF]
  | succ fuel ih =>
      intro pos s
      match s with
      | [] => simp [runStartsF]
      | c :: t =>
          rw [runStartsF]
          cases htag : tagOpenLen 'r' (c :: t) with
          | some n =>
              obtain ⟨hn0, _⟩ := tagOpenLen_pos_le 'r' (c :: t) n htag
              refine List.chain'_cons'.2 ⟨?_, ih (pos + n) _⟩
              intro b hb
              have hmem : b ∈ runStartsF fuel (pos + n) ((c :: t).drop n) :=
                List.mem_of_mem_head? hb
              have := runStartsF_mem_bounds fuel (pos + n) _ b hmem
              omega
          | none => exact ih (pos + 1) t

/-- The fixed header marker `'<w:t xml:space="preserve">ANKARA, </w:t>'`. -/
def ankaraMarker : L := str "<w:t xml:space=\"preserve\">ANKARA, </w:t>"

/-- The tab-stop element `'<w:tab/>'`. -/
def tabTag : L := str "<w:tab/>"

/-- `tighten_header_date_position` from the source: locate the header
marker, take the last two run starts before it, require a tab-stop in
the spacer run between them, and delete the spacer's first tab-stop. -/
def tighten_header_date_position (xml : L) : Except String L :=
  match findSubIdx ankaraMarker xml with
  | none => Except.error "Şablonda 'ANKARA, ' başlık alanı bulunamadı."
  | some markerIdx =>
      let pre := xml.take markerIdx
      let runStarts := runStartsF pre.length 0 pre
      if runStarts.length < 2 then
        Except.error "Şablonda ANKARA satırı run bilgisi bulunamadı."
      else
        let ankaraRunStart := runStarts.getD (runStarts.length - 1) 0
        let spacerRunStart := runStarts.getD (runStarts.length - 2) 0
        let spacerRun := (xml.take ankaraRunStart).drop spacerRunStart
        if findSubIdx tabTag spacerRun = none then
          Except.error "Şablonda ANKARA satırı için beklenen tab boşluğu bulunamadı."
        else
          Except.ok (xml.take spacerRunStart ++ pyReplaceFirst spacerRun tabTag [] ++
            xml.drop ankaraRunStart)

theorem pyReplaceFirst_length (s old new : L) (hold : old ≠ []) (h : old <:+: s) :
    (pyReplaceFirst s old new).length + old.length = s.length + new.length := by
  obtain ⟨pre, post, hdec, hrep⟩ :=
    replaceFirstAux_of_count_pos old new hold s (countAux_pos_of_occurrence old hold s h)
  have : pyReplaceFirst s old new = pre ++ new ++ post := by
    rw [pyReplaceFirst, if_neg (by simpa [List.isEmpty_iff] using hold), hrep]
  rw [this, hdec]
  simp
  omega

/-- **C8 (amended).** `tighten_header_date_position` fails when the
`'ANKARA, '` marker is absent, when fewer than two run starts precede
it, or when the spacer run (between the second-to-last and last run
starts before the marker) contains no tab-stop; it succeeds whenever the
spacer contains **at least one** tab-stop (not only exactly one), and on
success it removes exactly one tab-stop occurrence from the spacer,
leaving the rest of the text untouched. -/
theorem tighten_header_date_position_spec (xml : L) :
    (findSubIdx ankaraMarker xml = none →
        tighten_header_date_position xml =
          Except.error "Şablonda 'ANKARA, ' başlık alanı bulunamadı.") ∧
    (∀ i, findSubIdx ankaraMarker xml = some i →
      ((runStartsF (xml.take i).length 0 (xml.take i)).length < 2 →
          tighten_header_date_position xml =
            Except.error "Şablonda ANKARA satırı run bilgisi bulunamadı.") ∧
      (∀ starts, starts = runStartsF (xml.take i).length 0 (xml.take i) →
        2 ≤ starts.length →
        ∀ spacer, spacer = (xml.take (starts.getD (starts.length - 1) 0)).drop
            (starts.getD (starts.length - 2) 0) →
        ((¬ tabTag <:+: spacer →
            tighten_header_date_position xml =
              Except.error "Şablonda ANKARA satırı için beklenen tab boşluğu bulunamadı.") ∧
         (tabTag <:+: spacer → ∃ spre spost, spacer = spre ++ tabTag ++ spost ∧
            tighten_header_date_position xml =
              Except.ok (xml.take (starts.getD (starts.length - 2) 0) ++
                (spre ++ spost) ++ xml.drop (starts.getD (starts.length - 1) 0)))))) := by
  constructor
  · intro hfi
    unfold tighten_header_date_position
    rw [hfi]
  · intro i hfi
    constructor
    · intro hlt
      unfold tighten_header_date_position
      rw [hfi]
      simp only []
      rw [if_pos hlt]
    · intro starts hstarts h2 spacer hspacer
      constructor
      · intro hni
        have htab : findSubIdx tabTag spacer = none := by
          cases hf : findSubIdx tabTag spacer with
          | none => rfl
          | some k =>
              exfalso
              have hdec := findSubIdx_some_decomp tabTag spacer k hf
              exact hni ⟨spacer.take k, spacer.drop (k + tabTag.length), hdec.symm⟩
        unfold tighten_header_date_position
        rw [hfi]
        simp only []
        rw [← hstarts, if_neg (by omega : ¬ starts.length < 2), ← hspacer, if_pos htab]
      · intro hinf
        have holdne : tabTag ≠ [] := by decide
        obtain ⟨pre, post, hdec, hrep⟩ :=
          replaceFirstAux_of_count_pos tabTag [] holdne spacer
            (countAux_pos_of_occurrence tabTag holdne spacer hinf)
        refine ⟨pre, post, hdec, ?_⟩
        have htab : findSubIdx tabTag spacer ≠ none := by
          obtain ⟨k, hk⟩ := findSubIdx_isSome_of_infix tabTag holdne spacer hinf
          rw [hk]; simp
        unfold tighten_header_date_position
        rw [hfi]
        simp only []
        rw [← hstarts, if_neg (by omega : ¬ starts.length < 2), ← hspacer, if_neg htab]
        have : pyReplaceFirst spacer tabTag [] = pre ++ post := by
          rw [pyReplaceFirst, if_neg (by simpa [List.isEmpty_iff] using holdne), hrep]
          simp
        rw [this]

/-- Concrete instance of the C8 theorem: marker present, two run starts,
one tab-stop in the spacer, success with the tab removed. -/
theorem tighten_header_date_position_spec_witness :
    ∃ spre spost,
      ((str "<w:r><w:tab/></w:r><w:r><w:t xml:space=\"preserve\">ANKARA, </w:t>").take 19).drop 0 =
        spre ++ tabTag ++ spost ∧
      tighten_header_date_position
          (str "<w:r><w:tab/></w:r><w:r><w:t xml:space=\"preserve\">ANKARA, </w:t>") =
        Except.ok
          ((str "<w:r><w:tab/></w:r><w:r><w:t xml:space=\"preserve\">ANKARA, </w:t>").take 0 ++
            (spre ++ spost) ++
            (str "<w:r><w:tab/></w:r><w:r><w:t xml:space=\"preserve\">ANKARA, </w:t>").drop 19) := by
  have h := (tighten_header_date_position_spec
      (str "<w:r><w:tab/></w:r><w:r><w:t xml:space=\"preserve\">ANKARA, </w:t>")).2
      24 (by decide)
  have h2 := (h.2 [0, 19] (by decide) (by decide)
      ((((str "<w:r><w:tab/></w:r><w:r><w:t xml:space=\"preserve\">ANKARA, </w:t>").take 19)).drop 0)
      (by decide)).2 (by decide)
  simpa using h2

/-- Counterexample to C8 as stated: an input whose spacer run contains
**two** tab-stops, on which `tighten_header_date_position` succeeds
(the claim says it succeeds only with exactly one). -/
theorem tighten_two_tab_success :
    findSubIdx ankaraMarker
        (str "<w:r><w:tab/><w:tab/></w:r><w:r><w:t xml:space=\"preserve\">ANKARA, </w:t>") =
      some 32 ∧
    runStartsF
        ((str "<w:r><w:tab/><w:tab/></w:r><w:r><w:t xml:space=\"preserve\">ANKARA, </w:t>").take 32).length
        0
        ((str "<w:r><w:tab/><w:tab/></w:r><w:r><w:t xml:space=\"preserve\">ANKARA, </w:t>").take 32) =
      [0, 27] ∧
    pyCount
        (((str "<w:r><w:tab/><w:tab/></w:r><w:r><w:t xml:space=\"preserve\">ANKARA, </w:t>").take 27).drop 0)
        tabTag = 2 ∧
    tighten_header_date_position
        (str "<w:r><w:tab/><w:tab/></w:r><w:r><w:t xml:space=\"preserve\">ANKARA, </w:t>") =
      Except.ok (str "<w:r><w:tab/></w:r><w:r><w:t xml:space=\"preserve\">ANKARA, </w:t>") := by
  refine ⟨by decide, by decide, by decide, rfl⟩

theorem tighten_success_length (xml out : L)
    (h : tighten_header_date_position xml = Except.ok out) :
    out.length + tabTag.length = xml.length := by
  unfold tighten_header_date_position at h
  cases hfi : findSubIdx ankaraMarker xml with
  | none => rw [hfi] at h; cases h
  | some i =>
      rw [hfi] at h
      simp only [] at h
      by_cases hlt : (runStartsF (xml.take i).length 0 (xml.take i)).length < 2
      · rw [if_pos hlt] at h; cases h
      · rw [if_neg hlt] at h
        set pre := xml.take i with hpre
        set starts := runStartsF pre.length 0 pre with hstarts
        set a0 := starts.getD (starts.length - 1) 0 with ha0
        set s0 := starts.getD (starts.length - 2) 0 with hs0
        set spacer := (xml.take a0).drop s0 with hspacer
        by_cases htab : findSubIdx tabTag spacer = none
        · rw [if_pos htab] at h; cases h
        · rw [if_neg htab] at h
          have hout : out = xml.take s0 ++ pyReplaceFirst spacer tabTag [] ++ xml.drop a0 :=
            (Except.ok.inj h).symm
          have hile : i + ankaraMarker.length ≤ xml.length :=
            findSubIdx_some_le ankaraMarker xml i hfi
          have hmark : 0 < ankaraMarker.length := by decide
          have hprelen : pre.length = i := by
            rw [hpre, List.length_take]
            omega
          have hm : 2 ≤ starts.length := by omega
          have hi2 : starts.length - 2 < starts.length := by omega
          have hi1 : starts.length - 1 < starts.length := by omega
          have hs0v : s0 = starts.get ⟨starts.length - 2, hi2⟩ := by
            rw [hs0, List.getD_eq_get]
          have ha0v : a0 = starts.get ⟨starts.length - 1, hi1⟩ := by
            rw [ha0, List.getD_eq_get]
          have hpair : List.Pairwise (· < ·) starts := by
            rw [hstarts]
            exact List.chain'_iff_pairwise.1 (runStartsF_chain pre.length 0 pre)
          have hlt01 : s0 < a0 := by
            rw [hs0v, ha0v]
            exact List.pairwise_iff_get.1 hpair _ _ (Fin.mk_lt_mk.2 (by omega))
          have ha0mem : a0 ∈ starts := by
            rw [ha0v]; exact List.get_mem starts _ _
          have ha0lt : a0 < i := by
            rw [hstarts] at ha0mem
            have := runStartsF_mem_bounds pre.length 0 pre a0 ha0mem
            omega
          have hsplen : spacer.length = a0 - s0 := by
            rw [hspacer, List.length_drop, List.length_take]
            omega
          obtain ⟨k, hk⟩ : ∃ k, findSubIdx tabTag spacer = some k := by
            cases hf : findSubIdx tabTag spacer with
            | none => exact absurd hf htab
            | some k => exact ⟨k, rfl⟩
          have hdec := findSubIdx_some_decomp tabTag spacer k hk
          have hinf : tabTag <:+: spacer :=
            ⟨spacer.take k, spacer.drop (k + tabTag.length), hdec.symm⟩
          have hrl := pyReplaceFirst_length spacer tabTag [] (by decide) hinf
          have htlen : tabTag.length ≤ spacer.length := hinf.length_le
          rw [hout]
          simp only [List.length_append, List.length_take, List.length_drop]
          simp at hrl
          omega

/-- **C9 (amended).** `tighten_header_date_position` is **not**
idempotent: every successful application strictly shrinks the text by
the length of one tab-stop element, so re-applying it to a successful
output can never return that output unchanged (it either fails or
shrinks the text further). -/
theorem tighten_header_date_position_shrinks (xml out : L)
    (h : tighten_header_date_position xml = Except.ok out) :
    out.length + tabTag.length = xml.length ∧
    tighten_header_date_position out ≠ Except.ok out := by
  refine ⟨tighten_success_length xml out h, ?_⟩
  intro h2
  have hl := tighten_success_length out out h2
  have hpos : 0 < tabTag.length := by decide
  omega

/-- Concrete instance of C9 (amended): a successful application shrinks
the text by 8 characters and is not idempotent. -/
theorem tighten_header_date_position_shrinks_witness :
    (str "<w:r></w:r><w:r><w:t xml:space=\"preserve\">ANKARA, </w:t>").length + tabTag.length =
      (str "<w:r><w:tab/></w:r><w:r><w:t xml:space=\"preserve\">ANKARA, </w:t>").length ∧
    tighten_header_date_position
        (str "<w:r></w:r><w:r><w:t xml:space=\"preserve\">ANKARA, </w:t>") ≠
      Except.ok (str "<w:r></w:r><w:r><w:t xml:space=\"preserve\">ANKARA, </w:t>") :=
  tighten_header_date_position_shrinks
    (str "<w:r><w:tab/></w:r><w:r><w:t xml:space=\"preserve\">ANKARA, </w:t>")
    (str "<w:r></w:r><w:r><w:t xml:space=\"preserve\">ANKARA, </w:t>") rfl

/-- Counterexample to C9 as stated: a text on which
`tighten_header_date_position` succeeds but for which the second
application fails instead of reproducing the first result. -/
theorem tighten_not_idempotent_cex :
    tighten_header_date_position
        (str "<w:r><w:tab/></w:r><w:r><w:t xml:space=\"preserve\">ANKARA, </w:t>") =
      Except.ok (str "<w:r></w:r><w:r><w:t xml:space=\"preserve\">ANKARA, </w:t>") ∧
    tighten_header_date_position
        (str "<w:r></w:r><w:r><w:t xml:space=\"preserve\">ANKARA, </w:t>") =
      Except.error "Şablonda ANKARA satırı için beklenen tab boşluğu bulunamadı." := by
  refine ⟨rfl, rfl⟩

/-! ### Deterministic parsers for the program's regular expressions

Every regex the program uses parses deterministically (each greedy
character-class run is followed by a literal whose first character the
class excludes, so backtracking can never produce an alternative parse),
except for the lazy `.*?</w:rPr>` segments, whose backtracking amounts
to trying the occurrences of `</w:rPr>` in increasing position order,
modelled by `rprSearch`.  A parser consumes a prefix of its input and
returns the consumed length. -/

/-- Literal parser. -/
def litP (w : L) (s : L) : Option Nat :=
  if w.isPrefixOf s then some w.length else none

/-- Greedy `C*` for a character class (always succeeds). -/
def classStarP (p : Char → Bool) (s : L) : Option Nat :=
  some (s.takeWhile p).length

/-- Greedy `C+` for a character class. -/
def classPlusP (p : Char → Bool) (s : L) : Option Nat :=
  let n := (s.takeWhile p).length
  if n = 0 then none else some n

/-- Exactly four digits (`\d{4}`). -/
def digit4P (s : L) : Option Nat :=
  match s with
  | a :: b :: c :: d :: _ =>
      if isDigit a && isDigit b && isDigit c && isDigit d then some 4 else none
  | _ => none

/-- Sequencing of two parsers. -/
def pseq (p q : L → Option Nat) (s : L) : Option Nat :=
  match p s with
  | none => none
  | some n =>
      match q (s.drop n) with
      | none => none
      | some m => some (n + m)

/-- Sequencing of a plain parser with a group-carrying parser. -/
def pseqO {β : Type} (p : L → Option Nat) (q : L → Option (Nat × β)) (s : L) :
    Option (Nat × β) :=
  match p s with
  | none => none
  | some n =>
      match q (s.drop n) with
      | none => none
      | some (m, b) => some (n + m, b)

/-- A parser is bounded when it never consumes more than the input. -/
def BoundedN (p : L → Option Nat) : Prop :=
  ∀ s n, p s = some n → n ≤ s.length

/-- A group parser is bounded when it never consumes more than the input. -/
def BoundedG {β : Type} (p : L → Option (Nat × β)) : Prop :=
  ∀ s n b, p s = some (n, b) → n ≤ s.length

theorem litP_bounded (w : L) : BoundedN (litP w) := by
  intro s n h
  rw [litP] at h
  by_cases hp : w.isPrefixOf s = true
  · rw [if_pos hp] at h
    have hn : n = w.length := (Option.some.inj h).symm
    subst hn
    exact ((isPrefixOf_iff _ _).1 hp).length_le
  · rw [if_neg hp] at h; cases h

theorem classStarP_bounded (p : Char → Bool) : BoundedN (classStarP p) := by
  intro s n h
  rw [classStarP] at h
  have hn : n = (s.takeWhile p).length := (Option.some.inj h).symm
  subst hn
  simpa using List.length_le_of_sublist (s.takeWhile_sublist p)

theorem classPlusP_bounded (p : Char → Bool) : BoundedN (classPlusP p) := by
  intro s n h
  rw [classPlusP] at h
  by_cases h0 : (s.takeWhile p).length = 0
  · rw [if_pos h0] at h; cases h
  · rw [if_neg h0] at h
    have hn : n = (s.takeWhile p).length := (Option.some.inj h).symm
    subst hn
    simpa using List.length_le_of_sublist (s.takeWhile_sublist p)

theorem digit4P_bounded : BoundedN digit4P := by
  intro s n h
  unfold digit4P at h
  split at h
  case _ a b c d rest =>
      split at h
      · have hn : n = 4 := (Option.some.inj h).symm
        subst hn; simp
      · cases h
  case _ => cases h

theorem pseq_bounded {p q : L → Option Nat} (hp : BoundedN p) (hq : BoundedN q) :
    BoundedN (pseq p q) := by
  intro s n h
  rw [pseq] at h
  cases h1 : p s with
  | none => rw [h1] at h; cases h
  | some n1 =>
      rw [h1] at h
      dsimp only at h
      cases h2 : q (s.drop n1) with
      | none => rw [h2] at h; cases h
      | some n2 =>
          rw [h2] at h
          have hn : n = n1 + n2 := (Option.some.inj h).symm
          subst hn
          have b1 := hp s n1 h1
          have b2 := hq (s.drop n1) n2 h2
          rw [List.length_drop] at b2
          omega

theorem pseqO_bounded {β : Type} {p : L → Option Nat} {q : L → Option (Nat × β)}
    (hp : BoundedN p) (hq : BoundedG q) : BoundedG (pseqO p q) := by
  intro s n b h
  rw [pseqO] at h
  cases h1 : p s with
  | none => rw [h1] at h; cases h
  | some n1 =>
      rw [h1] at h
      dsimp only at h
      cases h2 : q (s.drop n1) with
      | none => rw [h2] at h; cases h
      | some nb =>
          obtain ⟨n2, b2⟩ := nb
          rw [h2] at h
          have hn : n = n1 + n2 ∧ b = b2 := by
            have := Option.some.inj h
            exact ⟨congrArg Prod.fst this.symm, congrArg Prod.snd this.symm⟩
          have b1 := hp s n1 h1
          have b2' := hq (s.drop n1) n2 b2 h2
          rw [List.length_drop] at b2'
          omega

/-! ### The concrete matchers of the program's patterns -/

/-- `'<w:t xml:space="preserve">'`. -/
def tOpen : L := str "<w:t xml:space=\"preserve\">"

/-- `'</w:t>'`. -/
def tClose : L := str "</w:t>"

/-- `'</w:r>'`. -/
def rClose : L := str "</w:r>"

/-- `'<w:rPr>'`. -/
def rPrOpen : L := str "<w:rPr>"

/-- `'</w:rPr>'`. -/
def rPrClose : L := str "</w:rPr>"

/-- The lazy segment `.*?</w:rPr>` followed by `tail`: with `re.DOTALL`,
backtracking tries each occurrence of `</w:rPr>` in increasing position
order and commits to the first after which `tail` matches. -/
def rprSearch {β : Type} (tail : L → Option (Nat × β)) : Nat → L → Option (Nat × β)
  | 0, _ => none
  | fuel + 1, s =>
      match findSubIdx rPrClose s with
      | none => none
      | some i =>
          match tail (s.drop (i + rPrClose.length)) with
          | some (m, b) => some (i + rPrClose.length + m, b)
          | none =>
              match rprSearch tail fuel (s.drop (i + 1)) with
              | some (m, b) => some (i + 1 + m, b)
              | none => none

/-- `rprSearch` with its fuel instantiated. -/
def rprSearchW {β : Type} (tail : L → Option (Nat × β)) (s : L) : Option (Nat × β) :=
  rprSearch tail s.length s

/-- `\s*<w:t xml:space="preserve">VALUE</w:t>`, where `VALUE` is parsed
by `valP`; returns the consumed length paired with the length of the
`VALUE</w:t>` part (so the caller can locate the group-1 boundary). -/
def valueTail (valP : L → Option Nat) (s : L) : Option (Nat × Nat) :=
  match classStarP isWS s with
  | none => none
  | some nws =>
      match litP tOpen (s.drop nws) with
      | none => none
      | some n1 =>
          match valP (s.drop (nws + n1)) with
          | none => none
          | some nv =>
              match litP tClose (s.drop (nws + n1 + nv)) with
              | none => none
              | some n3 => some (nws + n1 + nv + n3, nv + n3)

/-- Lift a plain parser to a group parser with no group data. -/
def unitTail (p : L → Option Nat) (s : L) : Option (Nat × Unit) :=
  match p s with
  | none => none
  | some n => some (n, ())

/-- The recurring bridge
`\s*</w:r>\s*<w:r(?:\s[^>]*)?>\s*<w:rPr>.*?</w:rPr>` followed by `tail`. -/
def bridgeP {β : Type} (tail : L → Option (Nat × β)) : L → Option (Nat × β) :=
  pseqO (classStarP isWS) (pseqO (litP rClose) (pseqO (classStarP isWS)
    (pseqO (tagOpenLen 'r') (pseqO (classStarP isWS) (pseqO (litP rPrOpen)
      (rprSearchW tail))))))

/-- `\d{4}/\d+` (a case-number token). -/
def caseValP : L → Option Nat :=
  pseq digit4P (pseq (litP (str "/")) (classPlusP isDigit))

/-- `[^<]+`. -/
def nonLtPlusP : L → Option Nat :=
  classPlusP (fun c => c != '<')

/-- `<w:t xml:space="preserve">\s*PARK\s+[A-ZÇĞİÖŞÜ]+\s+` (group 1 of the
single-run and split-run case-number patterns). -/
def parkPrefixP : L → Option Nat :=
  pseq (litP tOpen) (pseq (classStarP isWS) (pseq (litP (str "PARK"))
    (pseq (classPlusP isWS) (pseq (classPlusP isUpperTR) (classPlusP isWS)))))

/-- `<w:t xml:space="preserve">\s*PARK\s+[A-ZÇĞİÖŞÜ]+\s*</w:t>` (the
prefix of the two-run case-number pattern). -/
def twoPrefixP : L → Option Nat :=
  pseq (litP tOpen) (pseq (classStarP isWS) (pseq (litP (str "PARK"))
    (pseq (classPlusP isWS) (pseq (classPlusP isUpperTR)
      (pseq (classStarP isWS) (litP tClose))))))

/-- `<w:t xml:space="preserve">\s*tarihli ve\s*</w:t>` (the prefix of the
court-case-number pattern). -/
def courtPrefixP : L → Option Nat :=
  pseq (litP tOpen) (pseq (classStarP isWS) (pseq (litP (str "tarihli ve"))
    (pseq (classStarP isWS) (litP tClose))))

/-- Matcher shape shared by the two-run, header-date and court-case
patterns: a prefix, the bridge, then `\s*<w:t ...>(VALUE)(</w:t>)`.
Returns (total length, group-1 length). -/
def prefixBridgeM (prefixP valP : L → Option Nat) (s : L) : Option (Nat × Nat) :=
  match prefixP s with
  | none => none
  | some n0 =>
      match bridgeP (valueTail valP) (s.drop n0) with
      | none => none
      | some (nb, r) => some (n0 + nb, n0 + nb - r)

/-- The single-run case-number pattern
`(<w:t ...>\s*PARK\s+[A-ZÇĞİÖŞÜ]+\s+)(\d{4}/\d+)(</w:t>)`.
Returns (total length, group-1 length). -/
def singleRunM (s : L) : Option (Nat × Nat) :=
  match parkPrefixP s with
  | none => none
  | some g1 =>
      match pseq caseValP (litP tClose) (s.drop g1) with
      | none => none
      | some n2 => some (g1 + n2, g1)

/-- The two-run case-number pattern. -/
def twoRunM : L → Option (Nat × Nat) := prefixBridgeM twoPrefixP caseValP

/-- The header-date pattern of `replace_header_date`
(`ANKARA, ` marker, bridge, then `([^<]+)(</w:t>)`). -/
def headerM : L → Option (Nat × Nat) := prefixBridgeM (litP ankaraMarker) nonLtPlusP

/-- The court-case-number pattern of `replace_court_case_number`. -/
def courtCaseM : L → Option (Nat × Nat) := prefixBridgeM courtPrefixP caseValP

/-- The split-run case-number pattern
`(<w:t ...>\s*PARK\s+[A-ZÇĞİÖŞÜ]+\s+)(\d{4}/)(</w:t>...<w:t ...>)(\d+)(</w:t>)`.
Returns (total, (group-1 length, group-3 length, group-4 length)). -/
def splitRunM (s : L) : Option (Nat × (Nat × Nat × Nat)) :=
  match parkPrefixP s with
  | none => none
  | some g1 =>
      match pseq digit4P (litP (str "/")) (s.drop g1) with
      | none => none
      | some n2 =>
          match litP tClose (s.drop (g1 + n2)) with
          | none => none
          | some n3 =>
              match bridgeP (unitTail (pseq (classStarP isWS) (litP tOpen)))
                  (s.drop (g1 + n2 + n3)) with
              | none => none
              | some (nb, _) =>
                  match classPlusP isDigit (s.drop (g1 + n2 + n3 + nb)) with
                  | none => none
                  | some n4 =>
                      match litP tClose (s.drop (g1 + n2 + n3 + nb + n4)) with
                      | none => none
                      | some n5 =>
                          some (g1 + n2 + n3 + nb + n4 + n5, (g1, n3 + nb, n4))

/-- `\s*<w:t ...>\s*İŞ MAHKEMESİ\s*</w:t>` (tail of the court-number
pattern's group 3). -/
def courtTail : L → Option (Nat × Unit) :=
  unitTail (pseq (classStarP isWS) (pseq (litP tOpen) (pseq (classStarP isWS)
    (pseq (litP (str "İŞ MAHKEMESİ")) (pseq (classStarP isWS) (litP tClose))))))

/-- The court-number pattern
`(<w:t ...>)(\d+\.)(</w:t>...\s*İŞ MAHKEMESİ\s*</w:t>)` of
`replace_court_number`.  Returns (total, group-2 length). -/
def courtNoM (s : L) : Option (Nat × Nat) :=
  match litP tOpen s with
  | none => none
  | some n0 =>
      match pseq (classPlusP isDigit) (litP (str ".")) (s.drop n0) with
      | none => none
      | some n2 =>
          match litP tClose (s.drop (n0 + n2)) with
          | none => none
          | some n3 =>
              match bridgeP courtTail (s.drop (n0 + n2 + n3)) with
              | none => none
              | some (nb, _) => some (n0 + n2 + n3 + nb, n2)

/-- `'<w:t xml:space="preserve">İlgi</w:t>'`. -/
def ilgiTag : L := str "<w:t xml:space=\"preserve\">İlgi</w:t>"

/-- `'Esas sayılı yazınız'`. -/
def esasPhrase : L := str "Esas sayılı yazınız"

/-- `'</w:p>'`. -/
def pCloseTag : L := str "</w:p>"

/-- `<w:p[^>]*>`: the literal `<w:p` followed by everything up to and
including the first `>`. -/
def pOpenAnyLen (s : L) : Option Nat :=
  if (str "<w:p").isPrefixOf s then
    match findSubIdx (str ">") (s.drop 4) with
    | none => none
    | some k => some (4 + k + 1)
  else none

/-- First index whose suffix satisfies `p`. -/
def findPredIdx (p : L → Bool) : L → Option Nat
  | [] => if p [] then some 0 else none
  | c :: t => if p (c :: t) then some 0 else (findPredIdx p t).map (· + 1)

/-- Whether `\d{2}/\d{2}/\d{4}` matches at the head of `s`. -/
def dateShapeAt (s : L) : Bool :=
  match s with
  | a :: b :: c :: d :: e :: f :: g :: h :: i :: j :: _ =>
      isDigit a && isDigit b && (c == '/') && isDigit d && isDigit e && (f == '/') &&
        isDigit g && isDigit h && isDigit i && isDigit j
  | _ => false

/-- The `İlgi` date pattern of `replace_ilgi_date`
`(<w:p[^>]*>.*?<w:t ...>İlgi</w:t>.*?)(\d{2}/\d{2}/\d{4})(.*?Esas sayılı yazınız.*?</w:p>)`.
The lazy `.*?` segments commit to the first occurrence of the following
anchor (an anchor missing after an earlier choice point is also missing
after every later one, so backtracking can never rescue a failure).
Returns (total length, group-1 length = offset of the date). -/
def ilgiM (s : L) : Option (Nat × Nat) :=
  match pOpenAnyLen s with
  | none => none
  | some n0 =>
      match findSubIdx ilgiTag (s.drop n0) with
      | none => none
      | some i1 =>
          match findPredIdx dateShapeAt (s.drop (n0 + i1 + ilgiTag.length)) with
          | none => none
          | some j =>
              match findSubIdx esasPhrase
                  (s.drop (n0 + i1 + ilgiTag.length + j + 10)) with
              | none => none
              | some i2 =>
                  match findSubIdx pCloseTag
                      (s.drop (n0 + i1 + ilgiTag.length + j + 10 + i2 + esasPhrase.length)) with
                  | none => none
                  | some i3 =>
                      some (n0 + i1 + ilgiTag.length + j + 10 + i2 + esasPhrase.length +
                          i3 + pCloseTag.length,
                        n0 + i1 + ilgiTag.length + j)

/-! ### Scanning: `re.findall` counting and `re.sub(count=1)` -/

/-- Number of non-overlapping matches of `M`, scanning left to right
(`re.findall`); fuel is instantiated with the text's length. -/
def mcountF {α : Type} (M : L → Option (Nat × α)) : Nat → L → Nat
  | 0, _ => 0
  | _ + 1, [] => 0
  | fuel + 1, c :: t =>
      match M (c :: t) with
      | some (n, _) => mcountF M fuel ((c :: t).drop n) + 1
      | none => mcountF M fuel t

/-- Replace the first match of `M` using builder `B` (`re.sub` with
`count=1`); `B` receives the match's group data and the matched slice. -/
def msubF {α : Type} (M : L → Option (Nat × α)) (B : α → L → L) : Nat → L → L
  | 0, s => s
  | _ + 1, [] => []
  | fuel + 1, c :: t =>
      match M (c :: t) with
      | some (n, a) => B a ((c :: t).take n) ++ (c :: t).drop n
      | none => c :: msubF M B fuel t

/-- First-match decomposition: when the scan finds exactly one match,
the text splits as `pre ++ mt ++ post` with the matcher succeeding on
`mt ++ post` consuming exactly `mt`, and substitution rebuilds
`pre ++ B a mt ++ post`. -/
theorem msubF_decomp {α : Type} (M : L → Option (Nat × α)) (B : α → L → L)
    (hM : ∀ s n a, M s = some (n, a) → 0 < n ∧ n ≤ s.length) :
    ∀ fuel s, s.length ≤ fuel → mcountF M fuel s = 1 →
      ∃ pre mt post a, s = pre ++ mt ++ post ∧ M (mt ++ post) = some (mt.length, a) ∧
        msubF M B fuel s = pre ++ B a mt ++ post := by
  intro fuel
  induction fuel with
  | zero =>
      intro s hs hc
      rw [mcountF] at hc
      cases hc
  | succ fuel ih =>
      intro s hs hc
      match s with
      | [] => rw [mcountF] at hc; cases hc
      | c :: t =>
          rw [mcountF] at hc
          rw [msubF]
          cases hm : M (c :: t) with
          | some na =>
              obtain ⟨n, a⟩ := na
              dsimp only at hc ⊢
              obtain ⟨hn0, hnle⟩ := hM (c :: t) n a hm
              refine ⟨[], (c :: t).take n, (c :: t).drop n, a, by simp, ?_, by simp⟩
              have hlen : ((c :: t).take n).length = n := by
                rw [List.length_take]
                simp only [List.length_cons] at hnle
                simp
                omega
              rw [List.take_append_drop, hlen]
              exact hm
          | none =>
              rw [hm] at hc
              dsimp only at hc ⊢
              have ht : t.length ≤ fuel := by simp at hs; omega
              obtain ⟨pre, mt, post, a, hdec, hmt, hsub⟩ := ih t ht hc
              refine ⟨c :: pre, mt, post, a, by simp [hdec], hmt, ?_⟩
              rw [hsub]
              simp

/-- When the scan finds no match at all, substitution is the identity
(not needed for dispatch, but used to characterise zero-match behaviour). -/
theorem mcountF_zero_msubF_id {α : Type} (M : L → Option (Nat × α)) (B : α → L → L) :
    ∀ fuel s, mcountF M fuel s = 0 → msubF M B fuel s = s := by
  intro fuel
  induction fuel with
  | zero => intro s _; rw [msubF]
  | succ fuel ih =>
      intro s hc
      match s with
      | [] => rw [msubF]
      | c :: t =>
          rw [mcountF] at hc
          rw [msubF]
          cases hm : M (c :: t) with
          | some na => obtain ⟨n, a⟩ := na; rw [hm] at hc; dsimp only at hc; cases hc
          | none =>
              rw [hm] at hc
              dsimp only at hc ⊢
              rw [ih t hc]

/-! ### Bounds for the matchers -/

/-- A parser always consuming a positive amount. -/
def PosN (p : L → Option Nat) : Prop :=
  ∀ s n, p s = some n → 0 < n

theorem litP_pos (w : L) (hw : w ≠ []) : PosN (litP w) := by
  intro s n h
  rw [litP] at h
  by_cases hp : w.isPrefixOf s = true
  · rw [if_pos hp] at h
    have hn : n = w.length := (Option.some.inj h).symm
    subst hn
    simpa [List.length_pos] using hw
  · rw [if_neg hp] at h; cases h

theorem pseq_pos_left {p q : L → Option Nat} (hp : PosN p) : PosN (pseq p q) := by
  intro s n h
  rw [pseq] at h
  cases h1 : p s with
  | none => rw [h1] at h; cases h
  | some n1 =>
      rw [h1] at h
      dsimp only at h
      cases h2 : q (s.drop n1) with
      | none => rw [h2] at h; cases h
      | some n2 =>
          rw [h2] at h
          have hn : n = n1 + n2 := (Option.some.inj h).symm
          have := hp s n1 h1
          omega

theorem tagOpenLen_bounded (c : Char) : BoundedN (tagOpenLen c) := by
  intro s n h
  exact (tagOpenLen_pos_le c s n h).2

theorem rprSearch_bounded {β : Type} (tail : L → Option (Nat × β))
    (ht : BoundedG tail) :
    ∀ fuel s n b, rprSearch tail fuel s = some (n, b) → n ≤ s.length := by
  intro fuel
  induction fuel with
  | zero => intro s n b h; rw [rprSearch] at h; cases h
  | succ fuel ih =>
      intro s n b h
      rw [rprSearch] at h
      cases hfi : findSubIdx rPrClose s with
      | none => rw [hfi] at h; cases h
      | some i =>
          rw [hfi] at h
          dsimp only at h
          have hile := findSubIdx_some_le rPrClose s i hfi
          cases htl : tail (s.drop (i + rPrClose.length)) with
          | some mb =>
              obtain ⟨m, b'⟩ := mb
              rw [htl] at h
              have hmb := ht _ m b' htl
              rw [List.length_drop] at hmb
              have hn : n = i + rPrClose.length + m := by
                have := Option.some.inj h
                exact (congrArg Prod.fst this).symm
              omega
          | none =>
              rw [htl] at h
              dsimp only at h
              cases hrec : rprSearch tail fuel (s.drop (i + 1)) with
              | none => rw [hrec] at h; cases h
              | some mb =>
                  obtain ⟨m, b'⟩ := mb
                  rw [hrec] at h
                  have hmb := ih (s.drop (i + 1)) m b' hrec
                  rw [List.length_drop] at hmb
                  have hn : n = i + 1 + m := by
                    have := Option.some.inj h
                    exact (congrArg Prod.fst this).symm
                  have hrpr : 0 < rPrClose.length := by decide
                  omega

theorem rprSearchW_bounded {β : Type} (tail : L → Option (Nat × β))
    (ht : BoundedG tail) : BoundedG (rprSearchW tail) := by
  intro s n b h
  exact rprSearch_bounded tail ht s.length s n b h

theorem valueTail_bounded (valP : L → Option Nat) (hv : BoundedN valP) :
    BoundedG (valueTail valP) := by
  intro s n r h
  rw [valueTail] at h
  cases h0 : classStarP isWS s with
  | none => rw [h0] at h; cases h
  | some nws =>
      rw [h0] at h
      dsimp only at h
      cases h1 : litP tOpen (s.drop nws) with
      | none => rw [h1] at h; cases h
      | some n1 =>
          rw [h1] at h
          dsimp only at h
          cases h2 : valP (s.drop (nws + n1)) with
          | none => rw [h2] at h; cases h
          | some nv =>
              rw [h2] at h
              dsimp only at h
              cases h3 : litP tClose (s.drop (nws + n1 + nv)) with
              | none => rw [h3] at h; cases h
              | some n3 =>
                  rw [h3] at h
                  have hn : n = nws + n1 + nv + n3 := by
                    have := Option.some.inj h
                    exact (congrArg Prod.fst this).symm
                  have b0 := classStarP_bounded isWS s nws h0
                  have b1 := litP_bounded tOpen _ n1 h1
                  have b2 := hv _ nv h2
                  have b3 := litP_bounded tClose _ n3 h3
                  rw [List.length_drop] at b1 b2 b3
                  omega

theorem unitTail_bounded (p : L → Option Nat) (hp : BoundedN p) :
    BoundedG (unitTail p) := by
  intro s n b h
  rw [unitTail] at h
  cases h0 : p s with
  | none => rw [h0] at h; cases h
  | some m =>
      rw [h0] at h
      have hn : n = m := by
        have := Option.some.inj h
        exact (congrArg Prod.fst this).symm
      have := hp s m h0
      omega

theorem bridgeP_bounded {β : Type} (tail : L → Option (Nat × β))
    (ht : BoundedG tail) : BoundedG (bridgeP tail) := by
  unfold bridgeP
  exact pseqO_bounded (classStarP_bounded isWS) (pseqO_bounded (litP_bounded rClose)
    (pseqO_bounded (classStarP_bounded isWS) (pseqO_bounded (tagOpenLen_bounded 'r')
      (pseqO_bounded (classStarP_bounded isWS) (pseqO_bounded (litP_bounded rPrOpen)
        (rprSearchW_bounded tail ht))))))

theorem prefixBridgeM_bounds (prefixP valP : L → Option Nat)
    (hpb : BoundedN prefixP) (hpp : PosN prefixP) (hvb : BoundedN valP) :
    ∀ s n a, prefixBridgeM prefixP valP s = some (n, a) → 0 < n ∧ n ≤ s.length := by
  intro s n a h
  rw [prefixBridgeM] at h
  cases h0 : prefixP s with
  | none => rw [h0] at h; cases h
  | some n0 =>
      rw [h0] at h
      dsimp only at h
      cases h1 : bridgeP (valueTail valP) (s.drop n0) with
      | none => rw [h1] at h; cases h
      | some nb =>
          obtain ⟨nb', r⟩ := nb
          rw [h1] at h
          have hn : n = n0 + nb' := by
            have := Option.some.inj h
            exact (congrArg Prod.fst this).symm
          have b0 := hpb s n0 h0
          have p0 := hpp s n0 h0
          have b1 := bridgeP_bounded (valueTail valP) (valueTail_bounded valP hvb)
            (s.drop n0) nb' r h1
          rw [List.length_drop] at b1
          omega

theorem caseValP_bounded : BoundedN caseValP :=
  pseq_bounded digit4P_bounded
    (pseq_bounded (litP_bounded (str "/")) (classPlusP_bounded isDigit))

theorem parkPrefixP_bounded : BoundedN parkPrefixP :=
  pseq_bounded (litP_bounded tOpen) (pseq_bounded (classStarP_bounded isWS)
    (pseq_bounded (litP_bounded (str "PARK")) (pseq_bounded (classPlusP_bounded isWS)
      (pseq_bounded (classPlusP_bounded isUpperTR) (classPlusP_bounded isWS)))))

theorem parkPrefixP_pos : PosN parkPrefixP :=
  pseq_pos_left (litP_pos tOpen (by decide))

theorem twoPrefixP_bounded : BoundedN twoPrefixP :=
  pseq_bounded (litP_bounded tOpen) (pseq_bounded (classStarP_bounded isWS)
    (pseq_bounded (litP_bounded (str "PARK")) (pseq_bounded (classPlusP_bounded isWS)
      (pseq_bounded (classPlusP_bounded isUpperTR)
        (pseq_bounded (classStarP_bounded isWS) (litP_bounded tClose))))))

theorem courtPrefixP_bounded : BoundedN courtPrefixP :=
  pseq_bounded (litP_bounded tOpen) (pseq_bounded (classStarP_bounded isWS)
    (pseq_bounded (litP_bounded (str "tarihli ve"))
      (pseq_bounded (classStarP_bounded isWS) (litP_bounded tClose))))

theorem twoRunM_bounds :
    ∀ s n a, twoRunM s = some (n, a) → 0 < n ∧ n ≤ s.length :=
  prefixBridgeM_bounds twoPrefixP caseValP twoPrefixP_bounded
    (pseq_pos_left (litP_pos tOpen (by decide))) caseValP_bounded

theorem headerM_bounds :
    ∀ s n a, headerM s = some (n, a) → 0 < n ∧ n ≤ s.length :=
  prefixBridgeM_bounds (litP ankaraMarker) nonLtPlusP (litP_bounded ankaraMarker)
    (litP_pos ankaraMarker (by decide)) (classPlusP_bounded _)

theorem courtCaseM_bounds :
    ∀ s n a, courtCaseM s = some (n, a) → 0 < n ∧ n ≤ s.length :=
  prefixBridgeM_bounds courtPrefixP caseValP courtPrefixP_bounded
    (pseq_pos_left (litP_pos tOpen (by decide))) caseValP_bounded

theorem singleRunM_bounds :
    ∀ s n a, singleRunM s = some (n, a) → 0 < n ∧ n ≤ s.length := by
  intro s n a h
  rw [singleRunM] at h
  cases h0 : parkPrefixP s with
  | none => rw [h0] at h; cases h
  | some g1 =>
      rw [h0] at h
      dsimp only at h
      cases h1 : pseq caseValP (litP tClose) (s.drop g1) with
      | none => rw [h1] at h; cases h
      | some n2 =>
          rw [h1] at h
          have hn : n = g1 + n2 := by
            have := Option.some.inj h
            exact (congrArg Prod.fst this).symm
          have b0 := parkPrefixP_bounded s g1 h0
          have p0 := parkPrefixP_pos s g1 h0
          have b1 := pseq_bounded caseValP_bounded (litP_bounded tClose) _ n2 h1
          rw [List.length_drop] at b1
          omega

theorem splitRunM_bounds :
    ∀ s n a, splitRunM s = some (n, a) → 0 < n ∧ n ≤ s.length := by
  intro s n a h
  rw [splitRunM] at h
  cases h0 : parkPrefixP s with
  | none => rw [h0] at h; cases h
  | some g1 =>
      rw [h0] at h
      dsimp only at h
      cases h1 : pseq digit4P (litP (str "/")) (s.drop g1) with
      | none => rw [h1] at h; cases h
      | some n2 =>
          rw [h1] at h
          dsimp only at h
          cases h2 : litP tClose (s.drop (g1 + n2)) with
          | none => rw [h2] at h; cases h
          | some n3 =>
              rw [h2] at h
              dsimp only at h
              cases h3 : bridgeP (unitTail (pseq (classStarP isWS) (litP tOpen)))
                  (s.drop (g1 + n2 + n3)) with
              | none => rw [h3] at h; cases h
              | some nbu =>
                  obtain ⟨nb, u⟩ := nbu
                  rw [h3] at h
                  dsimp only at h
                  cases h4 : classPlusP isDigit (s.drop (g1 + n2 + n3 + nb)) with
                  | none => rw [h4] at h; cases h
                  | some n4 =>
                      rw [h4] at h
                      dsimp only at h
                      cases h5 : litP tClose (s.drop (g1 + n2 + n3 + nb + n4)) with
                      | none => rw [h5] at h; cases h
                      | some n5 =>
                          rw [h5] at h
                          have hn : n = g1 + n2 + n3 + nb + n4 + n5 := by
                            have := Option.some.inj h
                            exact (congrArg Prod.fst this).symm
                          have b0 := parkPrefixP_bounded s g1 h0
                          have p0 := parkPrefixP_pos s g1 h0
                          have b1 := pseq_bounded digit4P_bounded
                            (litP_bounded (str "/")) _ n2 h1
                          have b2 := litP_bounded tClose _ n3 h2
                          have b3 := bridgeP_bounded _
                            (unitTail_bounded _ (pseq_bounded (classStarP_bounded isWS)
                              (litP_bounded tOpen))) _ nb u h3
                          have b4 := classPlusP_bounded isDigit _ n4 h4
                          have b5 := litP_bounded tClose _ n5 h5
                          rw [List.length_drop] at b1 b2 b3 b4 b5
                          omega

theorem courtNoM_bounds :
    ∀ s n a, courtNoM s = some (n, a) → 0 < n ∧ n ≤ s.length := by
  intro s n a h
  rw [courtNoM] at h
  cases h0 : litP tOpen s with
  | none => rw [h0] at h; cases h
  | some n0 =>
      rw [h0] at h
      dsimp only at h
      cases h1 : pseq (classPlusP isDigit) (litP (str ".")) (s.drop n0) with
      | none => rw [h1] at h; cases h
      | some n2 =>
          rw [h1] at h
          dsimp only at h
          cases h2 : litP tClose (s.drop (n0 + n2)) with
          | none => rw [h2] at h; cases h
          | some n3 =>
              rw [h2] at h
              dsimp only at h
              cases h3 : bridgeP courtTail (s.drop (n0 + n2 + n3)) with
              | none => rw [h3] at h; cases h
              | some nbu =>
                  obtain ⟨nb, u⟩ := nbu
                  rw [h3] at h
                  have hn : n = n0 + n2 + n3 + nb := by
                    have := Option.some.inj h
                    exact (congrArg Prod.fst this).symm
                  have b0 := litP_bounded tOpen s n0 h0
                  have p0 := litP_pos tOpen (by decide) s n0 h0
                  have b1 := pseq_bounded (classPlusP_bounded isDigit)
                    (litP_bounded (str ".")) _ n2 h1
                  have b2 := litP_bounded tClose _ n3 h2
                  have b3 := bridgeP_bounded courtTail
                    (unitTail_bounded _ (pseq_bounded (classStarP_bounded isWS)
                      (pseq_bounded (litP_bounded tOpen) (pseq_bounded (classStarP_bounded isWS)
                        (pseq_bounded (litP_bounded (str "İŞ MAHKEMESİ"))
                          (pseq_bounded (classStarP_bounded isWS) (litP_bounded tClose)))))))
                    _ nb u h3
                  rw [List.length_drop] at b1 b2 b3
                  omega

theorem findPredIdx_some_le (p : L → Bool) :
    ∀ s j, findPredIdx p s = some j → j ≤ s.length := by
  intro s
  induction s with
  | nil =>
      intro j h
      rw [findPredIdx] at h
      by_cases hp : p [] = true
      · rw [if_pos hp] at h
        have : j = 0 := (Option.some.inj h).symm
        omega
      · rw [if_neg hp] at h; cases h
  | cons c t ih =>
      intro j h
      rw [findPredIdx] at h
      by_cases hp : p (c :: t) = true
      · rw [if_pos hp] at h
        have : j = 0 := (Option.some.inj h).symm
        omega
      · rw [if_neg hp] at h
        cases hfi : findPredIdx p t with
        | none => rw [hfi] at h; cases h
        | some j' =>
            rw [hfi] at h
            have : j = j' + 1 := (Option.some.inj h).symm
            have := ih j' hfi
            simp
            omega

theorem findPredIdx_some_pred (p : L → Bool) :
    ∀ s j, findPredIdx p s = some j → p (s.drop j) = true := by
  intro s
  induction s with
  | nil =>
      intro j h
      rw [findPredIdx] at h
      by_cases hp : p [] = true
      · rw [if_pos hp] at h
        have : j = 0 := (Option.some.inj h).symm
        subst this
        simpa using hp
      · rw [if_neg hp] at h; cases h
  | cons c t ih =>
      intro j h
      rw [findPredIdx] at h
      by_cases hp : p (c :: t) = true
      · rw [if_pos hp] at h
        have : j = 0 := (Option.some.inj h).symm
        subst this
        simpa using hp
      · rw [if_neg hp] at h
        cases hfi : findPredIdx p t with
        | none => rw [hfi] at h; cases h
        | some j' =>
            rw [hfi] at h
            have hj : j = j' + 1 := (Option.some.inj h).symm
            subst hj
            simpa using ih j' hfi

theorem dateShapeAt_length (s : L) (h : dateShapeAt s = true) : 10 ≤ s.length := by
  unfold dateShapeAt at h
  split at h
  case _ => simp
  case _ => cases h

theorem pOpenAnyLen_bounds (s : L) (n : Nat) (h : pOpenAnyLen s = some n) :
    0 < n ∧ n ≤ s.length := by
  rw [pOpenAnyLen] at h
  by_cases hp : (str "<w:p").isPrefixOf s = true
  · rw [if_pos hp] at h
    cases hfi : findSubIdx (str ">") (s.drop 4) with
    | none => rw [hfi] at h; cases h
    | some k =>
        rw [hfi] at h
        have hn : n = 4 + k + 1 := (Option.some.inj h).symm
        have := findSubIdx_some_le (str ">") (s.drop 4) k hfi
        rw [List.length_drop] at this
        have hlen : 4 ≤ s.length := by
          have := ((isPrefixOf_iff _ _).1 hp).length_le
          simpa [str] using this
        simp [str] at this
        omega
  · rw [if_neg hp] at h; cases h

theorem ilgiM_bounds :
    ∀ s n a, ilgiM s = some (n, a) → 0 < n ∧ n ≤ s.length := by
  intro s n a h
  rw [ilgiM] at h
  cases h0 : pOpenAnyLen s with
  | none => rw [h0] at h; cases h
  | some n0 =>
      rw [h0] at h
      dsimp only at h
      cases h1 : findSubIdx ilgiTag (s.drop n0) with
      | none => rw [h1] at h; cases h
      | some i1 =>
          rw [h1] at h
          dsimp only at h
          cases h2 : findPredIdx dateShapeAt (s.drop (n0 + i1 + ilgiTag.length)) with
          | none => rw [h2] at h; cases h
          | some j =>
              rw [h2] at h
              dsimp only at h
              cases h3 : findSubIdx esasPhrase
                  (s.drop (n0 + i1 + ilgiTag.length + j + 10)) with
              | none => rw [h3] at h; cases h
              | some i2 =>
                  rw [h3] at h
                  dsimp only at h
                  cases h4 : findSubIdx pCloseTag
                      (s.drop (n0 + i1 + ilgiTag.length + j + 10 + i2 + esasPhrase.length)) with
                  | none => rw [h4] at h; cases h
                  | some i3 =>
                      rw [h4] at h
                      have hn : n = n0 + i1 + ilgiTag.length + j + 10 + i2 +
                          esasPhrase.length + i3 + pCloseTag.length := by
                        have := Option.some.inj h
                        exact (congrArg Prod.fst this).symm
                      obtain ⟨hp0, hb0⟩ := pOpenAnyLen_bounds s n0 h0
                      have hb1 := findSubIdx_some_le ilgiTag (s.drop n0) i1 h1
                      have hdate := findPredIdx_some_pred dateShapeAt
                        (s.drop (n0 + i1 + ilgiTag.length)) j h2
                      rw [List.drop_drop] at hdate
                      have hb2 := dateShapeAt_length _ hdate
                      have hb3 := findSubIdx_some_le esasPhrase
                        (s.drop (n0 + i1 + ilgiTag.length + j + 10)) i2 h3
                      have hb4 := findSubIdx_some_le pCloseTag
                        (s.drop (n0 + i1 + ilgiTag.length + j + 10 + i2 + esasPhrase.length))
                        i3 h4
                      rw [List.length_drop] at hb1 hb2 hb3 hb4
                      omega

/-! ### The substitution operations built on the matchers -/

/-- `replace_by_pattern_once` from the source: require exactly one match
of the pattern, then substitute the first match. -/
def replace_by_pattern_once {α : Type} (M : L → Option (Nat × α)) (B : α → L → L)
    (label : String) (text : L) : Except String L :=
  if mcountF M text.length text ≠ 1 then
    Except.error ("Şablonda '" ++ label ++
      "' için beklenen alan 1 kez bulunmalıydı, bulunan adet: " ++
      toString (mcountF M text.length text))
  else
    Except.ok (msubF M B text.length text)

/-- `replace_header_date` from the source. -/
def replace_header_date (xml newDate : L) : Except String L :=
  replace_by_pattern_once headerM
    (fun g1 slice => slice.take g1 ++ newDate ++ tClose)
    "Evrak Hazırlama Tarihi" xml

/-- `replace_ilgi_date` from the source (the date token is 10 characters). -/
def replace_ilgi_date (xml newDate : L) : Except String L :=
  replace_by_pattern_once ilgiM
    (fun ds slice => slice.take ds ++ newDate ++ slice.drop (ds + 10))
    "Mahkeme Gönderim Tarihi" xml

/-- `replace_court_case_number` from the source. -/
def replace_court_case_number (xml caseValue : L) : Except String L :=
  replace_by_pattern_once courtCaseM
    (fun g1 slice => slice.take g1 ++ caseValue ++ tClose)
    "Mahkeme Esas Numarası" xml

/-- `replace_court_number` from the source. -/
def replace_court_number (xml courtNo : L) : Except String L :=
  if mcountF courtNoM xml.length xml ≠ 1 then
    Except.error ("Şablonda 'X.İŞ MAHKEMESİ' numarası için beklenen alan 1 kez bulunmalıydı, " ++
      "bulunan adet: " ++ toString (mcountF courtNoM xml.length xml))
  else
    Except.ok (msubF courtNoM
      (fun n2 slice => slice.take tOpen.length ++ (courtNo ++ str ".") ++
        slice.drop (tOpen.length + n2))
      xml.length xml)

/-- The ambiguous-template error message of `replace_company_case_number`. -/
def ambiguousMsg : String := "Şablonda şirket esas numarası için birden fazla aday bulundu."

/-- The missing-field error message of `replace_company_case_number`
(also used when the split form matches more than once). -/
def missingMsg (n : Nat) : String :=
  "Şablonda şirket esas numarası için beklenen alan 1 kez bulunmalıydı, " ++
    "bulunan adet: " ++ toString n

/-- `replace_company_case_number` from the source: try the single-run,
two-run and split-run forms in that order. -/
def replace_company_case_number (xml caseValue : L) : Except String L :=
  if mcountF singleRunM xml.length xml = 1 then
    Except.ok (msubF singleRunM
      (fun g1 slice => slice.take g1 ++ caseValue ++ tClose) xml.length xml)
  else if 1 < mcountF singleRunM xml.length xml then
    Except.error ambiguousMsg
  else if mcountF twoRunM xml.length xml = 1 then
    Except.ok (msubF twoRunM
      (fun g1 slice => slice.take g1 ++ caseValue ++ tClose) xml.length xml)
  else if 1 < mcountF twoRunM xml.length xml then
    Except.error ambiguousMsg
  else if mcountF splitRunM xml.length xml ≠ 1 then
    Except.error (missingMsg (mcountF splitRunM xml.length xml))
  else
    match findSubIdx (str "/") caseValue with
    | none => Except.error "not enough values to unpack (expected 2, got 1)"
    | some k =>
        Except.ok (msubF splitRunM
          (fun g slice => slice.take g.1 ++ (caseValue.take k ++ str "/") ++
            ((slice.drop (g.1 + 5)).take g.2.1) ++ caseValue.drop (k + 1) ++ tClose)
          xml.length xml)

/-- **C1 (amended).** The case-number dispatch tries the single-run,
two-run and split-run forms in a fixed priority order: a form with zero
matches falls through to the next; a form with exactly one match is
applied (replacing that match) and no later form is tried; the
single-run and two-run forms fail immediately with the
ambiguous-template error when they match more than once; the split-run
form, when reached, fails with the missing-field error message for any
match count other than one — including more than one match, which thus
reports the missing-field message (with the count), not the
ambiguous-template error; and three zero-match forms fail as
missing-field. -/
theorem replace_company_case_number_dispatch (xml v : L) :
    (mcountF singleRunM xml.length xml = 1 →
      ∃ pre mt post g1, xml = pre ++ mt ++ post ∧
        singleRunM (mt ++ post) = some (mt.length, g1) ∧
        replace_company_case_number xml v =
          Except.ok (pre ++ (mt.take g1 ++ v ++ tClose) ++ post)) ∧
    (1 < mcountF singleRunM xml.length xml →
      replace_company_case_number xml v = Except.error ambiguousMsg) ∧
    (mcountF singleRunM xml.length xml = 0 →
      (mcountF twoRunM xml.length xml = 1 →
        ∃ pre mt post g1, xml = pre ++ mt ++ post ∧
          twoRunM (mt ++ post) = some (mt.length, g1) ∧
          replace_company_case_number xml v =
            Except.ok (pre ++ (mt.take g1 ++ v ++ tClose) ++ post)) ∧
      (1 < mcountF twoRunM xml.length xml →
        replace_company_case_number xml v = Except.error ambiguousMsg) ∧
      (mcountF twoRunM xml.length xml = 0 →
        (mcountF splitRunM xml.length xml ≠ 1 →
          replace_company_case_number xml v =
            Except.error (missingMsg (mcountF splitRunM xml.length xml))) ∧
        (mcountF splitRunM xml.length xml = 1 →
          ∀ k, findSubIdx (str "/") v = some k →
            ∃ y, replace_company_case_number xml v = Except.ok y))) := by
  refine ⟨?_, ?_, ?_⟩
  · intro h1
    obtain ⟨pre, mt, post, g1, hdec, hmt, hsub⟩ :=
      msubF_decomp singleRunM (fun g1 slice => slice.take g1 ++ v ++ tClose)
        singleRunM_bounds xml.length xml le_rfl h1
    refine ⟨pre, mt, post, g1, hdec, hmt, ?_⟩
    rw [replace_company_case_number, if_pos h1, hsub]
  · intro h1
    rw [replace_company_case_number, if_neg (by omega), if_pos h1]
  · intro h0
    refine ⟨?_, ?_, ?_⟩
    · intro h1
      obtain ⟨pre, mt, post, g1, hdec, hmt, hsub⟩ :=
        msubF_decomp twoRunM (fun g1 slice => slice.take g1 ++ v ++ tClose)
          twoRunM_bounds xml.length xml le_rfl h1
      refine ⟨pre, mt, post, g1, hdec, hmt, ?_⟩
      rw [replace_company_case_number, if_neg (by omega), if_neg (by omega), if_pos h1, hsub]
    · intro h1
      rw [replace_company_case_number, if_neg (by omega), if_neg (by omega),
        if_neg (by omega), if_pos h1]
    · intro h2
      refine ⟨?_, ?_⟩
      · intro h3
        rw [replace_company_case_number, if_neg (by omega), if_neg (by omega),
          if_neg (by omega), if_neg (by omega), if_pos h3]
      · intro h3 k hk
        rw [replace_company_case_number, if_neg (by omega), if_neg (by omega),
          if_neg (by omega), if_neg (by omega), if_neg (by omega), hk]
        exact ⟨_, rfl⟩

/-- Concrete instances of the C1 dispatch theorem: a single-run form
applied, and an ambiguous two-candidate single-run template rejected. -/
theorem replace_company_case_number_dispatch_witness :
    (∃ pre mt post g1,
      str "<w:t xml:space=\"preserve\">PARK A 2025/357</w:t>" = pre ++ mt ++ post ∧
      singleRunM (mt ++ post) = some (mt.length, g1) ∧
      replace_company_case_number (str "<w:t xml:space=\"preserve\">PARK A 2025/357</w:t>")
          (str "2026/9") =
        Except.ok (pre ++ (mt.take g1 ++ str "2026/9" ++ tClose) ++ post)) ∧
    replace_company_case_number
        (str "<w:t xml:space=\"preserve\">PARK A 2025/357</w:t><w:t xml:space=\"preserve\">PARK B 2025/358</w:t>")
        (str "2026/9") =
      Except.error ambiguousMsg :=
  ⟨(replace_company_case_number_dispatch
      (str "<w:t xml:space=\"preserve\">PARK A 2025/357</w:t>") (str "2026/9")).1 (by decide),
   (replace_company_case_number_dispatch
      (str "<w:t xml:space=\"preserve\">PARK A 2025/357</w:t><w:t xml:space=\"preserve\">PARK B 2025/358</w:t>")
      (str "2026/9")).2.1 (by decide)⟩

/-- Counterexample to C1 as stated: a template where the split form
matches twice (the earlier forms match zero times).  The call fails
immediately, but with the missing-field error message reporting the
count, not with the ambiguous-template error the claim requires for a
form with more than one match. -/
theorem replace_company_case_number_split_twice_message :
    mcountF singleRunM
        (str "<w:t xml:space=\"preserve\">PARK A 2026/</w:t></w:r><w:r><w:rPr></w:rPr><w:t xml:space=\"preserve\">77</w:t><w:t xml:space=\"preserve\">PARK B 2026/</w:t></w:r><w:r><w:rPr></w:rPr><w:t xml:space=\"preserve\">78</w:t>").length
        (str "<w:t xml:space=\"preserve\">PARK A 2026/</w:t></w:r><w:r><w:rPr></w:rPr><w:t xml:space=\"preserve\">77</w:t><w:t xml:space=\"preserve\">PARK B 2026/</w:t></w:r><w:r><w:rPr></w:rPr><w:t xml:space=\"preserve\">78</w:t>") = 0 ∧
    mcountF twoRunM
        (str "<w:t xml:space=\"preserve\">PARK A 2026/</w:t></w:r><w:r><w:rPr></w:rPr><w:t xml:space=\"preserve\">77</w:t><w:t xml:space=\"preserve\">PARK B 2026/</w:t></w:r><w:r><w:rPr></w:rPr><w:t xml:space=\"preserve\">78</w:t>").length
        (str "<w:t xml:space=\"preserve\">PARK A 2026/</w:t></w:r><w:r><w:rPr></w:rPr><w:t xml:space=\"preserve\">77</w:t><w:t xml:space=\"preserve\">PARK B 2026/</w:t></w:r><w:r><w:rPr></w:rPr><w:t xml:space=\"preserve\">78</w:t>") = 0 ∧
    mcountF splitRunM
        (str "<w:t xml:space=\"preserve\">PARK A 2026/</w:t></w:r><w:r><w:rPr></w:rPr><w:t xml:space=\"preserve\">77</w:t><w:t xml:space=\"preserve\">PARK B 2026/</w:t></w:r><w:r><w:rPr></w:rPr><w:t xml:space=\"preserve\">78</w:t>").length
        (str "<w:t xml:space=\"preserve\">PARK A 2026/</w:t></w:r><w:r><w:rPr></w:rPr><w:t xml:space=\"preserve\">77</w:t><w:t xml:space=\"preserve\">PARK B 2026/</w:t></w:r><w:r><w:rPr></w:rPr><w:t xml:space=\"preserve\">78</w:t>") = 2 ∧
    replace_company_case_number
        (str "<w:t xml:space=\"preserve\">PARK A 2026/</w:t></w:r><w:r><w:rPr></w:rPr><w:t xml:space=\"preserve\">77</w:t><w:t xml:space=\"preserve\">PARK B 2026/</w:t></w:r><w:r><w:rPr></w:rPr><w:t xml:space=\"preserve\">78</w:t>")
        (str "2026/9") =
      Except.error (missingMsg 2) ∧
    missingMsg 2 ≠ ambiguousMsg :=
  ⟨by decide, by decide, by decide, rfl, by decide⟩

theorem findSubIdx_slash (yearPart : L) (noPart : L) (hy : ('/' : Char) ∉ yearPart) :
    findSubIdx (str "/") (yearPart ++ '/' :: noPart) = some yearPart.length := by
  induction yearPart with
  | nil =>
      have hp : (str "/").isPrefixOf ('/' :: noPart) = true := by
        rw [isPrefixOf_iff]
        exact ⟨noPart, rfl⟩
      rw [List.nil_append, findSubIdx, if_pos hp]
      rfl
  | cons c t ih =>
      have hc : c ≠ '/' := fun hcc => hy (by simp [hcc])
      have ht : ('/' : Char) ∉ t := fun htt => hy (by simp [htt])
      rw [List.cons_append, findSubIdx]
      have hp : (str "/").isPrefixOf (c :: (t ++ '/' :: noPart)) ≠ true := by
        intro hp
        have := (isPrefixOf_iff _ _).1 hp
        obtain ⟨rest, hrest⟩ := this
        have : c = '/' := by
          have := congrArg (fun l => l.head?) hrest
          simpa [str] using this.symm
        exact hc this
      rw [if_neg hp, ih ht]
      rfl

/-- **C3.** When the case number matches only the split form (single-run
and two-run forms match zero times, the split form exactly once), and
the case value is `yearPart ++ "/" ++ noPart` with the separator being
the value's first `/`, `replace_company_case_number` inserts
`yearPart ++ "/"` into the first run's fragment and `noPart` into the
second run's fragment, so the two inserted texts concatenate back to
the full case value. -/
theorem replace_company_case_number_split_spec (xml v yearPart noPart : L)
    (hv : v = yearPart ++ '/' :: noPart)
    (hy : ('/' : Char) ∉ yearPart)
    (h1 : mcountF singleRunM xml.length xml = 0)
    (h2 : mcountF twoRunM xml.length xml = 0)
    (h3 : mcountF splitRunM xml.length xml = 1) :
    ∃ pre mt post g1 g3 n4, xml = pre ++ mt ++ post ∧
      splitRunM (mt ++ post) = some (mt.length, (g1, g3, n4)) ∧
      replace_company_case_number xml v =
        Except.ok (pre ++ (mt.take g1 ++ (yearPart ++ str "/") ++
          (mt.drop (g1 + 5)).take g3 ++ noPart ++ tClose) ++ post) ∧
      (yearPart ++ str "/") ++ noPart = v := by
  have hfind : findSubIdx (str "/") v = some yearPart.length := by
    rw [hv]; exact findSubIdx_slash yearPart noPart hy
  have htake : v.take yearPart.length = yearPart := by
    rw [hv]
    have : yearPart ++ '/' :: noPart = yearPart ++ ('/' :: noPart) := rfl
    rw [this, List.take_left]
  have hdrop : v.drop (yearPart.length + 1) = noPart := by
    rw [hv]
    have h : yearPart ++ '/' :: noPart = (yearPart ++ ['/']) ++ noPart := by simp
    rw [h]
    have hl : yearPart.length + 1 = (yearPart ++ ['/']).length := by simp
    rw [hl, List.drop_left]
  obtain ⟨pre, mt, post, a, hdec, hmt, hsub⟩ :=
    msubF_decomp splitRunM
      (fun g slice => slice.take g.1 ++ (v.take yearPart.length ++ str "/") ++
        ((slice.drop (g.1 + 5)).take g.2.1) ++ v.drop (yearPart.length + 1) ++ tClose)
      splitRunM_bounds xml.length xml le_rfl h3
  obtain ⟨g1, g3, n4⟩ := a
  refine ⟨pre, mt, post, g1, g3, n4, hdec, hmt, ?_, ?_⟩
  · rw [replace_company_case_number, if_neg (by omega), if_neg (by omega),
      if_neg (by omega), if_neg (by omega), if_neg (by omega), hfind]
    dsimp only
    rw [hsub]
    rw [htake, hdrop]
  · have hslash : str "/" = ['/'] := rfl
    rw [hv, hslash]
    simp

/-- Concrete instance of C3: the split value `"2026/77"` lands in the
two run fragments and concatenates back to `"2026/77"`. -/
theorem replace_company_case_number_split_spec_witness :
    ∃ pre mt post g1 g3 n4,
      str "<w:t xml:space=\"preserve\">PARK H 2026/</w:t></w:r><w:r><w:rPr></w:rPr><w:t xml:space=\"preserve\">23</w:t>" =
        pre ++ mt ++ post ∧
      splitRunM (mt ++ post) = some (mt.length, (g1, g3, n4)) ∧
      replace_company_case_number
          (str "<w:t xml:space=\"preserve\">PARK H 2026/</w:t></w:r><w:r><w:rPr></w:rPr><w:t xml:space=\"preserve\">23</w:t>")
          (str "2026/77") =
        Except.ok (pre ++ (mt.take g1 ++ (str "2026" ++ str "/") ++
          (mt.drop (g1 + 5)).take g3 ++ str "77" ++ tClose) ++ post) ∧
      (str "2026" ++ str "/") ++ str "77" = str "2026/77" :=
  replace_company_case_number_split_spec
    (str "<w:t xml:space=\"preserve\">PARK H 2026/</w:t></w:r><w:r><w:rPr></w:rPr><w:t xml:space=\"preserve\">23</w:t>")
    (str "2026/77") (str "2026") (str "77") (by decide) (by decide)
    (by decide) (by decide) (by decide)

theorem ilgiM_dateShape (s : L) (n ds : Nat) (h : ilgiM s = some (n, ds)) :
    dateShapeAt (s.drop ds) = true := by
  rw [ilgiM] at h
  cases h0 : pOpenAnyLen s with
  | none => rw [h0] at h; cases h
  | some n0 =>
      rw [h0] at h
      dsimp only at h
      cases h1 : findSubIdx ilgiTag (s.drop n0) with
      | none => rw [h1] at h; cases h
      | some i1 =>
          rw [h1] at h
          dsimp only at h
          cases h2 : findPredIdx dateShapeAt (s.drop (n0 + i1 + ilgiTag.length)) with
          | none => rw [h2] at h; cases h
          | some j =>
              rw [h2] at h
              dsimp only at h
              cases h3 : findSubIdx esasPhrase
                  (s.drop (n0 + i1 + ilgiTag.length + j + 10)) with
              | none => rw [h3] at h; cases h
              | some i2 =>
                  rw [h3] at h
                  dsimp only at h
                  cases h4 : findSubIdx pCloseTag
                      (s.drop (n0 + i1 + ilgiTag.length + j + 10 + i2 + esasPhrase.length)) with
                  | none => rw [h4] at h; cases h
                  | some i3 =>
                      rw [h4] at h
                      have hds : ds = n0 + i1 + ilgiTag.length + j := by
                        have := Option.some.inj h
                        exact (congrArg Prod.snd this).symm
                      subst hds
                      have := findPredIdx_some_pred dateShapeAt
                        (s.drop (n0 + i1 + ilgiTag.length)) j h2
                      rwa [List.drop_drop] at this

/-- **C4 (amended).** Neither date-replacement operation implements
dual-form (dot/slash) date matching.  `replace_header_date` requires
exactly one structural match of the ANKARA-header pattern and replaces
the **entire text** of the following run — whatever its format;
`replace_ilgi_date` requires exactly one match of the `İlgi`-block
pattern whose date token is necessarily slash-separated
(`\d{2}/\d{2}/\d{4}`), and replaces that 10-character token.  Any match
count other than one makes the respective call fail. -/
theorem replace_date_operations_spec (xml d : L) :
    (mcountF headerM xml.length xml = 1 →
      ∃ pre mt post g1, xml = pre ++ mt ++ post ∧
        headerM (mt ++ post) = some (mt.length, g1) ∧
        replace_header_date xml d =
          Except.ok (pre ++ (mt.take g1 ++ d ++ tClose) ++ post)) ∧
    (mcountF headerM xml.length xml ≠ 1 →
      ∃ m, replace_header_date xml d = Except.error m) ∧
    (mcountF ilgiM xml.length xml = 1 →
      ∃ pre mt post ds, xml = pre ++ mt ++ post ∧
        ilgiM (mt ++ post) = some (mt.length, ds) ∧
        dateShapeAt ((mt ++ post).drop ds) = true ∧
        replace_ilgi_date xml d =
          Except.ok (pre ++ (mt.take ds ++ d ++ mt.drop (ds + 10)) ++ post)) ∧
    (mcountF ilgiM xml.length xml ≠ 1 →
      ∃ m, replace_ilgi_date xml d = Except.error m) := by
  refine ⟨?_, ?_, ?_, ?_⟩
  · intro h1
    obtain ⟨pre, mt, post, g1, hdec, hmt, hsub⟩ :=
      msubF_decomp headerM (fun g1 slice => slice.take g1 ++ d ++ tClose)
        headerM_bounds xml.length xml le_rfl h1
    refine ⟨pre, mt, post, g1, hdec, hmt, ?_⟩
    rw [replace_header_date, replace_by_pattern_once, if_neg (by omega), hsub]
  · intro h1
    exact ⟨_, by rw [replace_header_date, replace_by_pattern_once, if_pos h1]⟩
  · intro h1
    obtain ⟨pre, mt, post, ds, hdec, hmt, hsub⟩ :=
      msubF_decomp ilgiM (fun ds slice => slice.take ds ++ d ++ slice.drop (ds + 10))
        ilgiM_bounds xml.length xml le_rfl h1
    refine ⟨pre, mt, post, ds, hdec, hmt, ilgiM_dateShape _ _ _ hmt, ?_⟩
    rw [replace_ilgi_date, replace_by_pattern_once, if_neg (by omega), hsub]
  · intro h1
    exact ⟨_, by rw [replace_ilgi_date, replace_by_pattern_once, if_pos h1]⟩

/-- Concrete instances of the C4 (amended) theorem: one structural
header match (with a dot-separated date in the run) is replaced, and an
`İlgi` block with a slash-separated date is replaced. -/
theorem replace_date_operations_spec_witness :
    (∃ pre mt post g1,
      str "<w:t xml:space=\"preserve\">ANKARA, </w:t></w:r><w:r><w:rPr></w:rPr><w:t xml:space=\"preserve\">20.10.2025</w:t>" =
        pre ++ mt ++ post ∧
      headerM (mt ++ post) = some (mt.length, g1) ∧
      replace_header_date
          (str "<w:t xml:space=\"preserve\">ANKARA, </w:t></w:r><w:r><w:rPr></w:rPr><w:t xml:space=\"preserve\">20.10.2025</w:t>")
          (str "01/12/2025") =
        Except.ok (pre ++ (mt.take g1 ++ str "01/12/2025" ++ tClose) ++ post)) ∧
    (∃ pre mt post ds,
      str "<w:p><w:t xml:space=\"preserve\">İlgi</w:t> 20/10/2025 tarihli Esas sayılı yazınız</w:p>" =
        pre ++ mt ++ post ∧
      ilgiM (mt ++ post) = some (mt.length, ds) ∧
      dateShapeAt ((mt ++ post).drop ds) = true ∧
      replace_ilgi_date
          (str "<w:p><w:t xml:space=\"preserve\">İlgi</w:t> 20/10/2025 tarihli Esas sayılı yazınız</w:p>")
          (str "01/12/2025") =
        Except.ok (pre ++ (mt.take ds ++ str "01/12/2025" ++ mt.drop (ds + 10)) ++ post)) :=
  ⟨(replace_date_operations_spec
      (str "<w:t xml:space=\"preserve\">ANKARA, </w:t></w:r><w:r><w:rPr></w:rPr><w:t xml:space=\"preserve\">20.10.2025</w:t>")
      (str "01/12/2025")).1 (by decide),
   (replace_date_operations_spec
      (str "<w:p><w:t xml:space=\"preserve\">İlgi</w:t> 20/10/2025 tarihli Esas sayılı yazınız</w:p>")
      (str "01/12/2025")).2.2.1 (by decide)⟩

/-- Counterexample to C4 as stated: an input whose header date run
contains **both** the dot-separated and the slash-separated form at
once succeeds (the claim requires a template-integrity failure), because
`replace_header_date` matches the whole text node with `[^<]+`; and an
`İlgi` block whose date appears only in the dot-separated form fails
with a zero-match template error (the claim requires the dot form to be
accepted). -/
theorem replace_date_both_forms_cex :
    (str "20.10.2025") <:+:
      (str "<w:t xml:space=\"preserve\">ANKARA, </w:t></w:r><w:r><w:rPr></w:rPr><w:t xml:space=\"preserve\">20.10.2025 20/10/2025</w:t>") ∧
    (str "20/10/2025") <:+:
      (str "<w:t xml:space=\"preserve\">ANKARA, </w:t></w:r><w:r><w:rPr></w:rPr><w:t xml:space=\"preserve\">20.10.2025 20/10/2025</w:t>") ∧
    replace_header_date
        (str "<w:t xml:space=\"preserve\">ANKARA, </w:t></w:r><w:r><w:rPr></w:rPr><w:t xml:space=\"preserve\">20.10.2025 20/10/2025</w:t>")
        (str "01/12/2025") =
      Except.ok
        (str "<w:t xml:space=\"preserve\">ANKARA, </w:t></w:r><w:r><w:rPr></w:rPr><w:t xml:space=\"preserve\">01/12/2025</w:t>") ∧
    replace_ilgi_date
        (str "<w:p><w:t xml:space=\"preserve\">İlgi</w:t> 20.10.2025 tarihli Esas sayılı yazınız</w:p>")
        (str "01/12/2025") =
      Except.error
        "Şablonda 'Mahkeme Gönderim Tarihi' için beklenen alan 1 kez bulunmalıydı, bulunan adet: 0" :=
  ⟨by decide, by decide, rfl, rfl⟩

/-! ### `move_park_teknik_to_top` -/

/-- `'<w:body>'`. -/
def bodyOpenTag : L := str "<w:body>"

/-- `'</w:body>'`. -/
def bodyCloseTag : L := str "</w:body>"

/-- The moved-paragraph marker `'<w:t xml:space="preserve">PARK TEKNİK</w:t>'`. -/
def parkMarker : L := str "<w:t xml:space=\"preserve\">PARK TEKNİK</w:t>"

/-- The anchor marker `'<w:t xml:space="preserve">Sayı</w:t>'`. -/
def sayiMarker1 : L := str "<w:t xml:space=\"preserve\">Sayı</w:t>"

/-- The fallback anchor marker `'>Sayı<'`. -/
def sayiMarker2 : L := str ">Sayı<"

/-- `park_marker in p`. -/
def hasPark (p : L) : Bool := (findSubIdx parkMarker p).isSome

/-- `'<w:t xml:space="preserve">Sayı</w:t>' in p or '>Sayı<' in p`. -/
def hasSayi (p : L) : Bool :=
  (findSubIdx sayiMarker1 p).isSome || (findSubIdx sayiMarker2 p).isSome

/-- One match of the paragraph pattern `<w:p(?:\s[^>]*)?>.*?</w:p>` at
the head of `s` (the lazy `.*?` stops at the first `</w:p>`). -/
def matchPara (s : L) : Option Nat :=
  match tagOpenLen 'p' s with
  | none => none
  | some lopen =>
      match findSubIdx pCloseTag (s.drop lopen) with
      | none => none
      | some k => some (lopen + k + pCloseTag.length)

/-- The `re.split` scan with a captured paragraph pattern: returns the
leading gap and the (paragraph, following gap) pairs, scanning left to
right (fuel is instantiated with the text's length). -/
def scanParas : Nat → L → L × List (L × L)
  | 0, s => (s, [])
  | _ + 1, [] => ([], [])
  | fuel + 1, c :: t =>
      match matchPara (c :: t) with
      | some n =>
          let rest := scanParas fuel ((c :: t).drop n)
          ([], ((c :: t).take n, rest.1) :: rest.2)
      | none =>
          let rest := scanParas fuel t
          (c :: rest.1, rest.2)

/-- `re.split(paragraph_pattern, body_content)` with captures. -/
def splitParas (s : L) : L × List (L × L) := scanParas s.length s

/-- Reassemble the interleaved parts with a (possibly reordered)
paragraph list. -/
def rebuildParas (g0 : L) (gaps : List L) (ms : List L) : L :=
  g0 ++ (List.zipWith (fun m g => m ++ g) ms gaps).join

/-- `move_park_teknik_to_top` from the source: split the body into
paragraphs, require exactly one paragraph containing the PARK TEKNİK
marker and at least one containing the Sayı marker, and move the former
immediately before the first of the latter (`paragraphs.findIdx hasPark`
is `park_indices[0]`, well defined because the count check guarantees a
match exists). -/
def move_park_teknik_to_top (xml : L) : Except String L :=
  match findSubIdx bodyOpenTag xml with
  | none => Except.error "Şablonda <w:body> bloğu bulunamadı."
  | some i =>
      match findSubIdx bodyCloseTag (xml.drop (i + bodyOpenTag.length)) with
      | none => Except.error "Şablonda <w:body> bloğu bulunamadı."
      | some j =>
          let parts := splitParas ((xml.drop (i + bodyOpenTag.length)).take j)
          let paragraphs := parts.2.map Prod.fst
          if paragraphs.isEmpty then
            Except.error "Şablonda paragraf yapısı bulunamadı."
          else if paragraphs.countP hasPark ≠ 1 then
            Except.error ("Şablonda 'PARK TEKNİK' paragrafı tam 1 adet olmalıydı, " ++
              "bulunan adet: " ++ toString (paragraphs.countP hasPark))
          else
            match paragraphs.findIdx? hasSayi with
            | none => Except.error "Şablonda 'Sayı' paragrafı bulunamadı."
            | some sayiIdx =>
                let parkIdx := paragraphs.findIdx hasPark
                if parkIdx = sayiIdx then Except.ok xml
                else
                  let park := paragraphs.getD parkIdx []
                  let removed := paragraphs.eraseIdx parkIdx
                  let insertAt := if sayiIdx < parkIdx then sayiIdx else sayiIdx - 1
                  let newParas := removed.insertIdx insertAt park
                  Except.ok (xml.take (i + bodyOpenTag.length) ++
                    rebuildParas parts.1 (parts.2.map Prod.snd) newParas ++
                    xml.drop (i + bodyOpenTag.length + j))

/-- **C10.** When the unique paragraph containing the PARK TEKNİK marker
is the same paragraph as the first paragraph containing the Sayı
marker, `move_park_teknik_to_top` returns its input exactly unchanged
(it neither fails nor relocates anything). -/
theorem move_park_teknik_same_paragraph (xml : L) :
    ∀ i, findSubIdx bodyOpenTag xml = some i →
    ∀ j, findSubIdx bodyCloseTag (xml.drop (i + bodyOpenTag.length)) = some j →
    ∀ paragraphs : List L, paragraphs =
        (splitParas ((xml.drop (i + bodyOpenTag.length)).take j)).2.map Prod.fst →
    paragraphs.isEmpty = false →
    paragraphs.countP hasPark = 1 →
    ∀ sayiIdx, paragraphs.findIdx? hasSayi = some sayiIdx →
    paragraphs.findIdx hasPark = sayiIdx →
    move_park_teknik_to_top xml = Except.ok xml := by
  intro i hi j hj paragraphs hp hne hc sayiIdx hs heq
  rw [move_park_teknik_to_top, hi]
  dsimp only
  rw [hj]
  dsimp only
  rw [← hp, if_neg (by simp [hne]), if_neg (by omega), hs]
  dsimp only
  rw [if_pos heq]

/-- Concrete instance of C10: a body whose PARK TEKNİK paragraph also
holds the first Sayı marker is returned untouched. -/
theorem move_park_teknik_same_paragraph_witness :
    move_park_teknik_to_top
        (str "<w:body><w:p><w:t xml:space=\"preserve\">PARK TEKNİK</w:t> >Sayı< x</w:p><w:p>other</w:p></w:body>") =
      Except.ok
        (str "<w:body><w:p><w:t xml:space=\"preserve\">PARK TEKNİK</w:t> >Sayı< x</w:p><w:p>other</w:p></w:body>") :=
  move_park_teknik_same_paragraph
    (str "<w:body><w:p><w:t xml:space=\"preserve\">PARK TEKNİK</w:t> >Sayı< x</w:p><w:p>other</w:p></w:body>")
    0 (by decide) 79 (by decide) _ rfl (by decide) (by decide) 0 (by decide) (by decide)

/-! ### `update_docx_document_xml` -/

/-- The markup entry name `word/document.xml`. -/
def docxDocumentXml : String := "word/document.xml"

/-- The transformation applied to the markup entry's text, in the
source's order (substitutions, then layout normalisation, then the
paragraph move). -/
def transform_document_xml
    (adSoyad tc sirketEsasValue mahkemeEsasValue mahkemeTarihi evrakTarihi courtNo : L)
    (xml : L) : Except String L := do
  let xml ← replace_exact_once xml (str "Doğukan yurt") adSoyad "Ad Soyad"
  let xml ← replace_exact_once xml (str "16291090514") tc "TC"
  let xml ← replace_company_case_number xml sirketEsasValue
  let xml ← replace_court_case_number xml mahkemeEsasValue
  let xml ← replace_ilgi_date xml mahkemeTarihi
  let xml ← replace_header_date xml evrakTarihi
  let xml ← replace_court_number xml courtNo
  let xml ← tighten_header_date_position xml
  let xml := normalize_justified_paragraphs xml
  move_park_teknik_to_top xml

/-- The per-entry loop of `update_docx_document_xml`: entries named
`word/document.xml` are transformed, every other entry is copied
unchanged; the first failure aborts. -/
def processEntries (tr : L → Except String L) :
    List (String × L) → Except String (List (String × L))
  | [] => Except.ok []
  | (name, data) :: rest =>
      if name = docxDocumentXml then
        match tr data with
        | Except.error e => Except.error e
        | Except.ok newData =>
            match processEntries tr rest with
            | Except.error e => Except.error e
            | Except.ok out => Except.ok ((name, newData) :: out)
      else
        match processEntries tr rest with
        | Except.error e => Except.error e
        | Except.ok out => Except.ok ((name, data) :: out)

/-- `update_docx_document_xml` from the source.  The archive is the list
of its entries in order; `currentYear` stands for
`datetime.now().year` rendered in decimal (an external input), from
which the `{year}/{number}` case values are composed. -/
def update_docx_document_xml (entries : List (String × L))
    (adSoyad tc sirketEsasNo mahkemeEsasNo mahkemeTarihi evrakTarihi courtNo currentYear : L) :
    Except String (List (String × L)) :=
  match processEntries
      (transform_document_xml adSoyad tc (currentYear ++ str "/" ++ sirketEsasNo)
        (currentYear ++ str "/" ++ mahkemeEsasNo) mahkemeTarihi evrakTarihi courtNo)
      entries with
  | Except.error e => Except.error e
  | Except.ok out =>
      if entries.any (fun e => e.1 = docxDocumentXml) then Except.ok out
      else Except.error "DOCX içinde word/document.xml bulunamadı."

theorem processEntries_passthrough (tr : L → Except String L) :
    ∀ entries out, processEntries tr entries = Except.ok out →
      out.length = entries.length ∧
      ∀ k, k < entries.length →
        (out.getD k ("", [])).1 = (entries.getD k ("", [])).1 ∧
        ((entries.getD k ("", [])).1 ≠ docxDocumentXml →
          out.getD k ("", []) = entries.getD k ("", [])) := by
  intro entries
  induction entries with
  | nil =>
      intro out h
      rw [processEntries] at h
      have : out = [] := (Option.some.inj (congrArg Except.toOption h)).symm
      subst this
      exact ⟨rfl, fun k hk => absurd hk (by simp)⟩
  | cons e rest ih =>
      intro out h
      obtain ⟨name, data⟩ := e
      rw [processEntries] at h
      by_cases hname : name = docxDocumentXml
      · rw [if_pos hname] at h
        cases htr : tr data with
        | error m => rw [htr] at h; cases h
        | ok newData =>
            rw [htr] at h
            dsimp only at h
            cases hrest : processEntries tr rest with
            | error m => rw [hrest] at h; cases h
            | ok out' =>
                rw [hrest] at h
                have hout : out = (name, newData) :: out' :=
                  (Option.some.inj (congrArg Except.toOption h)).symm
                subst hout
                obtain ⟨hlen, hk⟩ := ih out' hrest
                refine ⟨by simp [hlen], ?_⟩
                intro k hkk
                cases k with
                | zero => exact ⟨rfl, fun hne => absurd hname hne⟩
                | succ k' =>
                    have := hk k' (by simpa using hkk)
                    simpa using this
      · rw [if_neg hname] at h
        cases hrest : processEntries tr rest with
        | error m => rw [hrest] at h; cases h
        | ok out' =>
            rw [hrest] at h
            have hout : out = (name, data) :: out' :=
              (Option.some.inj (congrArg Except.toOption h)).symm
            subst hout
            obtain ⟨hlen, hk⟩ := ih out' hrest
            refine ⟨by simp [hlen], ?_⟩
            intro k hkk
            cases k with
            | zero => exact ⟨rfl, fun _ => rfl⟩
            | succ k' =>
                have := hk k' (by simpa using hkk)
                simpa using this

/-- **C6.** On every successful run of `update_docx_document_xml`, the
output archive has the same entries in the same order, every entry keeps
its name, and every entry other than `word/document.xml` is copied with
its content exactly equal to the input entry's content (only the markup
entry's content is transformed). -/
theorem update_docx_document_xml_passthrough (entries : List (String × L))
    (adSoyad tc sirketEsasNo mahkemeEsasNo mahkemeTarihi evrakTarihi courtNo currentYear : L)
    (out : List (String × L))
    (h : update_docx_document_xml entries adSoyad tc sirketEsasNo mahkemeEsasNo
      mahkemeTarihi evrakTarihi courtNo currentYear = Except.ok out) :
    out.length = entries.length ∧
    ∀ k, k < entries.length →
      (out.getD k ("", [])).1 = (entries.getD k ("", [])).1 ∧
      ((entries.getD k ("", [])).1 ≠ docxDocumentXml →
        out.getD k ("", []) = entries.getD k ("", [])) := by
  rw [update_docx_document_xml] at h
  cases hp : processEntries
      (transform_document_xml adSoyad tc (currentYear ++ str "/" ++ sirketEsasNo)
        (currentYear ++ str "/" ++ mahkemeEsasNo) mahkemeTarihi evrakTarihi courtNo)
      entries with
  | error m => rw [hp] at h; cases h
  | ok out' =>
      rw [hp] at h
      dsimp only at h
      by_cases hany : entries.any (fun e => e.1 = docxDocumentXml) = true
      · rw [if_pos hany] at h
        have hout : out = out' := (Option.some.inj (congrArg Except.toOption h)).symm
        subst hout
        exact processEntries_passthrough _ entries out hp
      · rw [if_neg hany] at h
        cases h

/-- A concrete input markup entry exercising every transform of the
pipeline (used by the C6 witness). -/
def wDocIn : L := str
  "<w:body><w:p><w:r><w:t xml:space=\"preserve\">3.</w:t></w:r><w:r><w:rPr></w:rPr><w:t xml:space=\"preserve\">İŞ MAHKEMESİ</w:t></w:r></w:p><w:p><w:r><w:tab/></w:r><w:r><w:t xml:space=\"preserve\">ANKARA, </w:t></w:r><w:r><w:rPr></w:rPr><w:t xml:space=\"preserve\">20.10.2025</w:t></w:r></w:p><w:p><w:r><w:t xml:space=\"preserve\">Sayı</w:t></w:r></w:p><w:p><w:r><w:t xml:space=\"preserve\">İlgi</w:t></w:r><w:r><w:t xml:space=\"preserve\"> 20/10/2025 </w:t></w:r><w:r><w:t xml:space=\"preserve\">tarihli ve</w:t></w:r><w:r><w:rPr></w:rPr><w:t xml:space=\"preserve\">2025/357</w:t></w:r><w:r><w:t xml:space=\"preserve\"> Esas sayılı yazınız.</w:t></w:r></w:p><w:p><w:r><w:t xml:space=\"preserve\">Doğukan yurt 16291090514</w:t></w:r></w:p><w:p><w:r><w:t xml:space=\"preserve\">PARK A 2025/357</w:t></w:r></w:p><w:p><w:r><w:t xml:space=\"preserve\">PARK TEKNİK</w:t></w:r></w:p></w:body>"

/-- The transformed markup entry produced from `wDocIn`. -/
def wDocOut : L := str
  "<w:body><w:p><w:r><w:t xml:space=\"preserve\">7.</w:t></w:r><w:r><w:rPr></w:rPr><w:t xml:space=\"preserve\">İŞ MAHKEMESİ</w:t></w:r></w:p><w:p><w:r></w:r><w:r><w:t xml:space=\"preserve\">ANKARA, </w:t></w:r><w:r><w:rPr></w:rPr><w:t xml:space=\"preserve\">02/11/2025</w:t></w:r></w:p><w:p><w:r><w:t xml:space=\"preserve\">PARK TEKNİK</w:t></w:r></w:p><w:p><w:r><w:t xml:space=\"preserve\">Sayı</w:t></w:r></w:p><w:p><w:r><w:t xml:space=\"preserve\">İlgi</w:t></w:r><w:r><w:t xml:space=\"preserve\"> 01/11/2025 </w:t></w:r><w:r><w:t xml:space=\"preserve\">tarihli ve</w:t></w:r><w:r><w:rPr></w:rPr><w:t xml:space=\"preserve\">2026/5</w:t></w:r><w:r><w:t xml:space=\"preserve\"> Esas sayılı yazınız.</w:t></w:r></w:p><w:p><w:r><w:t xml:space=\"preserve\">Ali Kaya 123</w:t></w:r></w:p><w:p><w:r><w:t xml:space=\"preserve\">PARK A 2026/9</w:t></w:r></w:p></w:body>"

/-- Concrete instance of C6: an archive with a styles entry and the
markup entry; the run succeeds, the styles entry passes through
byte-identically, and the markup entry is transformed. -/
theorem update_docx_document_xml_passthrough_witness :
    update_docx_document_xml [("word/styles.xml", str "AAA"), (docxDocumentXml, wDocIn)]
        (str "Ali Kaya") (str "123") (str "9") (str "5") (str "01/11/2025")
        (str "02/11/2025") (str "7") (str "2026") =
      Except.ok [("word/styles.xml", str "AAA"), (docxDocumentXml, wDocOut)] ∧
    ([("word/styles.xml", str "AAA"), (docxDocumentXml, wDocOut)] : List (String × L)).length =
      ([("word/styles.xml", str "AAA"), (docxDocumentXml, wDocIn)] : List (String × L)).length ∧
    (([("word/styles.xml", str "AAA"), (docxDocumentXml, wDocOut)] : List (String × L)).getD 0
        ("", [])) =
      (([("word/styles.xml", str "AAA"), (docxDocumentXml, wDocIn)] : List (String × L)).getD 0
        ("", [])) := by
  have h : update_docx_document_xml [("word/styles.xml", str "AAA"), (docxDocumentXml, wDocIn)]
      (str "Ali Kaya") (str "123") (str "9") (str "5") (str "01/11/2025")
      (str "02/11/2025") (str "7") (str "2026") =
      Except.ok [("word/styles.xml", str "AAA"), (docxDocumentXml, wDocOut)] := by
    rfl
  have hthm := update_docx_document_xml_passthrough
    [("word/styles.xml", str "AAA"), (docxDocumentXml, wDocIn)]
    (str "Ali Kaya") (str "123") (str "9") (str "5") (str "01/11/2025")
    (str "02/11/2025") (str "7") (str "2026")
    [("word/styles.xml", str "AAA"), (docxDocumentXml, wDocOut)] h
  exact ⟨h, hthm.1, (hthm.2 0 (by decide)).2 (by decide)⟩

/-! ### Stability of the paragraph matcher under context changes

These lemmas justify that re-running the paragraph scanner on a body
whose paragraphs have been reordered reproduces the reordered
decomposition (used for the C5 idempotence proof). -/

theorem prefix_append_indep {u w : L} (A : L) (h : u.length ≤ w.length) :
    u <+: (w ++ A) ↔ u <+: w := by
  constructor
  · intro hu
    exact List.prefix_of_prefix_length_le hu (w.prefix_append A) h
  · intro hu
    exact hu.trans (w.prefix_append A)

theorem prefix_take_of_le {u v : L} (n : Nat) (h : u <+: v) (hn : u.length ≤ n) :
    u <+: v.take n := by
  obtain ⟨r, rfl⟩ := h
  rw [List.take_append_eq_append_take, List.take_of_length_le hn]
  exact List.prefix_append u _

theorem findSubIdx_drop_prefix (pat s : L) (k : Nat)
    (h : findSubIdx pat s = some k) : pat <+: s.drop k := by
  have hle := findSubIdx_some_le pat s k h
  have hd := findSubIdx_some_decomp pat s k h
  have hlen : (s.take k).length = k := by rw [List.length_take]; omega
  have heq : s.drop k = pat ++ s.drop (k + pat.length) := by
    conv_lhs => rw [hd]
    rw [List.append_assoc, List.drop_left' hlen]
  exact ⟨s.drop (k + pat.length), heq.symm⟩

theorem findSubIdx_intro (pat : L) :
    ∀ (s : L) (i : Nat), i ≤ s.length → pat <+: s.drop i →
      (∀ p, p < i → ¬ pat <+: s.drop p) → findSubIdx pat s = some i := by
  intro s
  induction s with
  | nil =>
      intro i hi hocc _
      have hi0 : i = 0 := by simpa using hi
      subst hi0
      rw [findSubIdx, if_pos ((isPrefixOf_iff _ _).2 (by simpa using hocc))]
  | cons c t ih =>
      intro i hi hocc hfirst
      cases i with
      | zero =>
          rw [findSubIdx, if_pos ((isPrefixOf_iff _ _).2 (by simpa using hocc))]
      | succ i' =>
          have hnp : pat.isPrefixOf (c :: t) ≠ true := by
            intro hp
            exact hfirst 0 (by omega) (by simpa using (isPrefixOf_iff _ _).1 hp)
          rw [findSubIdx, if_neg hnp,
            ih i' (by simpa using hi) (by simpa using hocc)
              (fun p hp => by simpa using hfirst (p + 1) (by omega))]
          rfl

theorem findSubIdx_append_stable (pat : L) (s R : L) (k : Nat)
    (h : findSubIdx pat s = some k) (hk : k + pat.length ≤ s.length) :
    findSubIdx pat (s ++ R) = some k := by
  have hkk := findSubIdx_some_le pat s k h
  refine findSubIdx_intro pat (s ++ R) k (by simp; omega) ?_ ?_
  · have hocc : pat <+: s.drop k := findSubIdx_drop_prefix pat s k h
    rw [List.drop_append_of_le_length (by omega)]
    exact hocc.trans ((s.drop k).prefix_append R)
  · intro p hp hpre
    rw [List.drop_append_of_le_length (by omega)] at hpre
    have hlen : pat.length ≤ (s.drop p).length := by
      rw [List.length_drop]
      omega
    exact findSubIdx_some_first pat s k h p hp ((prefix_append_indep R hlen).1 hpre)

theorem findSubIdx_take_stable (pat : L) (s : L) (k t : Nat)
    (h : findSubIdx pat s = some k) (hk : k + pat.length ≤ t) :
    findSubIdx pat (s.take t) = some k := by
  have hkk := findSubIdx_some_le pat s k h
  have hocc : pat <+: s.drop k := findSubIdx_drop_prefix pat s k h
  refine findSubIdx_intro pat (s.take t) k (by rw [List.length_take]; omega) ?_ ?_
  · rw [List.drop_take]
    exact prefix_take_of_le (t - k) hocc (by omega)
  · intro p hp hpre
    rw [List.drop_take] at hpre
    exact findSubIdx_some_first pat s k h p hp (hpre.trans (List.take_prefix _ _))

theorem tagOpenLen_shape (tagChar : Char) (s : L) (Lo : Nat)
    (h : tagOpenLen tagChar s = some Lo) :
    ∃ c rest, s = '<' :: 'w' :: ':' :: tagChar :: c :: rest ∧ 5 ≤ Lo ∧
      ((c = '>' ∧ Lo = 5) ∨
       (isWS c = true ∧ ∃ k, findSubIdx [('>' : Char)] rest = some k ∧ Lo = 6 + k)) := by
  unfold tagOpenLen at h
  split at h
  case _ c₀ c rest =>
      by_cases h₀ : c₀ = tagChar
      · subst h₀
        rw [if_pos rfl] at h
        by_cases h₁ : c = '>'
        · rw [if_pos h₁] at h
          refine ⟨c, rest, rfl, ?_, Or.inl ⟨h₁, (Option.some.inj h).symm⟩⟩
          have := (Option.some.inj h).symm
          omega
        · rw [if_neg h₁] at h
          by_cases h₂ : isWS c = true
          · rw [if_pos h₂] at h
            cases hfi : findSubIdx [('>' : Char)] rest with
            | none => rw [hfi] at h; cases h
            | some k =>
                rw [hfi] at h
                refine ⟨c, rest, rfl, ?_, Or.inr ⟨h₂, k, hfi, (Option.some.inj h).symm⟩⟩
                have := (Option.some.inj h).symm
                omega
          · rw [if_neg h₂] at h; cases h
      · rw [if_neg h₀] at h; cases h
  case _ => cases h


/-! ### Analysis of `move_park_teknik_to_top` (C5) -/

theorem tagOpenLen_intro_gt (tagChar : Char) (rest : L) :
    tagOpenLen tagChar ('<' :: 'w' :: ':' :: tagChar :: '>' :: rest) = some 5 := by
  simp [tagOpenLen]

theorem tagOpenLen_intro_ws (tagChar c : Char) (rest : L) (hc : c ≠ '>') (hw : isWS c = true)
    (k : Nat) (hk : findSubIdx ['>'] rest = some k) :
    tagOpenLen tagChar ('<' :: 'w' :: ':' :: tagChar :: c :: rest) = some (6 + k) := by
  simp only [tagOpenLen, if_true, eq_self_iff_true]
  rw [if_neg hc, if_pos hw, hk]

theorem take_add_five (a b c d e : Char) (t : L) (m : Nat) :
    (a :: b :: c :: d :: e :: t).take (m + 5) = a :: b :: c :: d :: e :: t.take m := by
  rw [show m + 5 = m + 4 + 1 by omega, List.take_succ_cons,
    show m + 4 = m + 3 + 1 by omega, List.take_succ_cons,
    show m + 3 = m + 2 + 1 by omega, List.take_succ_cons,
    show m + 2 = m + 1 + 1 by omega, List.take_succ_cons, List.take_succ_cons]

theorem drop_add_five (a b c d e : Char) (t : L) (m : Nat) :
    (a :: b :: c :: d :: e :: t).drop (m + 5) = t.drop m := by
  rw [show m + 5 = m + 4 + 1 by omega, List.drop_succ_cons,
    show m + 4 = m + 3 + 1 by omega, List.drop_succ_cons,
    show m + 3 = m + 2 + 1 by omega, List.drop_succ_cons,
    show m + 2 = m + 1 + 1 by omega, List.drop_succ_cons, List.drop_succ_cons]

theorem tagOpenLen_take (tagChar : Char) (s : L) (lo n : Nat)
    (h : tagOpenLen tagChar s = some lo) (hn : lo ≤ n) :
    tagOpenLen tagChar (s.take n) = some lo := by
  obtain ⟨c, rest, rfl, h5, hcase⟩ := tagOpenLen_shape tagChar s lo h
  rcases hcase with ⟨rfl, rfl⟩ | ⟨hw, k, hk, rfl⟩
  · rw [show n = (n - 5) + 5 by omega, take_add_five]
    exact tagOpenLen_intro_gt tagChar _
  · have hcne : c ≠ '>' := by
      intro hc
      rw [hc] at hw
      exact absurd hw (by decide)
    rw [show n = (n - 5) + 5 by omega, take_add_five]
    exact tagOpenLen_intro_ws tagChar c _ hcne hw k
      (findSubIdx_take_stable _ rest k (n - 5) hk (by simp; omega))

theorem tagOpenLen_append (tagChar : Char) (s R : L) (lo : Nat)
    (h : tagOpenLen tagChar s = some lo) :
    tagOpenLen tagChar (s ++ R) = some lo := by
  have hle := (tagOpenLen_pos_le tagChar s lo h).2
  obtain ⟨c, rest, rfl, h5, hcase⟩ := tagOpenLen_shape tagChar s lo h
  simp only [List.length_cons] at hle
  rcases hcase with ⟨rfl, rfl⟩ | ⟨hw, k, hk, rfl⟩
  · exact tagOpenLen_intro_gt tagChar _
  · have hcne : c ≠ '>' := by
      intro hc
      rw [hc] at hw
      exact absurd hw (by decide)
    simp only [List.cons_append]
    exact tagOpenLen_intro_ws tagChar c _ hcne hw k
      (findSubIdx_append_stable _ rest R k hk (by simp; omega))

theorem matchPara_shape (s : L) (n : Nat) (h : matchPara s = some n) :
    ∃ lo k, tagOpenLen 'p' s = some lo ∧ findSubIdx pCloseTag (s.drop lo) = some k ∧
      n = lo + k + 6 := by
  unfold matchPara at h
  cases htag : tagOpenLen 'p' s with
  | none => rw [htag] at h; cases h
  | some lo =>
      rw [htag] at h
      dsimp only at h
      cases hf : findSubIdx pCloseTag (s.drop lo) with
      | none => rw [hf] at h; cases h
      | some k =>
          rw [hf] at h
          dsimp only at h
          refine ⟨lo, k, rfl, hf, ?_⟩
          have hlen : pCloseTag.length = 6 := rfl
          have h2 := Option.some.inj h
          rw [hlen] at h2
          omega

theorem matchPara_intro (s : L) (lo k : Nat) (htag : tagOpenLen 'p' s = some lo)
    (hf : findSubIdx pCloseTag (s.drop lo) = some k) :
    matchPara s = some (lo + k + 6) := by
  unfold matchPara
  rw [htag]
  dsimp only
  rw [hf]
  rfl

theorem matchPara_some_pos (s : L) (n : Nat) (h : matchPara s = some n) :
    11 ≤ n ∧ n ≤ s.length := by
  obtain ⟨lo, k, htag, hf, rfl⟩ := matchPara_shape s n h
  obtain ⟨c, rest, hs, hlo5, _⟩ := tagOpenLen_shape 'p' s lo htag
  have h1 := findSubIdx_some_le pCloseTag (s.drop lo) k hf
  have h2 := tagOpenLen_pos_le 'p' s lo htag
  have hlen : pCloseTag.length = 6 := rfl
  rw [hlen, List.length_drop] at h1
  omega

theorem matchPara_take (s : L) (n : Nat) (h : matchPara s = some n) :
    matchPara (s.take n) = some n := by
  obtain ⟨lo, k, htag, hf, rfl⟩ := matchPara_shape s _ h
  have hb := tagOpenLen_pos_le 'p' s lo htag
  have hfb := findSubIdx_some_le _ _ _ hf
  have hlen : pCloseTag.length = 6 := rfl
  rw [hlen, List.length_drop] at hfb
  have htag2 := tagOpenLen_take 'p' s lo (lo + k + 6) htag (by omega)
  have hdt : (s.take (lo + k + 6)).drop lo = (s.drop lo).take (k + 6) := by
    rw [List.drop_take]
    congr 1
    omega
  have hf2 : findSubIdx pCloseTag ((s.take (lo + k + 6)).drop lo) = some k := by
    rw [hdt]
    exact findSubIdx_take_stable _ _ _ _ hf (by rw [hlen])
  exact matchPara_intro _ lo k htag2 hf2

theorem matchPara_append (m R : L) (h : matchPara m = some m.length) :
    matchPara (m ++ R) = some m.length := by
  obtain ⟨lo, k, htag, hf, hn⟩ := matchPara_shape m _ h
  have hb := tagOpenLen_pos_le 'p' m lo htag
  have hlen : pCloseTag.length = 6 := rfl
  have hfb := findSubIdx_some_le _ _ _ hf
  rw [hlen, List.length_drop] at hfb
  have htag2 := tagOpenLen_append 'p' m R lo htag
  have hf2 : findSubIdx pCloseTag ((m ++ R).drop lo) = some k := by
    rw [List.drop_append_of_le_length (by omega)]
    exact findSubIdx_append_stable _ _ _ _ hf (by rw [hlen, List.length_drop]; omega)
  rw [hn]
  exact matchPara_intro _ lo k htag2 hf2

theorem matchPara_self_take4 (m : L) (h : matchPara m = some m.length) :
    m.take 4 = str "<w:p" ∧ 4 ≤ m.length := by
  obtain ⟨lo, k, htag, _, _⟩ := matchPara_shape m _ h
  obtain ⟨c, rest, rfl, _, _⟩ := tagOpenLen_shape 'p' m lo htag
  exact ⟨rfl, by simp⟩

theorem matchPara_self_head (m : L) (h : matchPara m = some m.length) :
    m.head? = some '<' := by
  obtain ⟨lo, k, htag, _, _⟩ := matchPara_shape m _ h
  obtain ⟨c, rest, rfl, _, _⟩ := tagOpenLen_shape 'p' m lo htag
  rfl

theorem matchPara_self_closer (m : L) (h : matchPara m = some m.length) :
    m.drop (m.length - 6) = pCloseTag := by
  obtain ⟨lo, k, htag, hf, hn⟩ := matchPara_shape m _ h
  have hb := tagOpenLen_pos_le 'p' m lo htag
  have hpre := findSubIdx_drop_prefix _ _ _ hf
  rw [List.drop_drop] at hpre
  rw [show lo + k = m.length - 6 by omega] at hpre
  refine (List.IsPrefix.eq_of_length hpre ?_).symm
  have hlen : pCloseTag.length = 6 := rfl
  rw [hlen, List.length_drop]
  omega

theorem matchPara_self_getLast (m : L) (h : matchPara m = some m.length) :
    m.getLast? = some '>' := by
  have hc := matchPara_self_closer m h
  have hsplit : m = m.take (m.length - 6) ++ pCloseTag := by
    conv_lhs => rw [← List.take_append_drop (m.length - 6) m]
    rw [hc]
  rw [hsplit, List.getLast?_append_of_ne_nil _ (by decide)]
  rfl

theorem matchPara_self_gtpos (m : L) (h : matchPara m = some m.length) :
    ∃ lo, tagOpenLen 'p' m = some lo ∧ 5 ≤ lo ∧ lo + 6 ≤ m.length ∧
      [('>' : Char)] <+: m.drop (lo - 1) := by
  obtain ⟨lo, k, htag, hf, hn⟩ := matchPara_shape m _ h
  obtain ⟨c, rest, hs, h5, hcase⟩ := tagOpenLen_shape 'p' m lo htag
  have hfb := findSubIdx_some_le _ _ _ hf
  have hlen : pCloseTag.length = 6 := rfl
  rw [hlen, List.length_drop] at hfb
  refine ⟨lo, htag, h5, by omega, ?_⟩
  rcases hcase with ⟨rfl, rfl⟩ | ⟨hw, k2, hk2, rfl⟩
  · rw [hs]
    exact ⟨rest, rfl⟩
  · have hp := findSubIdx_drop_prefix _ _ _ hk2
    rw [hs, show 6 + k2 - 1 = k2 + 5 by omega, drop_add_five]
    exact hp

/-- The five-character window deciding whether the paragraph-opening
pattern can begin at the head of `s`: `<w:p` followed by `>` or a
whitespace character. -/
def pOpenHead (s : L) : Bool :=
  decide (5 ≤ s.length) && (s.getD 0 ' ' == '<') && (s.getD 1 ' ' == 'w') &&
    (s.getD 2 ' ' == ':') && (s.getD 3 ' ' == 'p') &&
    ((s.getD 4 ' ' == '>') || isWS (s.getD 4 ' '))

theorem pOpenHead_shape (s : L) (h : pOpenHead s = true) :
    ∃ c rest, s = '<' :: 'w' :: ':' :: 'p' :: c :: rest ∧ (c = '>' ∨ isWS c = true) := by
  rcases s with _ | ⟨a, _ | ⟨b, _ | ⟨c3, _ | ⟨d, _ | ⟨e, t⟩⟩⟩⟩⟩ <;>
    simp [pOpenHead, List.getD_cons_zero, List.getD_cons_succ] at h
  obtain ⟨⟨⟨⟨h1, h2⟩, h3⟩, h4⟩, h5⟩ := h
  subst h1; subst h2; subst h3; subst h4
  exact ⟨e, t, rfl, h5⟩

theorem pOpenHead_intro (c : Char) (rest : L) (hc : c = '>' ∨ isWS c = true) :
    pOpenHead ('<' :: 'w' :: ':' :: 'p' :: c :: rest) = true := by
  simp [pOpenHead, List.getD_cons_zero, List.getD_cons_succ]
  rcases hc with rfl | hw
  · left; rfl
  · right; exact hw

theorem matchPara_none_of_head_false (s : L) (h : pOpenHead s = false) :
    matchPara s = none := by
  cases hm : matchPara s with
  | none => rfl
  | some n =>
      obtain ⟨lo, k, htag, _, _⟩ := matchPara_shape s n hm
      obtain ⟨c, rest, rfl, _, hcase⟩ := tagOpenLen_shape 'p' s lo htag
      have hcc : c = '>' ∨ isWS c = true := by
        rcases hcase with ⟨h1, _⟩ | ⟨h1, _⟩
        · exact Or.inl h1
        · exact Or.inr h1
      rw [pOpenHead_intro c rest hcc] at h
      cases h

theorem pOpenHead_window (x m R : L) (hx : x ≠ []) (hm4 : m.take 4 = str "<w:p")
    (hml : 4 ≤ m.length) :
    pOpenHead (x ++ (m ++ R)) = pOpenHead (x ++ str "<w:p") := by
  have hxl : 1 ≤ x.length := List.length_pos.2 hx
  have hw4 : (str "<w:p").length = 4 := rfl
  have hgd : ∀ i, i ≤ 4 → (x ++ (m ++ R)).getD i ' ' = (x ++ str "<w:p").getD i ' ' := by
    intro i hi
    by_cases hix : i < x.length
    · rw [List.getD_append _ _ _ _ hix, List.getD_append _ _ _ _ hix]
    · have hge : x.length ≤ i := by omega
      rw [List.getD_append_right _ _ _ _ hge, List.getD_append_right _ _ _ _ hge]
      have hj : i - x.length < 4 := by omega
      rw [List.getD_eq_getElem?_getD, List.getD_eq_getElem?_getD, ← hm4]
      have h1 : (m ++ R)[i - x.length]? = m[i - x.length]? :=
        List.getElem?_append_left (by omega)
      have h2 : (m.take 4)[i - x.length]? = m[i - x.length]? := by
        rw [List.getElem?_take]
        rw [if_pos hj]
      rw [h1, h2]
  have hl1 : decide (5 ≤ (x ++ (m ++ R)).length) = true :=
    decide_eq_true (by simp [List.length_append]; omega)
  have hl2 : decide (5 ≤ (x ++ str "<w:p").length) = true :=
    decide_eq_true (by simp [List.length_append, hw4]; omega)
  unfold pOpenHead
  rw [hgd 0 (by omega), hgd 1 (by omega), hgd 2 (by omega), hgd 3 (by omega),
    hgd 4 (by omega), hl1, hl2]

theorem infix_of_prefix_drop (pat s : L) (q : Nat) (h : pat <+: s.drop q) : pat <:+: s :=
  List.IsInfix.trans h.isInfix (List.drop_suffix q s).isInfix

theorem matchPara_isSome_of_head (x m R : L) (hx : x ≠ [])
    (hm : matchPara m = some m.length)
    (hh : pOpenHead (x ++ (m ++ R)) = true) :
    matchPara (x ++ (m ++ R)) ≠ none := by
  obtain ⟨lo, htag, hlo5, hlo6, hgt⟩ := matchPara_self_gtpos m hm
  have hcl := matchPara_self_closer m hm
  have hpos := matchPara_some_pos m _ hm
  have hxl : 1 ≤ x.length := List.length_pos.2 hx
  have hdrop_c : (x ++ (m ++ R)).drop (x.length + (m.length - 6)) = pCloseTag ++ R := by
    rw [List.drop_append, List.drop_append_of_le_length (by omega), hcl]
  obtain ⟨c, rest, hseq, hcase⟩ := pOpenHead_shape _ hh
  rcases hcase with rfl | hw
  · have htags : tagOpenLen 'p' (x ++ (m ++ R)) = some 5 := by
      rw [hseq]
      exact tagOpenLen_intro_gt 'p' rest
    have hocc : pCloseTag <+:
        ((x ++ (m ++ R)).drop 5).drop (x.length + (m.length - 6) - 5) := by
      rw [List.drop_drop, show 5 + (x.length + (m.length - 6) - 5) =
        x.length + (m.length - 6) by omega, hdrop_c]
      exact pCloseTag.prefix_append R
    obtain ⟨kc, hkc⟩ := findSubIdx_isSome_of_infix pCloseTag (by decide) _
      (infix_of_prefix_drop _ _ _ hocc)
    rw [matchPara_intro _ 5 kc htags hkc]
    simp
  · have hrest : ((x ++ (m ++ R)) : L).drop 5 = rest := by
      rw [hseq, show (5 : Nat) = 0 + 5 by omega, drop_add_five]
      rfl
    have hdrop_g : (x ++ (m ++ R)).drop (x.length + (lo - 1)) = m.drop (lo - 1) ++ R := by
      rw [List.drop_append, List.drop_append_of_le_length (by omega)]
    have hocc_g : [('>' : Char)] <+: rest.drop (x.length + (lo - 1) - 5) := by
      rw [← hrest, List.drop_drop, show 5 + (x.length + (lo - 1) - 5) =
        x.length + (lo - 1) by omega, hdrop_g]
      exact hgt.trans ((m.drop (lo - 1)).prefix_append R)
    obtain ⟨kg, hkg⟩ := findSubIdx_isSome_of_infix _ (by decide) _
      (infix_of_prefix_drop _ rest _ hocc_g)
    have hkg_le : kg ≤ x.length + (lo - 1) - 5 := by
      by_contra hlt
      exact (findSubIdx_some_first _ rest kg hkg _ (by omega)) hocc_g
    have hcne : c ≠ '>' := by
      intro hc
      rw [hc] at hw
      exact absurd hw (by decide)
    have htags : tagOpenLen 'p' (x ++ (m ++ R)) = some (6 + kg) := by
      rw [hseq]
      exact tagOpenLen_intro_ws 'p' c rest hcne hw kg hkg
    have hocc_c : pCloseTag <+:
        ((x ++ (m ++ R)).drop (6 + kg)).drop (x.length + (m.length - 6) - (6 + kg)) := by
      rw [List.drop_drop, show 6 + kg + (x.length + (m.length - 6) - (6 + kg)) =
        x.length + (m.length - 6) by omega, hdrop_c]
      exact pCloseTag.prefix_append R
    obtain ⟨kc, hkc⟩ := findSubIdx_isSome_of_infix pCloseTag (by decide) _
      (infix_of_prefix_drop _ _ _ hocc_c)
    rw [matchPara_intro _ (6 + kg) kc htags hkc]
    simp

theorem matchPara_nil : matchPara [] = none := rfl

/-- Concatenation of the scanner parts. -/
def joinParts : List (L × L) → L
  | [] => []
  | (m, g) :: rest => m ++ (g ++ joinParts rest)

/-- A paragraph entry is good when the paragraph pattern matches it
exactly. -/
def MGood (m : L) : Prop := matchPara m = some m.length

/-- No position of an inner gap can start a paragraph opener, whatever
paragraph follows: the decision window reaches at most four characters
into the next paragraph, which always starts with `<w:p`. -/
def GapOkInner (g : L) : Prop :=
  ∀ p, p < g.length → pOpenHead (g.drop p ++ str "<w:p") = false

/-- No position of the trailing gap matches the paragraph pattern. -/
def GapOkLast (g : L) : Prop := ∀ p, matchPara (g.drop p) = none

/-- Well-formedness of the gap skeleton of a scanner decomposition. -/
def GapsOK : L → List L → Prop
  | g, [] => GapOkLast g
  | g, g2 :: rest => GapOkInner g ∧ GapsOK g2 rest

/-- Well-formedness of a full scanner decomposition: every paragraph
matches itself, every inner gap is opener-free, and the trailing gap
never matches. -/
def PartsOK : L → List (L × L) → Prop
  | g, [] => GapOkLast g
  | g, (m, g2) :: rest => GapOkInner g ∧ MGood m ∧ PartsOK g2 rest

/-- The conditions the scanner itself guarantees, phrased in the
original context (used to derive `PartsOK`). -/
def RawOK : L → List (L × L) → Prop
  | g, [] => GapOkLast g
  | g, (m, g2) :: rest =>
      (∀ p, p < g.length → matchPara (g.drop p ++ joinParts ((m, g2) :: rest)) = none) ∧
      matchPara (joinParts ((m, g2) :: rest)) = some m.length ∧ RawOK g2 rest

theorem scanParas_shape : ∀ fuel s g0 ps, scanParas fuel s = (g0, ps) → s.length ≤ fuel →
    s = g0 ++ joinParts ps ∧ RawOK g0 ps := by
  intro fuel
  induction fuel with
  | zero =>
      intro s g0 ps h hl
      have hs : s = [] := List.eq_nil_of_length_eq_zero (by omega)
      subst hs
      have h0 : scanParas 0 ([] : L) = (([] : L), ([] : List (L × L))) := rfl
      rw [h0] at h
      cases h
      exact ⟨rfl, fun p => by rw [List.drop_nil]; exact matchPara_nil⟩
  | succ f ih =>
      intro s g0 ps h hl
      cases s with
      | nil =>
          have h0 : scanParas (f + 1) ([] : L) = (([] : L), ([] : List (L × L))) := rfl
          rw [h0] at h
          cases h
          exact ⟨rfl, fun p => by rw [List.drop_nil]; exact matchPara_nil⟩
      | cons c t =>
          rw [scanParas] at h
          cases hm : matchPara (c :: t) with
          | some n =>
              rw [hm] at h
              dsimp only at h
              cases h
              have hpos := matchPara_some_pos _ _ hm
              simp only [List.length_cons] at hpos hl
              obtain ⟨hs, hraw⟩ := ih ((c :: t).drop n)
                (scanParas f ((c :: t).drop n)).1 (scanParas f ((c :: t).drop n)).2
                rfl (by rw [List.length_drop]; simp only [List.length_cons]; omega)
              have hjoin : joinParts (((c :: t).take n, (scanParas f ((c :: t).drop n)).1) ::
                  (scanParas f ((c :: t).drop n)).2) = c :: t := by
                rw [joinParts, ← hs, List.take_append_drop]
              constructor
              · rw [hjoin]
                rfl
              · refine ⟨fun p hp => absurd hp (by simp), ?_, hraw⟩
                rw [hjoin, hm]
                congr 1
                rw [List.length_take]
                simp only [List.length_cons]
                omega
          | none =>
              rw [hm] at h
              dsimp only at h
              cases h
              simp only [List.length_cons] at hl
              obtain ⟨hs, hraw⟩ := ih t (scanParas f t).1 (scanParas f t).2 rfl (by omega)
              constructor
              · rw [List.cons_append, ← hs]
              · cases hps : (scanParas f t).2 with
                | nil =>
                    rw [hps] at hraw hs
                    simp only [RawOK] at hraw ⊢
                    intro p
                    cases p with
                    | zero =>
                        rw [List.drop_zero]
                        rw [joinParts, List.append_nil] at hs
                        rw [← hs]
                        exact hm
                    | succ p2 =>
                        rw [List.drop_succ_cons]
                        exact hraw p2
                | cons mg rest =>
                    obtain ⟨m, g2⟩ := mg
                    rw [hps] at hraw hs
                    simp only [RawOK] at hraw ⊢
                    obtain ⟨hgap, hmatch, hrest⟩ := hraw
                    refine ⟨?_, hmatch, hrest⟩
                    intro p hp
                    cases p with
                    | zero =>
                        rw [List.drop_zero, List.cons_append, ← hs]
                        exact hm
                    | succ p2 =>
                        rw [List.drop_succ_cons]
                        simp only [List.length_cons] at hp
                        exact hgap p2 (by omega)

theorem rawOK_partsOK : ∀ ps g, RawOK g ps → PartsOK g ps := by
  intro ps
  induction ps with
  | nil => intro g h; exact h
  | cons mg rest ih =>
      obtain ⟨m, g2⟩ := mg
      intro g h
      simp only [RawOK] at h
      obtain ⟨hgap, hmatch, hrest⟩ := h
      rw [joinParts] at hmatch
      have hmg : MGood m := by
        have h1 := matchPara_take _ _ hmatch
        rw [List.take_left'] at h1
        · exact h1
        · rfl
      simp only [PartsOK]
      refine ⟨?_, hmg, ih g2 hrest⟩
      intro p hp
      by_contra hne
      have htrue : pOpenHead (g.drop p ++ str "<w:p") = true := by
        cases hb : pOpenHead (g.drop p ++ str "<w:p")
        · exact absurd hb hne
        · rfl
      obtain ⟨h4, h4l⟩ := matchPara_self_take4 m hmg
      have hx : g.drop p ≠ [] := by
        intro hnil
        have := congrArg List.length hnil
        rw [List.length_drop] at this
        simp at this
        omega
      have hwin := pOpenHead_window (g.drop p) m (g2 ++ joinParts rest) hx h4 h4l
      rw [htrue] at hwin
      have hne2 := matchPara_isSome_of_head (g.drop p) m (g2 ++ joinParts rest) hx hmg hwin
      exact hne2 (by rw [← joinParts]; exact hgap p hp)

theorem scanParas_det : ∀ fuel g0 ps, PartsOK g0 ps →
    (g0 ++ joinParts ps).length ≤ fuel → scanParas fuel (g0 ++ joinParts ps) = (g0, ps) := by
  intro fuel
  induction fuel with
  | zero =>
      intro g0 ps h hl
      simp only [List.length_append] at hl
      have hg0 : g0 = [] := List.eq_nil_of_length_eq_zero (by omega)
      cases ps with
      | nil =>
          subst hg0
          rfl
      | cons mg rest =>
          obtain ⟨m, g2⟩ := mg
          simp only [PartsOK] at h
          have := matchPara_some_pos m m.length h.2.1
          rw [joinParts] at hl
          simp only [List.length_append] at hl
          omega
  | succ f ih =>
      intro g0 ps h hl
      cases g0 with
      | cons c t =>
          have hnone : matchPara (c :: (t ++ joinParts ps)) = none := by
            cases ps with
            | nil =>
                rw [joinParts, List.append_nil]
                exact h 0
            | cons mg rest =>
                obtain ⟨m, g2⟩ := mg
                simp only [PartsOK] at h
                obtain ⟨h4, h4l⟩ := matchPara_self_take4 m h.2.1
                have hwin := pOpenHead_window (c :: t) m (g2 ++ joinParts rest)
                  (by simp) h4 h4l
                have hfalse := h.1 0 (by simp)
                rw [List.drop_zero] at hfalse
                rw [hfalse] at hwin
                have := matchPara_none_of_head_false _ hwin
                rw [joinParts]
                simpa using this
          rw [List.cons_append, scanParas, hnone]
          dsimp only
          have hrec : scanParas f (t ++ joinParts ps) = (t, ps) := by
            refine ih t ps ?_ ?_
            · cases ps with
              | nil =>
                  intro p
                  exact h (p + 1)
              | cons mg rest =>
                  obtain ⟨m, g2⟩ := mg
                  simp only [PartsOK] at h ⊢
                  exact ⟨fun p hp => h.1 (p + 1) (by simp only [List.length_cons]; omega),
                    h.2.1, h.2.2⟩
            · simp only [List.cons_append, List.length_cons, List.length_append] at hl ⊢
              omega
          rw [hrec]
      | nil =>
          cases ps with
          | nil => rfl
          | cons mg rest =>
              obtain ⟨m, g2⟩ := mg
              simp only [PartsOK] at h
              obtain ⟨hgap, hmg, hrest⟩ := h
              have hpos := matchPara_some_pos m m.length hmg
              have hm2 : matchPara (m ++ (g2 ++ joinParts rest)) = some m.length :=
                matchPara_append m _ hmg
              cases m with
              | nil => simp at hpos
              | cons mc mt =>
                  rw [List.nil_append, joinParts, List.cons_append, scanParas]
                  rw [List.cons_append] at hm2
                  rw [hm2]
                  dsimp only
                  have htake : (mc :: (mt ++ (g2 ++ joinParts rest))).take (mc :: mt).length =
                      mc :: mt := by
                    rw [← List.cons_append]
                    exact List.take_left' rfl
                  have hdrop : (mc :: (mt ++ (g2 ++ joinParts rest))).drop (mc :: mt).length =
                      g2 ++ joinParts rest := by
                    rw [← List.cons_append]
                    exact List.drop_left' rfl
                  have hrec : scanParas f (g2 ++ joinParts rest) = (g2, rest) := by
                    refine ih g2 rest hrest ?_
                    rw [joinParts] at hl
                    simp only [List.cons_append, List.nil_append, List.length_cons,
                      List.length_append] at hl ⊢
                    simp only [List.length_cons] at hpos
                    omega
                  rw [htake, hdrop, hrec]

theorem partsOK_digest : ∀ ps g, PartsOK g ps →
    GapsOK g (ps.map Prod.snd) ∧ ∀ mg ∈ ps, MGood mg.1 := by
  intro ps
  induction ps with
  | nil => intro g h; exact ⟨h, by simp⟩
  | cons mg rest ih =>
      obtain ⟨m, g2⟩ := mg
      intro g h
      simp only [PartsOK] at h
      obtain ⟨hgi, hmg, hrest⟩ := h
      obtain ⟨hgaps, hms⟩ := ih g2 hrest
      refine ⟨⟨hgi, hgaps⟩, ?_⟩
      intro x hx
      rcases List.mem_cons.1 hx with rfl | hx2
      · exact hmg
      · exact hms x hx2

theorem partsOK_zip : ∀ (ms gs : List L) g, ms.length = gs.length →
    GapsOK g gs → (∀ m ∈ ms, MGood m) → PartsOK g (List.zipWith Prod.mk ms gs) := by
  intro ms
  induction ms with
  | nil =>
      intro gs g hlen hg _
      have : gs = [] := List.eq_nil_of_length_eq_zero (by simp at hlen; omega)
      subst this
      exact hg
  | cons m ms ih =>
      intro gs g hlen hg hms
      cases gs with
      | nil => simp at hlen
      | cons g2 gs2 =>
          simp only [List.zipWith_cons_cons, PartsOK]
          obtain ⟨hgi, hrest⟩ := hg
          refine ⟨hgi, hms m (by simp), ?_⟩
          exact ih gs2 g2 (by simp at hlen; omega) hrest
            (fun x hx => hms x (List.mem_cons_of_mem m hx))

theorem zipWith_mk_fst_snd : ∀ (ps : List (L × L)),
    List.zipWith Prod.mk (ps.map Prod.fst) (ps.map Prod.snd) = ps := by
  intro ps
  induction ps with
  | nil => rfl
  | cons mg rest ih => simp [ih]

theorem joinParts_zip : ∀ (ms gs : List L),
    joinParts (List.zipWith Prod.mk ms gs) =
      (List.zipWith (fun m g => m ++ g) ms gs).flatten := by
  intro ms
  induction ms with
  | nil => intro gs; rfl
  | cons m ms ih =>
      intro gs
      cases gs with
      | nil => rfl
      | cons g gs2 =>
          simp only [List.zipWith_cons_cons, joinParts, List.flatten_cons, ih]
          rw [List.append_assoc]

theorem joinParts_mem_infixes : ∀ (ps : List (L × L)) (mg : L × L), mg ∈ ps →
    mg.1 <:+: joinParts ps ∧ mg.2 <:+: joinParts ps := by
  intro ps
  induction ps with
  | nil => intro mg h; cases h
  | cons hd rest ih =>
      obtain ⟨m, g⟩ := hd
      intro mg hmem
      rw [joinParts]
      rcases List.mem_cons.1 hmem with rfl | h2
      · constructor
        · exact (List.prefix_append _ _).isInfix
        · exact List.IsInfix.trans ((List.prefix_append _ _).isInfix)
            ((List.suffix_append _ _).isInfix)
      · obtain ⟨h1, h2'⟩ := ih mg h2
        constructor
        · exact List.IsInfix.trans h1
            (List.IsInfix.trans ((List.suffix_append _ _).isInfix)
              ((List.suffix_append _ _).isInfix))
        · exact List.IsInfix.trans h2'
            (List.IsInfix.trans ((List.suffix_append _ _).isInfix)
              ((List.suffix_append _ _).isInfix))

theorem infix_exists_drop (pat S : L) (h : pat <:+: S) :
    ∃ p, p + pat.length ≤ S.length ∧ pat <+: S.drop p := by
  obtain ⟨t, t2, ht⟩ := h
  refine ⟨t.length, ?_, ?_⟩
  · rw [← ht]
    simp [List.length_append]
  · rw [← ht, List.append_assoc, List.drop_left']
    · exact pat.prefix_append t2
    · rfl

theorem isPrefix_getD (pat s : L) (d : Char) (q : Nat) (hq : q < pat.length)
    (h : pat <+: s) : s.getD q d = pat.getD q d := by
  obtain ⟨t, rfl⟩ := h
  exact List.getD_append _ _ _ _ hq

theorem getD_drop (l : L) (d : Char) (p q : Nat) :
    (l.drop p).getD q d = l.getD (p + q) d := by
  rw [List.getD_eq_getElem?_getD, List.getD_eq_getElem?_getD, List.getElem?_drop]

theorem getLast?_getD (A : L) (c : Char) (d : Char) (h : A.getLast? = some c) :
    A.getD (A.length - 1) d = c := by
  rw [List.getD_eq_getElem?_getD, ← List.getLast?_eq_getElem?, h]
  rfl

theorem head?_getD (B : L) (c : Char) (d : Char) (h : B.head? = some c) :
    B.getD 0 d = c := by
  cases B with
  | nil => cases h
  | cons b t =>
      rw [List.getD_cons_zero]
      exact Option.some.inj h

theorem no_straddle_gt (A B : L) (p : Nat) (hA : A.getLast? = some '>')
    (hp : p < A.length) (hlen : A.length < p + 9)
    (hpre : bodyCloseTag <+: (A ++ B).drop p) : False := by
  have hq : A.length - 1 - p < 8 := by omega
  have h1 : bodyCloseTag.getD (A.length - 1 - p) ' ' =
      (A ++ B).getD (p + (A.length - 1 - p)) ' ' := by
    rw [← getD_drop]
    exact (isPrefix_getD _ _ ' ' _ (by rw [show bodyCloseTag.length = 9 from rfl]; omega)
      hpre).symm
  rw [show p + (A.length - 1 - p) = A.length - 1 by omega,
    List.getD_append _ _ _ _ (by omega), getLast?_getD A '>' ' ' hA] at h1
  have hno : ∀ q, q < 8 → bodyCloseTag.getD q ' ' ≠ '>' := by decide
  exact hno _ hq h1

theorem no_straddle_head_lt (A B : L) (p : Nat) (hB : B.head? = some '<')
    (hp : p < A.length) (hlen : A.length < p + 9)
    (hpre : bodyCloseTag <+: (A ++ B).drop p) : False := by
  have hq1 : 1 ≤ A.length - p := by omega
  have hq8 : A.length - p < 9 := by omega
  have h1 : bodyCloseTag.getD (A.length - p) ' ' =
      (A ++ B).getD (p + (A.length - p)) ' ' := by
    rw [← getD_drop]
    exact (isPrefix_getD _ _ ' ' _ (by rw [show bodyCloseTag.length = 9 from rfl]; omega)
      hpre).symm
  rw [show p + (A.length - p) = A.length by omega,
    List.getD_append_right _ _ _ _ (le_refl _), Nat.sub_self,
    head?_getD B '<' ' ' hB] at h1
  have hno : ∀ q, 1 ≤ q → q < 9 → bodyCloseTag.getD q ' ' ≠ '<' := by decide
  exact hno _ hq1 hq8 h1

theorem closer_inside_segment (A B : L) (p : Nat) (hfit : p + 9 ≤ A.length)
    (hpre : bodyCloseTag <+: (A ++ B).drop p) : bodyCloseTag <:+: A := by
  rw [List.drop_append_of_le_length (by omega)] at hpre
  have h9 : bodyCloseTag.length ≤ (A.drop p).length := by
    rw [show bodyCloseTag.length = 9 from rfl, List.length_drop]
    omega
  exact infix_of_prefix_drop _ _ _ ((prefix_append_indep B h9).1 hpre)

theorem closer_not_infix_join : ∀ (ms gs : List L),
    ms.length = gs.length →
    (∀ m ∈ ms, ¬ bodyCloseTag <:+: m ∧ m.head? = some '<' ∧ m.getLast? = some '>') →
    (∀ g ∈ gs, ¬ bodyCloseTag <:+: g) →
    ¬ bodyCloseTag <:+: (List.zipWith (fun m g => m ++ g) ms gs).flatten := by
  intro ms
  induction ms with
  | nil =>
      intro gs _ _ _ h
      have := List.infix_nil.1 h
      exact absurd this (by decide)
  | cons m ms2 ih =>
      intro gs hlen hms hgs hinf
      cases gs with
      | nil => simp at hlen
      | cons g gs2 =>
          rw [List.zipWith_cons_cons, List.flatten_cons, List.append_assoc] at hinf
          obtain ⟨hmfree, hmhead, hmlast⟩ := hms m (by simp)
          have hgfree := hgs g (by simp)
          set J := (List.zipWith (fun m g => m ++ g) ms2 gs2).flatten with hJ
          obtain ⟨p, hple, hpre⟩ := infix_exists_drop _ _ hinf
          rw [show bodyCloseTag.length = 9 from rfl] at hple
          by_cases hc1 : p + 9 ≤ m.length
          · exact hmfree (closer_inside_segment m _ p hc1 hpre)
          · by_cases hc2 : p < m.length
            · exact no_straddle_gt m _ p hmlast hc2 (by omega) hpre
            · have hp2 : p = m.length + (p - m.length) := by omega
              rw [hp2, List.drop_append] at hpre
              simp only [List.length_append] at hple
              set p2 := p - m.length with hp2d
              by_cases hc3 : p2 + 9 ≤ g.length
              · exact hgfree (closer_inside_segment g _ p2 hc3 hpre)
              · by_cases hc4 : p2 < g.length
                · cases ms2 with
                  | nil =>
                      have hgs0 : gs2 = [] := by
                        cases gs2 with
                        | nil => rfl
                        | cons a b => simp at hlen
                      subst hgs0
                      have : J = [] := rfl
                      rw [this, List.append_nil] at hpre
                      have := hpre.length_le
                      rw [show bodyCloseTag.length = 9 from rfl, List.length_drop] at this
                      omega
                  | cons m2 ms3 =>
                      cases gs2 with
                      | nil => simp at hlen
                      | cons g2 gs3 =>
                          have hm2 := hms m2 (by simp)
                          have hJhead : J.head? = some '<' := by
                            rw [hJ, List.zipWith_cons_cons, List.flatten_cons,
                              List.append_assoc, List.head?_append, hm2.2.1]
                            rfl
                          exact no_straddle_head_lt g J p2 hJhead hc4 (by omega) hpre
                · have hp3 : p2 = g.length + (p2 - g.length) := by omega
                  rw [hp3, List.drop_append] at hpre
                  exact ih gs2 (by simp at hlen; omega)
                    (fun x hx => hms x (List.mem_cons_of_mem m hx))
                    (fun x hx => hgs x (List.mem_cons_of_mem g hx))
                    (infix_of_prefix_drop _ _ _ hpre)

theorem closer_not_infix_prepend (g0 J : L) (h0 : ¬ bodyCloseTag <:+: g0)
    (hJ : ¬ bodyCloseTag <:+: J) (hhead : J = [] ∨ J.head? = some '<') :
    ¬ bodyCloseTag <:+: (g0 ++ J) := by
  intro hinf
  obtain ⟨p, hple, hpre⟩ := infix_exists_drop _ _ hinf
  rw [show bodyCloseTag.length = 9 from rfl] at hple
  by_cases hc1 : p + 9 ≤ g0.length
  · exact h0 (closer_inside_segment g0 J p hc1 hpre)
  · by_cases hc2 : p < g0.length
    · rcases hhead with rfl | hh
      · rw [List.append_nil] at hpre
        have := hpre.length_le
        rw [show bodyCloseTag.length = 9 from rfl, List.length_drop] at this
        omega
      · exact no_straddle_head_lt g0 J p hh hc2 (by omega) hpre
    · have hp2 : p = g0.length + (p - g0.length) := by omega
      rw [hp2, List.drop_append] at hpre
      exact hJ (infix_of_prefix_drop _ _ _ hpre)

theorem closer_not_infix_body (s : L) (j : Nat)
    (hj : findSubIdx bodyCloseTag s = some j) :
    ¬ bodyCloseTag <:+: s.take j := by
  intro hinf
  obtain ⟨p, hple, hpre⟩ := infix_exists_drop _ _ hinf
  rw [List.length_take] at hple
  rw [List.drop_take] at hpre
  have hp9 : p + 9 ≤ j := by
    rw [show bodyCloseTag.length = 9 from rfl] at hple
    omega
  exact findSubIdx_some_first bodyCloseTag s j hj p (by omega)
    (hpre.trans ⟨_, List.take_append_drop _ _⟩)

theorem findSubIdx_untake (pat v : L) (n k : Nat)
    (h : findSubIdx pat (v.take n) = some k) (hk : k + pat.length ≤ n) :
    findSubIdx pat v = some k := by
  have hle := findSubIdx_some_le pat _ k h
  rw [List.length_take] at hle
  have hdp := findSubIdx_drop_prefix pat _ k h
  rw [List.drop_take] at hdp
  apply findSubIdx_intro
  · omega
  · exact hdp.trans ⟨_, List.take_append_drop _ _⟩
  · intro p hp hpre
    refine findSubIdx_some_first pat (v.take n) k h p hp ?_
    rw [List.drop_take]
    exact prefix_take_of_le _ hpre (by omega)

theorem findSubIdx_congr_take (pat u v : L) (n k : Nat)
    (huv : u.take n = v.take n) (hu : findSubIdx pat u = some k)
    (hk : k + pat.length ≤ n) : findSubIdx pat v = some k := by
  have h1 := findSubIdx_take_stable pat u k n hu hk
  rw [huv] at h1
  exact findSubIdx_untake pat v n k h1 hk

theorem findSubIdx_body_rebuilt (nb T : L) (hnb : ¬ bodyCloseTag <:+: nb)
    (hT : bodyCloseTag <+: T) :
    findSubIdx bodyCloseTag (nb ++ T) = some nb.length := by
  apply findSubIdx_intro
  · simp
  · rw [List.drop_left']
    · exact hT
    · rfl
  · intro p hp hpre
    by_cases hfit : p + 9 ≤ nb.length
    · exact hnb (closer_inside_segment nb T p hfit hpre)
    · have hhead : T.head? = some '<' := by
        obtain ⟨t, rfl⟩ := hT
        rw [List.head?_append]
        rfl
      exact no_straddle_head_lt nb T p hhead hp (by omega) hpre

theorem insertIdx_length_append (xs ys : List L) (a : L) :
    (xs ++ ys).insertIdx xs.length a = xs ++ a :: ys := by
  induction xs with
  | nil => rfl
  | cons x xs ih =>
      simp only [List.cons_append, List.length_cons, List.insertIdx_succ_cons, ih]

theorem eraseIdx_insertIdx_getD (l : List L) (i : Nat) (hi : i < l.length) :
    (l.eraseIdx i).insertIdx i (l.getD i []) = l := by
  have hlen : (l.take i).length = i := by rw [List.length_take]; omega
  rw [List.eraseIdx_eq_take_drop_succ]
  calc (l.take i ++ l.drop (i + 1)).insertIdx i (l.getD i [])
      = (l.take i ++ l.drop (i + 1)).insertIdx (l.take i).length (l.getD i []) := by
        rw [hlen]
    _ = l.take i ++ l.getD i [] :: l.drop (i + 1) := insertIdx_length_append _ _ _
    _ = l := by
        rw [List.getD_eq_getElem l [] hi, ← List.drop_eq_getElem_cons hi,
          List.take_append_drop]

theorem countP_insertIdx (p : L → Bool) (l : List L) (n : Nat) (a : L) (hn : n ≤ l.length) :
    (l.insertIdx n a).countP p = l.countP p + if p a then 1 else 0 := by
  rw [(List.perm_insertIdx a l hn).countP_eq p, List.countP_cons]

theorem countP_eraseIdx_getD (p : L → Bool) (l : List L) (i : Nat) (hi : i < l.length) :
    l.countP p = (l.eraseIdx i).countP p + (if p (l.getD i []) then 1 else 0) := by
  have h1 : l.countP p = (l.take i).countP p + (l.drop i).countP p := by
    conv_lhs => rw [← List.take_append_drop i l]
    rw [List.countP_append]
  have h2 : l.drop i = l.getD i [] :: l.drop (i + 1) := by
    rw [List.getD_eq_getElem l [] hi]
    exact List.drop_eq_getElem_cons hi
  rw [h1, h2, List.countP_cons, List.eraseIdx_eq_take_drop_succ, List.countP_append]
  omega

theorem findIdx?_eq_of_getD (p : L → Bool) (l : List L) (i : Nat) (hi : i < l.length)
    (hp : p (l.getD i []) = true) (hmin : ∀ j, j < i → p (l.getD j []) = false) :
    l.findIdx? p = some i := by
  refine List.findIdx?_eq_some_iff_getElem.2 ⟨hi, ?_, ?_⟩
  · rw [← List.getD_eq_getElem l [] hi]
    exact hp
  · intro j hj
    have hfalse := hmin j hj
    rw [List.getD_eq_getElem l [] (by omega)] at hfalse
    simp [hfalse]

theorem findIdx_eq_of_getD (p : L → Bool) (l : List L) (i : Nat) (hi : i < l.length)
    (hp : p (l.getD i []) = true) (hmin : ∀ j, j < i → p (l.getD j []) = false) :
    l.findIdx p = i := by
  rw [List.findIdx_eq_findIdx?, findIdx?_eq_of_getD p l i hi hp hmin]

theorem getD_eraseIdx_lt (l : List L) (i q : Nat) (hq : q < i) (hi : i < l.length) :
    (l.eraseIdx i).getD q [] = l.getD q [] := by
  have hql : q < (l.eraseIdx i).length := by
    rw [List.length_eraseIdx, if_pos hi]
    omega
  rw [List.getD_eq_getElem _ [] hql, List.getD_eq_getElem l [] (by omega),
    List.getElem_eraseIdx]
  rw [dif_pos hq]

theorem getD_eraseIdx_ge (l : List L) (i q : Nat) (hq : i ≤ q) (hql : q + 1 < l.length) :
    (l.eraseIdx i).getD q [] = l.getD (q + 1) [] := by
  have hil : i < l.length := by omega
  have hq2 : q < (l.eraseIdx i).length := by
    rw [List.length_eraseIdx, if_pos hil]
    omega
  rw [List.getD_eq_getElem _ [] hq2, List.getD_eq_getElem l [] hql,
    List.getElem_eraseIdx]
  rw [dif_neg (by omega)]

theorem getD_insertIdx_lt (l : List L) (a : L) (n q : Nat) (hq : q < n) (hql : q < l.length) :
    (l.insertIdx n a).getD q [] = l.getD q [] := by
  rw [List.getD_eq_getElem _ []
      (lt_of_lt_of_le hql (List.length_le_length_insertIdx l a n)),
    List.getD_eq_getElem l [] hql]
  exact List.getElem_insertIdx_of_lt l a n q hq hql

theorem getD_insertIdx_self (l : List L) (a : L) (n : Nat) (hn : n ≤ l.length) :
    (l.insertIdx n a).getD n [] = a := by
  rw [List.getD_eq_getElem _ [] (by rw [List.length_insertIdx n l hn]; omega)]
  exact List.getElem_insertIdx_self l a n hn

theorem getD_insertIdx_ge (l : List L) (a : L) (n q : Nat) (hn : n ≤ q) (hql : q < l.length) :
    (l.insertIdx n a).getD (q + 1) [] = l.getD q [] := by
  obtain ⟨k, rfl⟩ : ∃ k, q = n + k := ⟨q - n, by omega⟩
  rw [List.getD_eq_getElem _ []
      (by rw [List.length_insertIdx n l (by omega)]; omega),
    List.getD_eq_getElem l [] hql]
  exact List.getElem_insertIdx_add_succ l a n k hql

theorem zipWith_mk_map_fst : ∀ (ms gs : List L), ms.length ≤ gs.length →
    (List.zipWith Prod.mk ms gs).map Prod.fst = ms := by
  intro ms
  induction ms with
  | nil => intro gs _; rfl
  | cons m ms ih =>
      intro gs h
      cases gs with
      | nil => simp at h
      | cons g gs2 =>
          simp only [List.zipWith_cons_cons, List.map_cons]
          rw [ih gs2 (by simp at h; omega)]

theorem zipWith_mk_map_snd : ∀ (ms gs : List L), gs.length ≤ ms.length →
    (List.zipWith Prod.mk ms gs).map Prod.snd = gs := by
  intro ms
  induction ms with
  | nil =>
      intro gs h
      cases gs with
      | nil => rfl
      | cons g gs2 => simp at h
  | cons m ms ih =>
      intro gs h
      cases gs with
      | nil => rfl
      | cons g gs2 =>
          simp only [List.zipWith_cons_cons, List.map_cons]
          rw [ih gs2 (by simp at h; omega)]

theorem splitParas_shape (body : L) :
    body = (splitParas body).1 ++ joinParts (splitParas body).2 ∧
    PartsOK (splitParas body).1 (splitParas body).2 := by
  have h : scanParas body.length body = ((splitParas body).1, (splitParas body).2) := by
    show splitParas body = _
    exact Prod.mk.eta.symm
  obtain ⟨h1, h2⟩ := scanParas_shape body.length body _ _ h (le_refl _)
  exact ⟨h1, rawOK_partsOK _ _ h2⟩

theorem rebuild_id (body : L) :
    rebuildParas (splitParas body).1 ((splitParas body).2.map Prod.snd)
      ((splitParas body).2.map Prod.fst) = body := by
  obtain ⟨h1, _⟩ := splitParas_shape body
  show (splitParas body).1 ++ (List.zipWith (fun m g => m ++ g)
      ((splitParas body).2.map Prod.fst) ((splitParas body).2.map Prod.snd)).flatten = body
  rw [← joinParts_zip, zipWith_mk_fst_snd, ← h1]

theorem take_body_drop (xml : L) (bs j : Nat) :
    xml.take bs ++ ((xml.drop bs).take j ++ xml.drop (bs + j)) = xml := by
  have h1 : xml.drop (bs + j) = (xml.drop bs).drop j := by
    rw [List.drop_drop]
  rw [h1, List.take_append_drop, List.take_append_drop]

theorem move_relocate_form (xml body : L) (i j sayiIdx : Nat)
    (g0 : L) (ps : List (L × L)) (paras : List L)
    (hi : findSubIdx bodyOpenTag xml = some i)
    (hj : findSubIdx bodyCloseTag (xml.drop (i + bodyOpenTag.length)) = some j)
    (hbody : body = (xml.drop (i + bodyOpenTag.length)).take j)
    (hsplit : splitParas body = (g0, ps))
    (hparas : paras = ps.map Prod.fst)
    (hone : paras.countP hasPark = 1)
    (hs : paras.findIdx? hasSayi = some sayiIdx)
    (hne : paras.findIdx hasPark ≠ sayiIdx) :
    move_park_teknik_to_top xml = Except.ok
      (xml.take (i + bodyOpenTag.length) ++
        rebuildParas g0 (ps.map Prod.snd)
          ((paras.eraseIdx (paras.findIdx hasPark)).insertIdx
            (if sayiIdx < paras.findIdx hasPark then sayiIdx else sayiIdx - 1)
            (paras.getD (paras.findIdx hasPark) [])) ++
        xml.drop (i + bodyOpenTag.length + j)) := by
  have hne2 : ¬ paras.isEmpty = true := by
    intro he
    rw [List.isEmpty_iff] at he
    rw [he] at hone
    simp at hone
  rw [move_park_teknik_to_top, hi]
  dsimp only
  rw [hj]
  dsimp only
  rw [← hbody, hsplit]
  dsimp only
  rw [← hparas, if_neg hne2, if_neg (fun hx => hx hone), hs]
  dsimp only
  rw [if_neg hne]

theorem move_same_eval (xml body : L) (i j sayiIdx : Nat)
    (g0 : L) (ps : List (L × L)) (paras : List L)
    (hi : findSubIdx bodyOpenTag xml = some i)
    (hj : findSubIdx bodyCloseTag (xml.drop (i + bodyOpenTag.length)) = some j)
    (hbody : body = (xml.drop (i + bodyOpenTag.length)).take j)
    (hsplit : splitParas body = (g0, ps))
    (hparas : paras = ps.map Prod.fst)
    (hone : paras.countP hasPark = 1)
    (hs : paras.findIdx? hasSayi = some sayiIdx)
    (heq : paras.findIdx hasPark = sayiIdx) :
    move_park_teknik_to_top xml = Except.ok xml := by
  have hne2 : ¬ paras.isEmpty = true := by
    intro he
    rw [List.isEmpty_iff] at he
    rw [he] at hone
    simp at hone
  rw [move_park_teknik_to_top, hi]
  dsimp only
  rw [hj]
  dsimp only
  rw [← hbody, hsplit]
  dsimp only
  rw [← hparas, if_neg hne2, if_neg (fun hx => hx hone), hs]
  dsimp only
  rw [if_pos heq]

theorem move_relocate_idem (xml body : L) (i j sayiIdx : Nat)
    (g0 : L) (ps : List (L × L)) (paras gaps : List L)
    (parkIdx insertAt : Nat) (park : L) (removed newParas : List L) (nb y : L)
    (hi : findSubIdx bodyOpenTag xml = some i)
    (hj : findSubIdx bodyCloseTag (xml.drop (i + bodyOpenTag.length)) = some j)
    (hbody : body = (xml.drop (i + bodyOpenTag.length)).take j)
    (hsplit : splitParas body = (g0, ps))
    (hparas : paras = ps.map Prod.fst)
    (hgaps : gaps = ps.map Prod.snd)
    (hone : paras.countP hasPark = 1)
    (hs : paras.findIdx? hasSayi = some sayiIdx)
    (hparkIdx : parkIdx = paras.findIdx hasPark)
    (hne : parkIdx ≠ sayiIdx)
    (hpark : park = paras.getD parkIdx [])
    (hremoved : removed = paras.eraseIdx parkIdx)
    (hinsertAt : insertAt = if sayiIdx < parkIdx then sayiIdx else sayiIdx - 1)
    (hnewP : newParas = removed.insertIdx insertAt park)
    (hnb : nb = rebuildParas g0 gaps newParas)
    (hy : y = xml.take (i + bodyOpenTag.length) ++ nb ++
      xml.drop (i + bodyOpenTag.length + j)) :
    move_park_teknik_to_top y = Except.ok y := by
  -- scan facts for the original body
  obtain ⟨hbodyeq, hPOK⟩ := splitParas_shape body
  rw [hsplit] at hbodyeq hPOK
  dsimp only at hbodyeq hPOK
  obtain ⟨hGaps0, hMs⟩ := partsOK_digest ps g0 hPOK
  rw [← hgaps] at hGaps0
  have hMsD : ∀ m ∈ paras, MGood m := by
    intro m hm
    rw [hparas] at hm
    obtain ⟨mg, hmg, rfl⟩ := List.mem_map.1 hm
    exact hMs mg hmg
  -- paragraph index facts
  have hplen : parkIdx < paras.length := by
    rw [hparkIdx]
    exact List.findIdx_lt_length_of_exists (List.countP_pos_iff.1 (by omega))
  have hpark_true : hasPark park = true := by
    have h2 : hasPark (paras.getD (paras.findIdx hasPark) []) = true := by
      rw [List.getD_eq_getElem _ _ (by rw [← hparkIdx]; exact hplen)]
      exact List.findIdx_getElem
    rw [hpark, hparkIdx]
    exact h2
  obtain ⟨hslen, hsayi_true, hsayi_min⟩ := List.findIdx?_eq_some_iff_getElem.1 hs
  have hsayiD : hasSayi (paras.getD sayiIdx []) = true := by
    rw [List.getD_eq_getElem _ _ hslen]
    exact hsayi_true
  have hsminD : ∀ q, q < sayiIdx → hasSayi (paras.getD q []) = false := by
    intro q hq
    rw [List.getD_eq_getElem _ _ (by omega)]
    have h2 := hsayi_min q hq
    cases hb : hasSayi paras[q]
    · rfl
    · exact absurd hb h2
  have hcount_removed : removed.countP hasPark = 0 := by
    have hdec := countP_eraseIdx_getD hasPark paras parkIdx hplen
    rw [← hpark, ← hremoved, hone, if_pos hpark_true] at hdec
    omega
  have hremoved_free : ∀ x ∈ removed, hasPark x = false := by
    intro x hx
    have h2 := List.countP_eq_zero.1 hcount_removed x hx
    cases hb : hasPark x
    · rfl
    · exact absurd hb h2
  have hremoved_len : removed.length = paras.length - 1 := by
    rw [hremoved, List.length_eraseIdx, if_pos hplen]
  have hins_le : insertAt ≤ removed.length := by
    rw [hinsertAt, hremoved_len]
    by_cases hlt : sayiIdx < parkIdx
    · rw [if_pos hlt]; omega
    · rw [if_neg hlt]; omega
  have hins_lt : insertAt < removed.length := by
    rw [hinsertAt, hremoved_len]
    by_cases hlt : sayiIdx < parkIdx
    · rw [if_pos hlt]; omega
    · rw [if_neg hlt]; omega
  have hnewlen : newParas.length = paras.length := by
    rw [hnewP, List.length_insertIdx _ _ hins_le, hremoved_len]
    omega
  have hnew_mem : ∀ m ∈ newParas, m ∈ paras := by
    intro m hm
    rw [hnewP] at hm
    rcases (List.mem_insertIdx hins_le).1 hm with rfl | hm2
    · rw [hpark, List.getD_eq_getElem _ _ hplen]
      exact List.getElem_mem _
    · rw [hremoved] at hm2
      exact List.mem_of_mem_eraseIdx hm2
  have hnew_good : ∀ m ∈ newParas, MGood m := fun m hm => hMsD m (hnew_mem m hm)
  have hlen_pg : paras.length = gaps.length := by
    rw [hparas, hgaps, List.length_map, List.length_map]
  have hlen_ng : newParas.length = gaps.length := by omega
  have hPOK2 : PartsOK g0 (List.zipWith Prod.mk newParas gaps) :=
    partsOK_zip newParas gaps g0 hlen_ng hGaps0 hnew_good
  have hnb2 : nb = g0 ++ joinParts (List.zipWith Prod.mk newParas gaps) := by
    rw [hnb, joinParts_zip]
    rfl
  have hscan_nb : splitParas nb = (g0, List.zipWith Prod.mk newParas gaps) := by
    rw [hnb2]
    exact scanParas_det _ g0 _ hPOK2 (le_refl _)
  -- closer-freedom of the rebuilt body
  have hbody_free : ¬ bodyCloseTag <:+: body := by
    rw [hbody]
    exact closer_not_infix_body _ j hj
  have hjoin_inf : joinParts ps <:+: body := by
    rw [hbodyeq]
    exact (List.suffix_append _ _).isInfix
  have hg0_free : ¬ bodyCloseTag <:+: g0 := by
    intro h
    exact hbody_free (h.trans (by rw [hbodyeq]; exact (List.prefix_append _ _).isInfix))
  have hparas_free : ∀ m ∈ paras, ¬ bodyCloseTag <:+: m := by
    intro m hm
    rw [hparas] at hm
    obtain ⟨mg, hmg, rfl⟩ := List.mem_map.1 hm
    intro h
    exact hbody_free (h.trans ((joinParts_mem_infixes ps mg hmg).1.trans hjoin_inf))
  have hgaps_free : ∀ g ∈ gaps, ¬ bodyCloseTag <:+: g := by
    intro g hg
    rw [hgaps] at hg
    obtain ⟨mg, hmg, rfl⟩ := List.mem_map.1 hg
    intro h
    exact hbody_free (h.trans ((joinParts_mem_infixes ps mg hmg).2.trans hjoin_inf))
  have hN : ¬ bodyCloseTag <:+: (List.zipWith (fun m g => m ++ g) newParas gaps).flatten :=
    closer_not_infix_join newParas gaps hlen_ng
      (fun m hm => ⟨hparas_free m (hnew_mem m hm), matchPara_self_head m (hnew_good m hm),
        matchPara_self_getLast m (hnew_good m hm)⟩)
      hgaps_free
  have hnb_free : ¬ bodyCloseTag <:+: nb := by
    rw [hnb2]
    refine closer_not_infix_prepend g0 _ hg0_free (by rw [joinParts_zip]; exact hN) ?_
    cases hcn : newParas with
    | nil => left; rfl
    | cons m ms2 =>
        cases hcg : gaps with
        | nil => left; rfl
        | cons g gs2 =>
            right
            rw [List.zipWith_cons_cons, joinParts, List.head?_append, List.head?_append,
              matchPara_self_head m (hnew_good m (by rw [hcn]; simp))]
            rfl
  -- structure of y
  have hbs_le : i + bodyOpenTag.length ≤ xml.length := findSubIdx_some_le _ _ _ hi
  have hytake : y.take (i + bodyOpenTag.length) = xml.take (i + bodyOpenTag.length) := by
    rw [hy, List.append_assoc]
    exact List.take_left' (by rw [List.length_take]; omega)
  have hydrop : y.drop (i + bodyOpenTag.length) = nb ++
      xml.drop (i + bodyOpenTag.length + j) := by
    rw [hy, List.append_assoc]
    exact List.drop_left' (by rw [List.length_take]; omega)
  have hi2 : findSubIdx bodyOpenTag y = some i :=
    findSubIdx_congr_take bodyOpenTag xml y (i + bodyOpenTag.length) i hytake.symm hi
      (le_refl _)
  have hT_pre : bodyCloseTag <+: xml.drop (i + bodyOpenTag.length + j) := by
    have h2 := findSubIdx_drop_prefix _ _ _ hj
    rw [List.drop_drop] at h2
    exact h2
  have hj2 : findSubIdx bodyCloseTag (y.drop (i + bodyOpenTag.length)) = some nb.length := by
    rw [hydrop]
    exact findSubIdx_body_rebuilt nb _ hnb_free hT_pre
  -- indices inside the new paragraph list
  have hget_new_insert : newParas.getD insertAt [] = park := by
    rw [hnewP]
    exact getD_insertIdx_self removed park insertAt hins_le
  have hfindPark2 : newParas.findIdx hasPark = insertAt := by
    apply findIdx_eq_of_getD hasPark newParas insertAt (by omega)
    · rw [hget_new_insert]
      exact hpark_true
    · intro q hq
      have hq2 : q < removed.length := by omega
      rw [hnewP, getD_insertIdx_lt removed park insertAt q hq hq2]
      refine hremoved_free _ ?_
      rw [List.getD_eq_getElem _ _ hq2]
      exact List.getElem_mem _
  have hins_le_s : insertAt ≤ sayiIdx := by
    rw [hinsertAt]
    by_cases hlt : sayiIdx < parkIdx
    · rw [if_pos hlt]
    · rw [if_neg hlt]; omega
  have hget_after : newParas.getD (insertAt + 1) [] = paras.getD sayiIdx [] := by
    by_cases hlt : sayiIdx < parkIdx
    · have hia : insertAt = sayiIdx := by rw [hinsertAt, if_pos hlt]
      rw [hnewP, hia, getD_insertIdx_ge removed park sayiIdx sayiIdx (le_refl _) (by omega),
        hremoved, getD_eraseIdx_lt paras parkIdx sayiIdx hlt hplen]
    · have hgt : parkIdx < sayiIdx := by omega
      have hia : insertAt = sayiIdx - 1 := by rw [hinsertAt, if_neg hlt]
      rw [hnewP, hia,
        getD_insertIdx_ge removed park (sayiIdx - 1) (sayiIdx - 1) (le_refl _) (by omega),
        hremoved, getD_eraseIdx_ge paras parkIdx (sayiIdx - 1) (by omega) (by omega)]
      congr 1
      omega
  have hcount2 : newParas.countP hasPark = 1 := by
    rw [hnewP, countP_insertIdx hasPark removed insertAt park hins_le, hcount_removed,
      if_pos hpark_true]
  have hne_nil : ¬ newParas.isEmpty = true := by
    rw [List.isEmpty_iff]
    intro h2
    rw [h2] at hnewlen
    simp at hnewlen
    omega
  have hbody2 : (y.drop (i + bodyOpenTag.length)).take nb.length = nb := by
    rw [hydrop]
    exact List.take_left' rfl
  have hmapfst : (List.zipWith Prod.mk newParas gaps).map Prod.fst = newParas :=
    zipWith_mk_map_fst newParas gaps (by omega)
  have hmapsnd : (List.zipWith Prod.mk newParas gaps).map Prod.snd = gaps :=
    zipWith_mk_map_snd newParas gaps (by omega)
  have hydrop2 : y.drop (i + bodyOpenTag.length + nb.length) =
      xml.drop (i + bodyOpenTag.length + j) := by
    rw [hy]
    exact List.drop_left' (by rw [List.length_append, List.length_take]; omega)
  -- case split on whether the moved paragraph is itself the new first anchor
  by_cases hcase : sayiIdx < parkIdx ∧ hasSayi park = true
  · -- the park paragraph lands at the old anchor position and is itself an anchor
    have hia : insertAt = sayiIdx := by rw [hinsertAt, if_pos hcase.1]
    have hfinds2 : newParas.findIdx? hasSayi = some insertAt := by
      apply findIdx?_eq_of_getD hasSayi newParas insertAt (by omega)
      · rw [hget_new_insert]
        exact hcase.2
      · intro q hq
        rw [hnewP, getD_insertIdx_lt removed park insertAt q hq (by omega),
          hremoved, getD_eraseIdx_lt paras parkIdx q (by omega) hplen]
        exact hsminD q (by omega)
    rw [move_park_teknik_to_top, hi2]
    dsimp only
    rw [hj2]
    dsimp only
    rw [hbody2, hscan_nb]
    dsimp only
    rw [hmapfst, if_neg hne_nil, if_neg (fun hx => hx hcount2), hfinds2]
    dsimp only
    rw [hfindPark2, if_pos rfl]
  · -- the park paragraph sits strictly before the (unchanged) first anchor
    have hpark_sayi : hasSayi park = false := by
      by_cases hlt : sayiIdx < parkIdx
      · have h2 : ¬ hasSayi park = true := fun h2 => hcase ⟨hlt, h2⟩
        cases hb : hasSayi park
        · rfl
        · exact absurd hb h2
      · rw [hpark]
        exact hsminD parkIdx (by omega)
    have hfinds2 : newParas.findIdx? hasSayi = some (insertAt + 1) := by
      have hia1 : insertAt + 1 < newParas.length := by
        rw [hnewlen]
        by_cases hlt : sayiIdx < parkIdx
        · have : insertAt = sayiIdx := by rw [hinsertAt, if_pos hlt]
          omega
        · have : insertAt = sayiIdx - 1 := by rw [hinsertAt, if_neg hlt]
          omega
      apply findIdx?_eq_of_getD hasSayi newParas (insertAt + 1) hia1
      · rw [hget_after]
        exact hsayiD
      · intro q hq
        by_cases hqi : q < insertAt
        · rw [hnewP, getD_insertIdx_lt removed park insertAt q hqi (by omega)]
          by_cases hqp : q < parkIdx
          · rw [hremoved, getD_eraseIdx_lt paras parkIdx q hqp hplen]
            exact hsminD q (by omega)
          · have hgt : parkIdx < sayiIdx := by
              by_contra hc
              have hlt : sayiIdx < parkIdx := by omega
              have : insertAt = sayiIdx := by rw [hinsertAt, if_pos hlt]
              omega
            have hia : insertAt = sayiIdx - 1 := by
              rw [hinsertAt, if_neg (by omega)]
            rw [hremoved, getD_eraseIdx_ge paras parkIdx q (by omega) (by omega)]
            exact hsminD (q + 1) (by omega)
        · have hq2 : q = insertAt := by omega
          rw [hq2, hget_new_insert]
          exact hpark_sayi
    rw [move_park_teknik_to_top, hi2]
    dsimp only
    rw [hj2]
    dsimp only
    rw [hbody2, hscan_nb]
    dsimp only
    rw [hmapfst, if_neg hne_nil, if_neg (fun hx => hx hcount2), hfinds2]
    dsimp only
    rw [hfindPark2, if_neg (by omega), hmapsnd, if_neg (by omega : ¬ insertAt + 1 < insertAt),
      Nat.add_sub_cancel, hget_new_insert, hnewP, List.eraseIdx_insertIdx, ← hnewP, ← hnb,
      hytake, hydrop2, ← hy]

theorem relocation_facts (paras : List L) (sayiIdx parkIdx insertAt : Nat)
    (park : L) (removed newParas : List L)
    (hone : paras.countP hasPark = 1)
    (hs : paras.findIdx? hasSayi = some sayiIdx)
    (hparkIdx : parkIdx = paras.findIdx hasPark)
    (hne : parkIdx ≠ sayiIdx)
    (hpark : park = paras.getD parkIdx [])
    (hremoved : removed = paras.eraseIdx parkIdx)
    (hinsertAt : insertAt = if sayiIdx < parkIdx then sayiIdx else sayiIdx - 1)
    (hnewP : newParas = removed.insertIdx insertAt park) :
    newParas.getD insertAt [] = park ∧
    newParas.getD (insertAt + 1) [] = paras.getD sayiIdx [] ∧
    newParas.eraseIdx insertAt = removed ∧
    newParas.length = paras.length := by
  have hplen : parkIdx < paras.length := by
    rw [hparkIdx]
    exact List.findIdx_lt_length_of_exists (List.countP_pos_iff.1 (by omega))
  obtain ⟨hslen, hsayi_true, hsayi_min⟩ := List.findIdx?_eq_some_iff_getElem.1 hs
  have hremoved_len : removed.length = paras.length - 1 := by
    rw [hremoved, List.length_eraseIdx, if_pos hplen]
  have hins_le : insertAt ≤ removed.length := by
    rw [hinsertAt, hremoved_len]
    by_cases hlt : sayiIdx < parkIdx
    · rw [if_pos hlt]; omega
    · rw [if_neg hlt]; omega
  refine ⟨?_, ?_, ?_, ?_⟩
  · rw [hnewP]
    exact getD_insertIdx_self removed park insertAt hins_le
  · by_cases hlt : sayiIdx < parkIdx
    · have hia : insertAt = sayiIdx := by rw [hinsertAt, if_pos hlt]
      rw [hnewP, hia,
        getD_insertIdx_ge removed park sayiIdx sayiIdx (le_refl _) (by omega),
        hremoved, getD_eraseIdx_lt paras parkIdx sayiIdx hlt hplen]
    · have hgt : parkIdx < sayiIdx := by omega
      have hia : insertAt = sayiIdx - 1 := by rw [hinsertAt, if_neg hlt]
      rw [hnewP, hia,
        getD_insertIdx_ge removed park (sayiIdx - 1) (sayiIdx - 1) (le_refl _) (by omega),
        hremoved, getD_eraseIdx_ge paras parkIdx (sayiIdx - 1) (by omega) (by omega)]
      congr 1
      omega
  · rw [hnewP]
    exact List.eraseIdx_insertIdx insertAt removed
  · rw [hnewP, List.length_insertIdx _ _ hins_le, hremoved_len]
    omega

/-- **C5.** Corrected relocation specification: under the success
preconditions (a body block, exactly one PARK TEKNİK paragraph, at least
one Sayı paragraph) the operation always succeeds and is idempotent; it
returns its input unchanged both when the moved paragraph already sits
immediately before the first anchor paragraph AND when the moved
paragraph is itself the first anchor paragraph (the claim's relocation
promise fails in the latter case); otherwise the moved paragraph is
reinserted immediately before the paragraph that was the first anchor,
and the relative order of all other paragraphs is preserved
(`newParas.eraseIdx insertAt = paragraphs.eraseIdx parkIdx`). -/
theorem move_park_teknik_to_top_spec (xml : L) (i j sayiIdx : Nat)
    (hi : findSubIdx bodyOpenTag xml = some i)
    (hj : findSubIdx bodyCloseTag (xml.drop (i + bodyOpenTag.length)) = some j)
    (paragraphs : List L)
    (hp : paragraphs =
      (splitParas ((xml.drop (i + bodyOpenTag.length)).take j)).2.map Prod.fst)
    (hone : paragraphs.countP hasPark = 1)
    (hs : paragraphs.findIdx? hasSayi = some sayiIdx) :
    ∃ y, move_park_teknik_to_top xml = Except.ok y ∧
      move_park_teknik_to_top y = Except.ok y ∧
      (paragraphs.findIdx hasPark = sayiIdx → y = xml) ∧
      (paragraphs.findIdx hasPark + 1 = sayiIdx → y = xml) ∧
      (∀ parkIdx insertAt newParas,
        parkIdx = paragraphs.findIdx hasPark →
        insertAt = (if sayiIdx < parkIdx then sayiIdx else sayiIdx - 1) →
        newParas = (paragraphs.eraseIdx parkIdx).insertIdx insertAt
          (paragraphs.getD parkIdx []) →
        parkIdx ≠ sayiIdx →
          newParas.getD insertAt [] = paragraphs.getD parkIdx [] ∧
          newParas.getD (insertAt + 1) [] = paragraphs.getD sayiIdx [] ∧
          newParas.eraseIdx insertAt = paragraphs.eraseIdx parkIdx ∧
          newParas.length = paragraphs.length ∧
          y = xml.take (i + bodyOpenTag.length) ++
            rebuildParas (splitParas ((xml.drop (i + bodyOpenTag.length)).take j)).1
              ((splitParas ((xml.drop (i + bodyOpenTag.length)).take j)).2.map Prod.snd)
              newParas ++
            xml.drop (i + bodyOpenTag.length + j)) := by
  have hplen : paragraphs.findIdx hasPark < paragraphs.length :=
    List.findIdx_lt_length_of_exists (List.countP_pos_iff.1 (by omega))
  by_cases hpk : paragraphs.findIdx hasPark = sayiIdx
  · have hok := move_same_eval xml ((xml.drop (i + bodyOpenTag.length)).take j) i j sayiIdx
      (splitParas ((xml.drop (i + bodyOpenTag.length)).take j)).1
      (splitParas ((xml.drop (i + bodyOpenTag.length)).take j)).2
      paragraphs hi hj rfl Prod.mk.eta.symm hp hone hs hpk
    refine ⟨xml, hok, hok, fun _ => rfl, fun _ => rfl, ?_⟩
    intro pk ia np h1 h2 h3 hne2
    exact absurd (h1.trans hpk) hne2
  · have hform := move_relocate_form xml ((xml.drop (i + bodyOpenTag.length)).take j) i j
      sayiIdx (splitParas ((xml.drop (i + bodyOpenTag.length)).take j)).1
      (splitParas ((xml.drop (i + bodyOpenTag.length)).take j)).2
      paragraphs hi hj rfl Prod.mk.eta.symm hp hone hs hpk
    refine ⟨_, hform, ?_, fun h => absurd h hpk, ?_, ?_⟩
    · exact move_relocate_idem xml ((xml.drop (i + bodyOpenTag.length)).take j) i j sayiIdx
        (splitParas ((xml.drop (i + bodyOpenTag.length)).take j)).1
        (splitParas ((xml.drop (i + bodyOpenTag.length)).take j)).2
        paragraphs
        ((splitParas ((xml.drop (i + bodyOpenTag.length)).take j)).2.map Prod.snd)
        (paragraphs.findIdx hasPark)
        (if sayiIdx < paragraphs.findIdx hasPark then sayiIdx else sayiIdx - 1)
        (paragraphs.getD (paragraphs.findIdx hasPark) [])
        (paragraphs.eraseIdx (paragraphs.findIdx hasPark))
        ((paragraphs.eraseIdx (paragraphs.findIdx hasPark)).insertIdx
          (if sayiIdx < paragraphs.findIdx hasPark then sayiIdx else sayiIdx - 1)
          (paragraphs.getD (paragraphs.findIdx hasPark) []))
        (rebuildParas (splitParas ((xml.drop (i + bodyOpenTag.length)).take j)).1
          ((splitParas ((xml.drop (i + bodyOpenTag.length)).take j)).2.map Prod.snd)
          ((paragraphs.eraseIdx (paragraphs.findIdx hasPark)).insertIdx
            (if sayiIdx < paragraphs.findIdx hasPark then sayiIdx else sayiIdx - 1)
            (paragraphs.getD (paragraphs.findIdx hasPark) [])))
        _ hi hj rfl Prod.mk.eta.symm hp rfl hone hs rfl hpk rfl rfl rfl rfl rfl rfl
    · intro hadj
      have hia : (if sayiIdx < paragraphs.findIdx hasPark then sayiIdx else sayiIdx - 1) =
          paragraphs.findIdx hasPark := by
        rw [if_neg (by omega)]
        omega
      rw [hia, eraseIdx_insertIdx_getD paragraphs _ hplen, hp, rebuild_id,
        List.append_assoc]
      exact take_body_drop xml (i + bodyOpenTag.length) j
    · intro pk ia np h1 h2 h3 hne2
      obtain ⟨f1, f2, f3, f4⟩ := relocation_facts paragraphs sayiIdx pk ia
        (paragraphs.getD pk []) (paragraphs.eraseIdx pk) np hone hs h1 hne2 rfl rfl h2 h3
      refine ⟨f1, f2, f3, f4, ?_⟩
      rw [h3, h2, h1]

/-- A template body whose unique PARK TEKNİK paragraph is itself the
first Sayı paragraph. -/
def parkAnchorXml : L :=
  str "<w:body><w:p>a <w:t xml:space=\"preserve\">PARK TEKNİK</w:t> >Sayı< b</w:p><w:p>c</w:p></w:body>"

theorem move_park_anchor_unmoved_cex :
    ((splitParas ((parkAnchorXml.drop (0 + bodyOpenTag.length)).take 77)).2.map
      Prod.fst).countP hasPark = 1 ∧
    ((splitParas ((parkAnchorXml.drop (0 + bodyOpenTag.length)).take 77)).2.map
      Prod.fst).findIdx? hasSayi = some 0 ∧
    ((splitParas ((parkAnchorXml.drop (0 + bodyOpenTag.length)).take 77)).2.map
      Prod.fst).findIdx hasPark = 0 ∧
    ((splitParas ((parkAnchorXml.drop (0 + bodyOpenTag.length)).take 77)).2.map
      Prod.fst).findIdx hasPark + 1 ≠ 0 ∧
    findSubIdx bodyOpenTag parkAnchorXml = some 0 ∧
    findSubIdx bodyCloseTag (parkAnchorXml.drop (0 + bodyOpenTag.length)) = some 77 ∧
    move_park_teknik_to_top parkAnchorXml = Except.ok parkAnchorXml :=
  ⟨by decide, by decide, by decide, by decide, by decide, by decide, rfl⟩

/-- A template body whose PARK TEKNİK paragraph sits after the first
Sayı paragraph. -/
def parkMoveXml : L :=
  str "<w:body><w:p>x >Sayı< y</w:p><w:p><w:t xml:space=\"preserve\">PARK TEKNİK</w:t></w:p></w:body>"

/-- The paragraph list of `parkMoveXml`. -/
def parkMoveParas : List L :=
  (splitParas ((parkMoveXml.drop (0 + bodyOpenTag.length)).take 75)).2.map Prod.fst

theorem move_park_teknik_to_top_spec_witness :
    ∃ y, move_park_teknik_to_top parkMoveXml = Except.ok y ∧
      move_park_teknik_to_top y = Except.ok y ∧
      (parkMoveParas.findIdx hasPark = 0 → y = parkMoveXml) ∧
      (parkMoveParas.findIdx hasPark + 1 = 0 → y = parkMoveXml) ∧
      (∀ parkIdx insertAt newParas,
        parkIdx = parkMoveParas.findIdx hasPark →
        insertAt = (if 0 < parkIdx then 0 else 0 - 1) →
        newParas = (parkMoveParas.eraseIdx parkIdx).insertIdx insertAt
          (parkMoveParas.getD parkIdx []) →
        parkIdx ≠ 0 →
          newParas.getD insertAt [] = parkMoveParas.getD parkIdx [] ∧
          newParas.getD (insertAt + 1) [] = parkMoveParas.getD 0 [] ∧
          newParas.eraseIdx insertAt = parkMoveParas.eraseIdx parkIdx ∧
          newParas.length = parkMoveParas.length ∧
          y = parkMoveXml.take (0 + bodyOpenTag.length) ++
            rebuildParas (splitParas ((parkMoveXml.drop (0 + bodyOpenTag.length)).take 75)).1
              ((splitParas ((parkMoveXml.drop (0 + bodyOpenTag.length)).take 75)).2.map
                Prod.snd)
              newParas ++
            parkMoveXml.drop (0 + bodyOpenTag.length + 75)) :=
  move_park_teknik_to_top_spec parkMoveXml 0 75 0 (by decide) (by decide)
    parkMoveParas rfl (by decide) (by decide)


end Muz
